import Mathlib

/-!
# Verification of the vitest-memfs volume comparison core

This file gives a shallow embedding, in Lean 4, of the core of the
`vitest-memfs` library and settles a list of claims about it:

* the entry / flat-map data model (`src/util/volume.ts`),
* the comparison engine `compareVolumeMaps` with its `first` and `all`
  report modes (`src/util/volume-compare.ts`),
* the existence matcher `matchEntries` (`src/util/volume-entries.ts`),
* the tree flattening `volumeToMap`, and the snapshot persistence
  adapter `writeVolumeToDir` / `readDirToMap` (`src/util/volume.ts`),
* the snapshot update-state decision of the `toMatchVolumeSnapshot`
  matcher (`src/matchers/toMatchVolumeSnapshot.ts`).

Conventions of the embedding:

* JavaScript `Buffer`s are byte lists (`List Nat`).
* A JavaScript object used as a map (`VolumeMap`, diff records) is an
  association list in insertion order with unique keys; `obj[k]` is
  `List.lookup` and `k in obj` is `isSome` of the lookup.
* `Array.prototype.sort()` on string arrays is `List.insertionSort (· ≤ ·)`
  over Lean's lexicographic string order.
* The external `istextorbinary.isText` classifier is an opaque parameter
  `isText : String → List Nat → Bool`.
* Asynchronous I/O with bounded concurrency (`p-limit`) is sequentialized;
  all affected operations address disjoint paths, so order is irrelevant.
-/

set_option autoImplicit false

namespace VitestMemfs

/-! ## Entry model (`VolumeEntry`, `VolumeMap` of `src/util/volume.ts`) -/

/-- `VolumeEntry`: a file with its bytes, a symlink with its literal
target, or an empty-directory marker. -/
inductive VolumeEntry where
  | file (data : List Nat)
  | symlink (target : String)
  | emptyDir
deriving DecidableEq, Repr

/-- The `kind` discriminator string of a `VolumeEntry`
(`'file' | 'symlink' | 'empty-dir'`). -/
def VolumeEntry.kindName : VolumeEntry → String
  | .file _ => "file"
  | .symlink _ => "symlink"
  | .emptyDir => "empty-dir"

/-- `VolumeMap`: a JavaScript object mapping paths to entries, embedded as
an association list in insertion order with unique keys. -/
abbrev VolumeMap := List (String × VolumeEntry)

/-- Property read `m[k]`. -/
def VolumeMap.lookup (m : VolumeMap) (k : String) : Option VolumeEntry :=
  List.lookup k m

/-- `Object.keys(m)`. -/
def VolumeMap.keys (m : VolumeMap) : List String :=
  m.map Prod.fst

/-- The JavaScript `k in m` test. -/
def VolumeMap.hasKey (m : VolumeMap) (k : String) : Bool :=
  (m.lookup k).isSome

/-- Lexicographic comparison of character lists by code point, embedding
the code-unit-wise comparison JavaScript's default string sort uses. -/
def dataLe : List Char → List Char → Bool
  | [], _ => true
  | _ :: _, [] => false
  | a :: as, b :: bs =>
    if a < b then true else if b < a then false else dataLe as bs

/-- JavaScript string comparison (`a <= b` under the default sort). -/
def jsLe (a b : String) : Bool :=
  dataLe a.data b.data

/-- The sorting relation used for key arrays. -/
def strle (a b : String) : Prop :=
  jsLe a b = true

instance : DecidableRel strle := fun a b => by
  unfold strle; infer_instance

/-- `Object.keys(m).sort()`: JavaScript's default sort on string arrays is
lexicographic by code unit. -/
def sortKeys (l : List String) : List String :=
  l.insertionSort strle

/-! ## Comparison options (`src/util/volume-compare.ts`) -/

/-- `VolumeCompareListMatch`. -/
inductive ListMatch where
  | exact
  | ignoreExtra
  | ignoreMissing
deriving DecidableEq, Repr

/-- `VolumeCompareContentMatch`. -/
inductive ContentMatch where
  | all
  | ignore
  | ignoreFiles
  | ignoreSymlinks
deriving DecidableEq, Repr

/-- `VolumeCompareReportType`. -/
inductive ReportType where
  | first
  | all
deriving DecidableEq, Repr

/-- `compareFiles` flag of `makeDiffMatcher`:
`contentMatch !== 'ignore' && contentMatch !== 'ignore-files'`.
An absent option (`none`) behaves like `'all'`. -/
def compareFilesFlag (cm : Option ContentMatch) : Bool :=
  !(cm == some .ignore) && !(cm == some .ignoreFiles)

/-- `compareSymlinks` flag of `makeDiffMatcher`:
`contentMatch !== 'ignore' && contentMatch !== 'ignore-symlinks'`. -/
def compareSymlinksFlag (cm : Option ContentMatch) : Bool :=
  !(cm == some .ignore) && !(cm == some .ignoreSymlinks)

/-! ## Diff rendering (`makeDiff`, the `DiffEntry` classes)

The presentation classes `File`, `BinaryFile`, `Symlink`, `Directory` and
the frozen empty markers are embedded structurally.  The derived
presentation fields (`utf8` decoding of a text file, the sha1 hash and
base64 head/tail preview of a binary file) are functions of the raw bytes
only, so the embedding stores the bytes themselves. -/

/-- A rendered diff entry: `{}` placeholders, the `Directory` marker,
`File` (with or without data), `BinaryFile`, `Symlink` (with or without
target). -/
inductive DiffEntry where
  | emptyObj
  | dirMarker
  | textFile (data : List Nat)
  | binaryFile (data : List Nat)
  | emptyFile
  | symlinkTarget (target : String)
  | emptySymlink
deriving DecidableEq, Repr

/-- `makeDiff` of `makeDiffMatcher`. -/
def makeDiff (cFiles cSyms : Bool) (isText : String → List Nat → Bool)
    (path : String) : VolumeEntry → DiffEntry
  | .emptyDir => .dirMarker
  | .file data =>
    if cFiles then
      if isText path data then .textFile data else .binaryFile data
    else .emptyFile
  | .symlink target =>
    if cSyms then .symlinkTarget target else .emptySymlink

/-- The `DiffKind` enum. -/
inductive DiffKind where
  | Match
  | TypeMismatch
  | FileMismatch
  | SymlinkMismatch
  | Missing
  | Extra
deriving DecidableEq, Repr

/-- The `DiffResult` tagged union returned by `matchEntry`. -/
inductive DiffResult where
  | matched
  | typeMismatch (exp act : DiffEntry)
  | fileMismatch (exp act : DiffEntry)
  | symlinkMismatch (exp act : DiffEntry)
  | missing (exp : DiffEntry)
  | extra (act : DiffEntry)
deriving DecidableEq, Repr

/-- The `kind` tag of a `DiffResult`. -/
def DiffResult.kind : DiffResult → DiffKind
  | .matched => .Match
  | .typeMismatch _ _ => .TypeMismatch
  | .fileMismatch _ _ => .FileMismatch
  | .symlinkMismatch _ _ => .SymlinkMismatch
  | .missing _ => .Missing
  | .extra _ => .Extra

/-- `matchEntry` of `makeDiffMatcher`, on optional entries (`undefined`
becomes `none`).  Call sites only pass paths present in at least one map,
so the `none, none` case is unreachable; it is mapped to `matched`. -/
def matchEntryFn (cFiles cSyms : Bool) (isText : String → List Nat → Bool)
    (path : String) : Option VolumeEntry → Option VolumeEntry → DiffResult
  | some exp, none => .missing (makeDiff cFiles cSyms isText path exp)
  | none, some act => .extra (makeDiff cFiles cSyms isText path act)
  | none, none => .matched
  | some exp, some act =>
    if exp.kindName ≠ act.kindName then
      .typeMismatch (makeDiff cFiles cSyms isText path exp)
        (makeDiff cFiles cSyms isText path act)
    else
      match exp, act with
      | .file dExp, .file dAct =>
        if cFiles && !(dExp == dAct) then
          .fileMismatch (makeDiff cFiles cSyms isText path (.file dExp))
            (makeDiff cFiles cSyms isText path (.file dAct))
        else .matched
      | .symlink tExp, .symlink tAct =>
        if cSyms && !(tExp == tAct) then
          .symlinkMismatch (makeDiff cFiles cSyms isText path (.symlink tExp))
            (makeDiff cFiles cSyms isText path (.symlink tAct))
        else .matched
      | _, _ => .matched

/-! ## `compareVolumeMapsFirst` -/

/-- The structured reason of a list-level mismatch (the embedding keeps
the counts that parameterize the message strings). -/
inductive ListReason where
  | missingFiles (n : Nat)
  | extraFiles (n : Nat)
  | structureMismatch
deriving DecidableEq, Repr

/-- The result of `compareVolumeMapsFirst`: pass, a list-level mismatch
carrying the reported sorted key arrays, or a single path-level mismatch
with its actual/expected diff entries. -/
inductive CompareResult where
  | pass
  | listMismatch (reason : ListReason) (actual expected : List String)
  | pathMismatch (kind : DiffKind) (path : String) (act exp : DiffEntry)
deriving DecidableEq, Repr

/-- The `pass` field of a `CompareResult`. -/
def CompareResult.passes : CompareResult → Bool
  | .pass => true
  | _ => false

/-- Whether the result is a list-level mismatch. -/
def CompareResult.isListMismatch : CompareResult → Bool
  | .listMismatch _ _ _ => true
  | _ => false

/-- `actualFiles.every((f, i) => f === expectedFiles[i])`: an index past
the end of `expectedFiles` reads `undefined`, which never equals a
string. -/
def allIndexEq : List String → List String → Bool
  | [], _ => true
  | _ :: _, [] => false
  | a :: as, b :: bs => a == b && allIndexEq as bs

/-- The `exact` list check of `compareVolumeMapsFirst`: the sorted key
arrays have equal length and are pairwise equal. -/
def exactListsMatch (actualFiles expectedFiles : List String) : Bool :=
  actualFiles.length == expectedFiles.length && allIndexEq actualFiles expectedFiles

/-- The first path-level mismatch in `files`, if any: the loop body of
`compareVolumeMapsFirst` returns on a `TypeMismatch`, `FileMismatch` or
`SymlinkMismatch` and continues otherwise. -/
def firstPathMismatch (cFiles cSyms : Bool) (isText : String → List Nat → Bool)
    (received expected : VolumeMap) :
    List String → Option (DiffKind × String × DiffEntry × DiffEntry)
  | [] => none
  | f :: rest =>
    match matchEntryFn cFiles cSyms isText f (expected.lookup f) (received.lookup f) with
    | .typeMismatch exp act => some (.TypeMismatch, f, act, exp)
    | .fileMismatch exp act => some (.FileMismatch, f, act, exp)
    | .symlinkMismatch exp act => some (.SymlinkMismatch, f, act, exp)
    | _ => firstPathMismatch cFiles cSyms isText received expected rest

/-- `compareVolumeMapsFirst` of `src/util/volume-compare.ts`. -/
def compareVolumeMapsFirst (isText : String → List Nat → Bool)
    (received expected : VolumeMap)
    (lm : Option ListMatch) (cm : Option ContentMatch) : CompareResult :=
  let actualFiles := sortKeys received.keys
  let expectedFiles := sortKeys expected.keys
  let listMismatchResult : Option (ListReason × List String × List String) :=
    match lm with
    | some .ignoreExtra =>
      let missing := expectedFiles.filter (fun f => !received.hasKey f)
      if missing.length > 0 then
        some (.missingFiles missing.length,
          actualFiles.filter (fun f => expected.hasKey f), expectedFiles)
      else none
    | some .ignoreMissing =>
      let extra := actualFiles.filter (fun f => !expected.hasKey f)
      if extra.length > 0 then
        some (.extraFiles extra.length, actualFiles,
          expectedFiles.filter (fun f => received.hasKey f))
      else none
    | _ =>
      if !(exactListsMatch actualFiles expectedFiles) then
        some (.structureMismatch, actualFiles, expectedFiles)
      else none
  match listMismatchResult with
  | some (reason, a, e) => .listMismatch reason a e
  | none =>
    let cFiles := compareFilesFlag cm
    let cSyms := compareSymlinksFlag cm
    let filesToCheck := if lm == some .ignoreMissing then actualFiles else expectedFiles
    match firstPathMismatch cFiles cSyms isText received expected filesToCheck with
    | some (k, f, act, exp) => .pathMismatch k f act exp
    | none => .pass

/-! ## `compareVolumeMapsAll` -/

/-- Accumulator of `compareVolumeMapsAll`: the parallel actual/expected
diff maps and the four per-category counters. -/
structure AllState where
  actualDiff : List (String × DiffEntry)
  expectedDiff : List (String × DiffEntry)
  missingCount : Nat
  extraCount : Nat
  contentCount : Nat
  typeCount : Nat
deriving DecidableEq, Repr

/-- The initial accumulator. -/
def AllState.init : AllState := ⟨[], [], 0, 0, 0, 0⟩

/-- Key enumeration order of the spread `{ ...received, ...expected }`. -/
def unionKeys (received expected : VolumeMap) : List String :=
  received.keys ++ expected.keys.filter (fun k => !received.hasKey k)

/-- The paths visited by `compareVolumeMapsAll` for a given `listMatch`. -/
def pathsToCheck (received expected : VolumeMap) (lm : Option ListMatch) : List String :=
  if lm == some .ignoreExtra then expected.keys
  else if lm == some .ignoreMissing then received.keys
  else unionKeys received expected

/-- The body of the `for (const p in pathsToCheck)` loop of
`compareVolumeMapsAll`. -/
def allStep (cFiles cSyms : Bool) (isText : String → List Nat → Bool)
    (received expected : VolumeMap) (ignExtra ignMissing : Bool)
    (s : AllState) (p : String) : AllState :=
  match matchEntryFn cFiles cSyms isText p (expected.lookup p) (received.lookup p) with
  | .typeMismatch exp act =>
    { s with expectedDiff := s.expectedDiff ++ [(p, exp)],
             actualDiff := s.actualDiff ++ [(p, act)],
             typeCount := s.typeCount + 1 }
  | .fileMismatch exp act =>
    { s with expectedDiff := s.expectedDiff ++ [(p, exp)],
             actualDiff := s.actualDiff ++ [(p, act)],
             contentCount := s.contentCount + 1 }
  | .symlinkMismatch exp act =>
    { s with expectedDiff := s.expectedDiff ++ [(p, exp)],
             actualDiff := s.actualDiff ++ [(p, act)],
             contentCount := s.contentCount + 1 }
  | .missing exp =>
    if ignMissing then s
    else { s with expectedDiff := s.expectedDiff ++ [(p, exp)],
                  missingCount := s.missingCount + 1 }
  | .extra act =>
    if ignExtra then s
    else { s with actualDiff := s.actualDiff ++ [(p, act)],
                  extraCount := s.extraCount + 1 }
  | .matched =>
    { s with actualDiff := s.actualDiff ++ [(p, .emptyObj)],
             expectedDiff := s.expectedDiff ++ [(p, .emptyObj)] }

/-- `compareVolumeMapsAll` of `src/util/volume-compare.ts`, returning the
final accumulator. -/
def compareVolumeMapsAll (isText : String → List Nat → Bool)
    (received expected : VolumeMap)
    (lm : Option ListMatch) (cm : Option ContentMatch) : AllState :=
  (pathsToCheck received expected lm).foldl
    (allStep (compareFilesFlag cm) (compareSymlinksFlag cm) isText received expected
      (lm == some .ignoreExtra) (lm == some .ignoreMissing))
    AllState.init

/-- `missingCount + extraCount + contentCount + typeCount`. -/
def AllState.total (s : AllState) : Nat :=
  s.missingCount + s.extraCount + s.contentCount + s.typeCount

/-- The `pass` field of the `report='all'` result:
`total > 0` yields failure, otherwise pass. -/
def AllState.passes (s : AllState) : Bool :=
  s.total == 0

/-- The `pass` field of `compareVolumeMaps`, dispatching on `report`. -/
def compareVolumeMapsPass (isText : String → List Nat → Bool)
    (received expected : VolumeMap)
    (lm : Option ListMatch) (cm : Option ContentMatch)
    (report : Option ReportType) : Bool :=
  if report == some .all then
    (compareVolumeMapsAll isText received expected lm cm).passes
  else
    (compareVolumeMapsFirst isText received expected lm cm).passes

/-- The `DiffResult` computed for path `p` when comparing `received`
against `expected` (the common loop body expression of both report
modes). -/
def entryResultAt (cF cS : Bool) (isText : String → List Nat → Bool)
    (received expected : VolumeMap) (p : String) : DiffResult :=
  matchEntryFn cF cS isText p (expected.lookup p) (received.lookup p)

/-- The association-list entry that the `report='all'` loop appends to
`actualDiff` for path `p`, if any. -/
def actDiffSel (cF cS : Bool) (isText : String → List Nat → Bool)
    (received expected : VolumeMap) (ignE : Bool) (p : String) :
    Option (String × DiffEntry) :=
  match entryResultAt cF cS isText received expected p with
  | .typeMismatch _ act => some (p, act)
  | .fileMismatch _ act => some (p, act)
  | .symlinkMismatch _ act => some (p, act)
  | .missing _ => Option.none
  | .extra act => if ignE then Option.none else some (p, act)
  | .matched => some (p, .emptyObj)

/-- The association-list entry that the `report='all'` loop appends to
`expectedDiff` for path `p`, if any. -/
def expDiffSel (cF cS : Bool) (isText : String → List Nat → Bool)
    (received expected : VolumeMap) (ignM : Bool) (p : String) :
    Option (String × DiffEntry) :=
  match entryResultAt cF cS isText received expected p with
  | .typeMismatch exp _ => some (p, exp)
  | .fileMismatch exp _ => some (p, exp)
  | .symlinkMismatch exp _ => some (p, exp)
  | .missing exp => if ignM then Option.none else some (p, exp)
  | .extra _ => Option.none
  | .matched => some (p, .emptyObj)

/-! ## Snapshot update decision (`src/matchers/toMatchVolumeSnapshot.ts`)

After the received value has been checked to be a `Volume`, the matcher
decides between writing a fresh snapshot and passing, failing because no
snapshot exists, and reading the snapshot directory for comparison:

```
if (updateSnapshot === 'all' || (updateSnapshot !== 'none' && !hasSnapshot)) {
  await writeVolumeToDir(...); return { pass: true, ... }
}
if (!hasSnapshot) { return { pass: false, ... } }
const expectedMap = await readDirToMap(...); ... compareVolumeMaps(...)
```
-/

/-- The vitest `SnapshotUpdateState` flag. -/
inductive SnapshotUpdateState where
  | none
  | new
  | all
deriving DecidableEq, Repr

/-- The three mutually exclusive courses of action of the snapshot
matcher.  Only `writeAndPass` performs a write to durable storage
(`writeVolumeToDir`); the other two branches perform no write. -/
inductive SnapshotAction where
  | writeAndPass
  | failNoSnapshot
  | readAndCompare
deriving DecidableEq, Repr

/-- The decision taken by `toMatchVolumeSnapshot` from the update-state
flag and the `lstat`-based `hasSnapshot` probe. -/
def snapshotDecision (updateSnapshot : SnapshotUpdateState) (hasSnapshot : Bool) :
    SnapshotAction :=
  if updateSnapshot == .all || (updateSnapshot != .none && !hasSnapshot) then
    .writeAndPass
  else if !hasSnapshot then .failNoSnapshot
  else .readAndCompare

/-- The `pass` field produced by each action: `writeAndPass` returns
`pass: true`, the missing-snapshot branch returns `pass: false`, and the
compare branch returns the comparison's own result. -/
def snapshotActionPass (compareOutcome : Bool) : SnapshotAction → Bool
  | .writeAndPass => true
  | .failNoSnapshot => false
  | .readAndCompare => compareOutcome

/-! ## Existence rules and `matchEntries` (`src/util/volume-entries.ts`) -/

/-- `VolumePathType`: the type tag of a scanned volume path entry. -/
inductive VolumePathType where
  | file
  | dir
  | symlink
  | other
deriving DecidableEq, Repr

/-- The type-tag string carried by a `VolumePathEntry`. -/
def VolumePathType.toName : VolumePathType → String
  | .file => "file"
  | .dir => "dir"
  | .symlink => "symlink"
  | .other => "other"

/-- `VolumeEntryType`: a required entry type in a rule
(`'file' | 'dir' | 'symlink' | 'any'`). -/
inductive VolumeEntryType where
  | file
  | dir
  | symlink
  | any
deriving DecidableEq, Repr

/-- The string form of a required entry type. -/
def VolumeEntryType.toName : VolumeEntryType → String
  | .file => "file"
  | .dir => "dir"
  | .symlink => "symlink"
  | .any => "any"

/-- `VolumePathEntry`: a `[path, type]` pair produced by `scanVolumePaths`. -/
abbrev VolumePathEntry := String × VolumePathType

/-- A `MatchRule`: an exact-path rule or a glob rule.  The compiled
regular expression produced by the external `glob-to-regex` translator is
embedded as its `test` predicate. -/
inductive MatchRule where
  | exact (identifier : String) (path : String) (expType : VolumeEntryType)
  | glob (identifier : String) (pattern : String) (regex : String → Bool)
      (expType : VolumeEntryType) (expCount : Nat)

/-- The `identifier` key of a rule (the key of the `MatchRules` map). -/
def MatchRule.identifier : MatchRule → String
  | .exact ident _ _ => ident
  | .glob ident _ _ _ _ => ident

/-- The diff record `{ exists?: boolean; type?: string; count?: number }`
written by `matchEntries`; exactly one field is ever set. -/
inductive EntryDiffVal where
  | existsVal (b : Bool)
  | typeVal (t : String)
  | countVal (n : Nat)
deriving DecidableEq, Repr

/-- The result of `matchEntries`. -/
structure MatchEntriesResult where
  missingCount : Nat
  typeCount : Nat
  actualDiff : List (String × EntryDiffVal)
  expectedDiff : List (String × EntryDiffVal)
  allMatches : List VolumePathEntry

/-- The body of the `rules.forEach` loop of `matchEntries`. -/
def matchEntriesStep (pathEntries : List VolumePathEntry)
    (acc : MatchEntriesResult) (rule : MatchRule) : MatchEntriesResult :=
  match rule with
  | .exact ident rulePath expType =>
    match pathEntries.find? (fun pe => pe.1 == rulePath) with
    | Option.none =>
      { acc with actualDiff := acc.actualDiff ++ [(ident, .existsVal false)],
                 expectedDiff := acc.expectedDiff ++ [(ident, .existsVal true)],
                 missingCount := acc.missingCount + 1 }
    | some m =>
      if expType != .any && m.2.toName != expType.toName then
        { acc with actualDiff := acc.actualDiff ++ [(ident, .typeVal m.2.toName)],
                   expectedDiff := acc.expectedDiff ++ [(ident, .typeVal expType.toName)],
                   typeCount := acc.typeCount + 1 }
      else
        { acc with allMatches := acc.allMatches ++ [m] }
  | .glob ident _ regex expType expCount =>
    let ms := pathEntries.filter (fun pe => regex pe.1)
    if ms.length < expCount then
      { acc with actualDiff := acc.actualDiff ++ [(ident, .countVal ms.length)],
                 expectedDiff := acc.expectedDiff ++ [(ident, .countVal expCount)],
                 missingCount := acc.missingCount + 1 }
    else if expType != .any then
      let typeMatches := ms.filter (fun pe => pe.2.toName == expType.toName)
      if typeMatches.length < expCount then
        { acc with actualDiff := acc.actualDiff ++ [(ident, .countVal typeMatches.length)],
                   expectedDiff := acc.expectedDiff ++ [(ident, .countVal expCount)],
                   typeCount := acc.typeCount + 1 }
      else
        { acc with allMatches := acc.allMatches ++ typeMatches }
    else
      { acc with allMatches := acc.allMatches ++ ms }

/-- `matchEntries` of `src/util/volume-entries.ts`.  The `MatchRules`
map is embedded as a list of rules with unique identifiers, iterated in
insertion order. -/
def matchEntries (pathEntries : List VolumePathEntry) (rules : List MatchRule) :
    MatchEntriesResult :=
  rules.foldl (matchEntriesStep pathEntries) ⟨0, 0, [], [], []⟩

/-- Whether a single rule is satisfied by the scanned path entries: an
exact rule finds its path with an acceptable type; a glob rule finds at
least `expCount` regex matches, at least `expCount` of which also have
the required type when one is given. -/
def ruleSatisfied (pathEntries : List VolumePathEntry) : MatchRule → Bool
  | .exact _ rulePath expType =>
    match pathEntries.find? (fun pe => pe.1 == rulePath) with
    | Option.none => false
    | some m => !(expType != .any && m.2.toName != expType.toName)
  | .glob _ _ regex expType expCount =>
    let ms := pathEntries.filter (fun pe => regex pe.1)
    if ms.length < expCount then false
    else if expType != .any then
      (ms.filter (fun pe => pe.2.toName == expType.toName)).length ≥ expCount
    else true

/-! ## Filesystem trees (`src/util/volume.ts` flattening and the snapshot adapter)

Both the in-memory volume handed to `volumeToMap` and the durable-storage
subtree read and written by the snapshot adapter are modelled as finite
trees.  A directory's children are its `readdir` entries in order; reads
(`lstat` / `readdir` / `readFile` / `readlink`) are resolved structurally.
A well-formed tree (any tree produced by a real filesystem) has
duplicate-free child names which are nonempty, contain no `/` and are
neither `.` nor `..`. -/

inductive FSTree where
  | file (data : List Nat)
  | symlink (target : String)
  | dir (children : List (String × FSTree))
deriving Repr

/-- A valid filesystem entry name. -/
def validSeg (s : String) : Bool :=
  !(s == "") && !(s.data.contains '/') && !(s == ".") && !(s == "..")

mutual
/-- Well-formedness of a modelled filesystem tree. -/
def FSTree.wfB : FSTree → Bool
  | .file _ => true
  | .symlink _ => true
  | .dir cs => decide ((cs.map Prod.fst).Nodup) && FSTree.wfChildren cs
/-- Well-formedness of a child list. -/
def FSTree.wfChildren : List (String × FSTree) → Bool
  | [] => true
  | (n, c) :: rest => validSeg n && FSTree.wfB c && FSTree.wfChildren rest
end

/-- Lookup of a directory entry by name (`readdir` + name match). -/
def childLookup (cs : List (String × FSTree)) (n : String) : Option FSTree :=
  List.lookup n cs

/-- Resolving a chain of entry names from a tree node (`lstat` of a path
whose components are `segs`). -/
def treeLookup : FSTree → List String → Option FSTree
  | t, [] => some t
  | FSTree.dir cs, n :: rest =>
    match childLookup cs n with
    | some c => treeLookup c rest
    | Option.none => Option.none
  | _, _ :: _ => Option.none

mutual
/-- Segment-level flattening of a tree: the relative paths at which a
walk of the tree records entries, with the recorded entry.  This is the
common specification both `volumeToMap` and `readDirToMap` are related
to. -/
def treePairs : FSTree → List (List String × VolumeEntry)
  | .file d => [([], VolumeEntry.file d)]
  | .symlink t => [([], VolumeEntry.symlink t)]
  | .dir cs => if cs.isEmpty then [([], VolumeEntry.emptyDir)] else treePairsList cs
/-- `treePairs` over a child list. -/
def treePairsList : List (String × FSTree) → List (List String × VolumeEntry)
  | [] => []
  | (n, c) :: rest => (treePairs c).map (fun pe => (n :: pe.1, pe.2)) ++ treePairsList rest
end

/-- `path.posix.join(curr, name)` for a normalized absolute `curr` and a
valid child name: `/`-separated concatenation (no `.`/`..`/`//`
normalization can fire on this input class). -/
def pjoin (curr name : String) : String :=
  if curr == "/" then "/" ++ name else curr ++ "/" ++ name

/-- Joining a chain of names onto a base path. -/
def joinSegs (curr : String) (segs : List String) : String :=
  segs.foldl pjoin curr

/-- JavaScript `s.slice(1)`. -/
def sliceFrom1 (s : String) : String :=
  String.mk (s.data.drop 1)

/-- Splitting a character list at `/`: the path-component resolution the
operating system applies to path strings handed to `fs` calls. -/
def splitSlash : List Char → List (List Char)
  | [] => [[]]
  | c :: rest =>
    if c = '/' then [] :: splitSlash rest
    else
      match splitSlash rest with
      | s :: ss => (c :: s) :: ss
      | [] => [[c]]

/-- Path components of a relative path string; the empty string has no
components (`path.join(dir, '') === dir`). -/
def relSegs (rel : String) : List String :=
  if rel == "" then [] else (splitSlash rel.data).map (fun l => String.mk l)

/-- Substituting an empty buffer for file contents when `withData` is
false. -/
def entryWithData (withData : Bool) : VolumeEntry → VolumeEntry
  | VolumeEntry.file d => VolumeEntry.file (if withData then d else [])
  | e => e

mutual
/-- The `walk` of `volumeToMap`: `lstat`, record empty directories at
their own path, recurse into children at `path.posix.join(curr, name)`,
record files (bytes, or an empty buffer without `withData`) and symlink
targets. -/
def volumeToMapWalk (withData : Bool) : FSTree → String → VolumeMap
  | FSTree.dir cs, curr =>
    (if cs.isEmpty then [(curr, VolumeEntry.emptyDir)] else [])
      ++ volumeToMapWalkList withData cs curr
  | FSTree.file d, curr => [(curr, VolumeEntry.file (if withData then d else []))]
  | FSTree.symlink t, curr => [(curr, VolumeEntry.symlink t)]
/-- The `for (const name of list)` loop of the walk. -/
def volumeToMapWalkList (withData : Bool) : List (String × FSTree) → String → VolumeMap
  | [], _ => []
  | (n, c) :: rest, curr =>
    volumeToMapWalk withData c (pjoin curr n) ++ volumeToMapWalkList withData rest curr
end

/-- `volumeToMap(volume, { prefix, withData })`: the walk starts at the
resolved prefix (default `/`).  `lstatSync` throws on a missing prefix;
that error path is modelled as the empty map and is not exercised by any
theorem below. -/
def volumeToMap (volume : FSTree) (pfx : String) (withData : Bool) : VolumeMap :=
  match treeLookup volume (relSegs (sliceFrom1 pfx)) with
  | some node => volumeToMapWalk withData node pfx
  | Option.none => []

/-! ### The snapshot write (`writeVolumeToDir`) as durable-storage operations -/

/-- Replace the entry named `n` (or append it when absent): the effect of
creating or overwriting a directory entry. -/
def setChild (cs : List (String × FSTree)) (n : String) (t : FSTree) :
    List (String × FSTree) :=
  match cs with
  | [] => [(n, t)]
  | (m, c) :: rest => if m == n then (m, t) :: rest else (m, c) :: setChild rest n t

/-- `fsp.mkdir(path, { recursive: true })` on the modelled subtree:
create every missing component as an empty directory.  `mkdir` below a
non-directory errors on a real filesystem; that case leaves the tree
unchanged and is unreachable under the well-formedness used here. -/
def mkdirp : FSTree → List String → FSTree
  | t, [] => t
  | FSTree.dir cs, n :: rest =>
    match childLookup cs n with
    | some c => FSTree.dir (setChild cs n (mkdirp c rest))
    | Option.none => FSTree.dir (cs ++ [(n, mkdirp (FSTree.dir []) rest)])
  | t, _ :: _ => t

/-- `fsp.writeFile` / `fsp.symlink` at a relative path: places `node` at
the final component (creating the entry if needed); a missing parent
directory errors on a real filesystem and leaves the tree unchanged here
(unreachable after the mkdir pass of `writeVolumeToDir`). -/
def writeNode : FSTree → List String → FSTree → FSTree
  | _, [], node => node
  | FSTree.dir cs, [n], node => FSTree.dir (setChild cs n node)
  | FSTree.dir cs, n :: rest, node =>
    match childLookup cs n with
    | some c => FSTree.dir (setChild cs n (writeNode c rest node))
    | Option.none => FSTree.dir cs
  | t, _ :: _, _ => t

/-- A durable-storage operation of `writeVolumeToDir`, addressed relative
to the target directory. -/
inductive DiskOp where
  | mkdirOp (segs : List String)
  | writeOp (segs : List String) (node : FSTree)

/-- Apply one operation to the modelled subtree. -/
def applyDiskOp (t : FSTree) : DiskOp → FSTree
  | .mkdirOp q => mkdirp t q
  | .writeOp p node => writeNode t p node

/-- The directory `writeVolumeToDir` adds to `writeDirs` for a map entry:
`path.dirname(targetPath)` for files and symlinks, `targetPath` itself
for empty directories. -/
def entryDirOp (rel : List String) : VolumeEntry → DiskOp
  | VolumeEntry.file _ => DiskOp.mkdirOp rel.dropLast
  | VolumeEntry.symlink _ => DiskOp.mkdirOp rel.dropLast
  | VolumeEntry.emptyDir => DiskOp.mkdirOp rel

/-- The write operation `writeVolumeToDir` pushes to `writeOps` for a map
entry (none for empty directories; `withData` defaults to true). -/
def entryWriteOps (rel : List String) : VolumeEntry → List DiskOp
  | VolumeEntry.file d => [DiskOp.writeOp rel (FSTree.file d)]
  | VolumeEntry.symlink t => [DiskOp.writeOp rel (FSTree.symlink t)]
  | VolumeEntry.emptyDir => []

/-- The operation sequence of `writeVolumeToDir`: first every collected
directory is created, then the file/symlink writes run.  The `Set`
dedup of `writeDirs` is dropped (`mkdirp` is idempotent, so folding the
un-deduplicated list gives the same tree), and the `Promise.all`
concurrency is sequentialized (the operations address distinct paths). -/
def writeMapOps (m : VolumeMap) : List DiskOp :=
  m.map (fun pe => entryDirOp (relSegs (sliceFrom1 pe.1)) pe.2)
    ++ m.flatMap (fun pe => entryWriteOps (relSegs (sliceFrom1 pe.1)) pe.2)

/-- The durable-storage subtree rooted at `targetDirPath` after
`writeVolumeToDir(volume, targetDirPath, { clear: true })` with no
prefix option (`realPrefix = '/'`, so `rel = abs.slice(1)`): the cleared
snapshot directory starts empty and the collected operations are applied
to it. -/
def writeVolumeToDirTree (volume : FSTree) : FSTree :=
  (writeMapOps (volumeToMap volume "/" true)).foldl applyDiskOp (FSTree.dir [])

/-! ### `readDirToMap` -/

mutual
/-- The `walk` of `readDirToMap`: `readdir(dirPath, { withFileTypes: true })`,
an `empty-dir` record when a directory has no entries, recursion into
subdirectories, file and symlink records.  Keys are
`path.posix.join('/', prefix, rel)` where `rel` is the path relative to
the target directory; the logical prefix is carried as its component
list. -/
def readDirToMapWalk (pfxSegs : List String) (withData : Bool) :
    FSTree → List String → VolumeMap
  | FSTree.dir cs, segs =>
    (if cs.isEmpty then [(joinSegs "/" (pfxSegs ++ segs), VolumeEntry.emptyDir)] else [])
      ++ readDirChildren pfxSegs withData cs segs
  | _, _ => []
/-- The per-entry body of the walk. -/
def readDirChildren (pfxSegs : List String) (withData : Bool) :
    List (String × FSTree) → List String → VolumeMap
  | [], _ => []
  | (n, c) :: rest, segs =>
    (match c with
     | FSTree.dir _ => readDirToMapWalk pfxSegs withData c (segs ++ [n])
     | FSTree.file d =>
       [(joinSegs "/" (pfxSegs ++ segs ++ [n]),
         VolumeEntry.file (if withData then d else []))]
     | FSTree.symlink t =>
       [(joinSegs "/" (pfxSegs ++ segs ++ [n]), VolumeEntry.symlink t)])
      ++ readDirChildren pfxSegs withData rest segs
end

/-- `readDirToMap(targetDirPath, { prefix, withData })` on the modelled
subtree at the target directory. -/
def readDirToMap (disk : FSTree) (pfxSegs : List String) (withData : Bool) : VolumeMap :=
  readDirToMapWalk pfxSegs withData disk []

/-! ### Proof devices for the snapshot write -/

/-- Character-list form of a joined relative path. -/
def jdata (p : List String) : List Char :=
  p.flatMap (fun s => '/' :: s.data)

/-- `a` is a proper path-ancestor of `b`: `b` lies strictly inside the
directory `a` (`b` starts with `a` followed by a path separator; the
root's trailing separator is the root itself). -/
def isProperPathAncestor (a b : String) : Prop :=
  a ≠ b ∧ (if a == "/" then a else a ++ "/").data <+: b.data

/-- An operation whose write path is nonempty (every operation
`writeVolumeToDir` emits for a directory-rooted volume is of this
shape). -/
def opOK : DiskOp → Prop
  | DiskOp.mkdirOp _ => True
  | DiskOp.writeOp p _ => p ≠ []

/-- The children of the root of a tree. -/
def rootChildren : FSTree → List (String × FSTree)
  | FSTree.dir cs => cs
  | _ => []

/-- The residual operation an operation induces on the child named `n`
of the directory it is applied to. -/
def opTail (n : String) : DiskOp → Option DiskOp
  | DiskOp.mkdirOp [] => Option.none
  | DiskOp.mkdirOp (h :: r) => if h == n then some (DiskOp.mkdirOp r) else Option.none
  | DiskOp.writeOp [] _ => Option.none
  | DiskOp.writeOp (h :: r) node =>
    if h == n then some (DiskOp.writeOp r node) else Option.none

/-- The operations of `ops` that act on the child named `n`. -/
def childOps (n : String) (ops : List DiskOp) : List DiskOp :=
  ops.filterMap (opTail n)

/-- Evolution of an optional child under a residual operation: `mkdir`
creates a missing child as an empty directory, a write at the child
itself creates or replaces it, a deeper write on a missing child is the
(unreachable) error case and leaves it missing. -/
def applyChildOp (oc : Option FSTree) : DiskOp → Option FSTree
  | DiskOp.mkdirOp q => some (mkdirp (oc.getD (FSTree.dir [])) q)
  | DiskOp.writeOp [] node => some node
  | DiskOp.writeOp q node => oc.map (fun c => writeNode c q node)

/-- Folding `applyChildOp`. -/
def applyChildOps (oc : Option FSTree) (ops : List DiskOp) : Option FSTree :=
  ops.foldl applyChildOp oc

/-- The operation sequence `writeVolumeToDir` emits, indexed by the
segment-level pairs of the flattened volume. -/
def segOps (pairs : List (List String × VolumeEntry)) : List DiskOp :=
  pairs.map (fun pe => entryDirOp pe.1 pe.2)
    ++ pairs.flatMap (fun pe => entryWriteOps pe.1 pe.2)

/-- The tree node a recorded entry corresponds to (an empty directory for
the `empty-dir` marker). -/
def entryAsNode : VolumeEntry → FSTree
  | VolumeEntry.file d => FSTree.file d
  | VolumeEntry.symlink t => FSTree.symlink t
  | VolumeEntry.emptyDir => FSTree.dir []

/-! # Theorems

## Order theory of the JavaScript string sort -/

theorem charEq {a b : Char} (h1 : ¬ a < b) (h2 : ¬ b < a) : a = b :=
  le_antisymm (not_lt.mp h2) (not_lt.mp h1)

theorem dataLe_total : ∀ a b : List Char, dataLe a b = true ∨ dataLe b a = true
  | [], _ => Or.inl rfl
  | _ :: _, [] => Or.inr rfl
  | a :: as, b :: bs => by
    rcases lt_trichotomy a b with h | h | h
    · left; simp [dataLe, h]
    · subst h
      rcases dataLe_total as bs with ih | ih
      · left; simp [dataLe, lt_irrefl, ih]
      · right; simp [dataLe, lt_irrefl, ih]
    · right; simp [dataLe, h]

theorem dataLe_antisymm : ∀ {a b : List Char},
    dataLe a b = true → dataLe b a = true → a = b
  | [], [], _, _ => rfl
  | [], _ :: _, _, h2 => by simp [dataLe] at h2
  | _ :: _, [], h1, _ => by simp [dataLe] at h1
  | a :: as, b :: bs, h1, h2 => by
    by_cases hab : a < b
    · simp [dataLe, hab, asymm hab] at h1 h2
    · by_cases hba : b < a
      · simp [dataLe, hab, hba] at h1
      · have : a = b := charEq hab hba
        subst this
        simp only [dataLe, lt_irrefl, if_neg (lt_irrefl a)] at h1 h2
        simp [dataLe_antisymm h1 h2]

theorem dataLe_trans : ∀ {a b c : List Char},
    dataLe a b = true → dataLe b c = true → dataLe a c = true
  | [], _, _, _, _ => rfl
  | _ :: _, [], _, h1, _ => by simp [dataLe] at h1
  | _ :: _, _ :: _, [], _, h2 => by simp [dataLe] at h2
  | a :: as, b :: bs, c :: cs, h1, h2 => by
    by_cases hab : a < b
    · by_cases hbc : b < c
      · simp [dataLe, lt_trans hab hbc]
      · by_cases hcb : c < b
        · simp [dataLe, hbc, hcb] at h2
        · have : b = c := charEq hbc hcb
          subst this
          simp [dataLe, hab]
    · by_cases hba : b < a
      · simp [dataLe, hab, hba] at h1
      · have : a = b := charEq hab hba
        subst this
        simp only [dataLe, lt_irrefl, if_neg (lt_irrefl a)] at h1
        by_cases hac : a < c
        · simp [dataLe, hac]
        · by_cases hca : c < a
          · simp [dataLe, hac, hca] at h2
          · have : a = c := charEq hac hca
            subst this
            simp only [dataLe, lt_irrefl, if_neg (lt_irrefl a)] at h2 ⊢
            exact dataLe_trans h1 h2

theorem strle_total : ∀ a b : String, strle a b ∨ strle b a :=
  fun a b => dataLe_total a.data b.data

theorem strle_trans {a b c : String} (h1 : strle a b) (h2 : strle b c) : strle a c :=
  dataLe_trans h1 h2

theorem strle_antisymm {a b : String} (h1 : strle a b) (h2 : strle b a) : a = b :=
  String.ext (dataLe_antisymm h1 h2)

theorem sortKeys_sorted (l : List String) : (sortKeys l).Sorted strle := by
  haveI : IsTotal String strle := ⟨strle_total⟩
  haveI : IsTrans String strle := ⟨fun _ _ _ => strle_trans⟩
  exact List.sorted_insertionSort strle l

theorem sortKeys_perm (l : List String) : (sortKeys l).Perm l :=
  List.perm_insertionSort strle l

theorem sortKeys_eq_of_perm {l1 l2 : List String} (p : l1.Perm l2) :
    sortKeys l1 = sortKeys l2 := by
  haveI : IsAntisymm String strle := ⟨fun _ _ => strle_antisymm⟩
  exact List.eq_of_perm_of_sorted
    (((sortKeys_perm l1).trans p).trans (sortKeys_perm l2).symm)
    (sortKeys_sorted l1) (sortKeys_sorted l2)

theorem sortKeys_eq_iff_perm {l1 l2 : List String} :
    sortKeys l1 = sortKeys l2 ↔ l1.Perm l2 := by
  constructor
  · intro h
    exact ((sortKeys_perm l1).symm.trans (h ▸ List.Perm.refl (sortKeys l1))).trans (sortKeys_perm l2)
  · exact sortKeys_eq_of_perm

/-! ## The exact list check -/

theorem exactListsMatch_iff (a b : List String) : exactListsMatch a b = true ↔ a = b := by
  induction a generalizing b with
  | nil => cases b <;> simp [exactListsMatch, allIndexEq]
  | cons x xs ih =>
    cases b with
    | nil => simp [exactListsMatch, allIndexEq]
    | cons y ys =>
      have hih := ih ys
      simp only [exactListsMatch, List.length_cons, allIndexEq, Bool.and_eq_true,
        beq_iff_eq, Nat.add_right_cancel_iff] at hih ⊢
      rw [List.cons_eq_cons]
      constructor
      · rintro ⟨hl, hxy, hrest⟩
        exact ⟨hxy, hih.mp ⟨hl, hrest⟩⟩
      · rintro ⟨hxy, hys⟩
        rcases hih.mpr hys with ⟨hl, hrest⟩
        exact ⟨hl, hxy, hrest⟩

/-! ## Basic map lemmas -/

theorem lookup_isSome_iff_mem_keys (m : VolumeMap) (k : String) :
    (m.lookup k).isSome = true ↔ k ∈ m.keys := by
  induction m with
  | nil => simp [VolumeMap.lookup, VolumeMap.keys, List.lookup]
  | cons p rest ih =>
    by_cases h : k = p.1
    · simp [VolumeMap.lookup, VolumeMap.keys, List.lookup, h]
    · simp only [VolumeMap.lookup, VolumeMap.keys, List.lookup] at ih ⊢
      rw [List.map_cons]
      have : (k == p.1) = false := beq_false_of_ne h
      simp [this, ih, h]

theorem hasKey_iff_mem_keys (m : VolumeMap) (k : String) :
    m.hasKey k = true ↔ k ∈ m.keys :=
  lookup_isSome_iff_mem_keys m k

/-! ## Claim C1 -/

/-- **C1.** For all flat maps A and B, `compareVolumeMaps` with
`listMatch: 'exact'` and `report: 'first'` fails the list-level check if
and only if the key sets of A and B differ as sets: the implementation's
check (sorted key arrays have equal length and are pairwise equal) is
equivalent to pure, order-insensitive set equality, so any asymmetry in
either direction fails and no pair of distinct key sets passes. -/
theorem c1_exact_list_check_is_set_equality
    (isText : String → List Nat → Bool) (received expected : VolumeMap)
    (cm : Option ContentMatch)
    (hr : received.keys.Nodup) (he : expected.keys.Nodup) :
    (compareVolumeMapsFirst isText received expected (some .exact) cm).isListMismatch = true
      ↔ ¬ (∀ k, k ∈ received.keys ↔ k ∈ expected.keys) := by
  have hchar : exactListsMatch (sortKeys received.keys) (sortKeys expected.keys) = true
      ↔ (∀ k, k ∈ received.keys ↔ k ∈ expected.keys) := by
    rw [exactListsMatch_iff, sortKeys_eq_iff_perm, List.perm_ext_iff_of_nodup hr he]
  cases hb : exactListsMatch (sortKeys received.keys) (sortKeys expected.keys) with
  | false =>
    have hnot : ¬ (∀ k, k ∈ received.keys ↔ k ∈ expected.keys) := by
      intro hall
      rw [← hchar] at hall
      simp [hb] at hall
    have hres : (compareVolumeMapsFirst isText received expected
        (some .exact) cm).isListMismatch = true := by
      simp [compareVolumeMapsFirst, hb, CompareResult.isListMismatch]
    exact iff_of_true hres hnot
  | true =>
    have hall := hchar.mp hb
    have hres : (compareVolumeMapsFirst isText received expected
        (some .exact) cm).isListMismatch = false := by
      simp only [compareVolumeMapsFirst, hb, Bool.not_true, Bool.false_eq_true, if_false]
      split <;> simp [CompareResult.isListMismatch]
    refine iff_of_false ?_ (not_not_intro hall)
    simp [hres]

/-- Witness for C1 at concrete maps with different key sets. -/
theorem c1_exact_list_check_is_set_equality_witness :
    (VolumeMap.keys [("/a.txt", VolumeEntry.file [])]).Nodup ∧
    (VolumeMap.keys [("/b.txt", VolumeEntry.file [])]).Nodup ∧
    ((compareVolumeMapsFirst (fun _ _ => true)
        [("/a.txt", VolumeEntry.file [])] [("/b.txt", VolumeEntry.file [])]
        (some .exact) Option.none).isListMismatch = true
      ↔ ¬ (∀ k, k ∈ VolumeMap.keys [("/a.txt", VolumeEntry.file [])]
            ↔ k ∈ VolumeMap.keys [("/b.txt", VolumeEntry.file [])])) :=
  ⟨by decide, by decide,
    c1_exact_list_check_is_set_equality (fun _ _ => true) _ _ Option.none
      (by decide) (by decide)⟩

/-! ## Claim C8 -/

/-- **C8.** When the snapshot matcher runs with update-state `none` and
the snapshot directory does not exist, it takes the `failNoSnapshot`
branch: a failing result (`pass: false`) with no write to durable
storage, rather than silently creating the snapshot.  A write-and-pass
occurs exactly when update-state is `all`, or update-state is `new` and
no snapshot exists.  (`writeVolumeToDir` is invoked only on the
`writeAndPass` branch; the other branches perform no write.) -/
theorem c8_update_none_without_snapshot_fails :
    snapshotDecision SnapshotUpdateState.none false = SnapshotAction.failNoSnapshot ∧
    (∀ compareOutcome : Bool,
      snapshotActionPass compareOutcome SnapshotAction.failNoSnapshot = false) ∧
    (∀ (u : SnapshotUpdateState) (hasSnapshot : Bool),
      snapshotDecision u hasSnapshot = SnapshotAction.writeAndPass
        ↔ (u = SnapshotUpdateState.all ∨
            (u = SnapshotUpdateState.new ∧ hasSnapshot = false))) := by
  refine ⟨rfl, fun _ => rfl, ?_⟩
  intro u hasSnapshot
  cases u <;> cases hasSnapshot <;> decide

/-! ## Loop machinery for the comparison engine -/

theorem lmBeqExact : (some ListMatch.exact == some ListMatch.ignoreMissing) = false := by decide

theorem lmBeqIgnExtra : (some ListMatch.ignoreExtra == some ListMatch.ignoreMissing) = false := by
  decide

theorem lmBeqIgnMissing : (some ListMatch.ignoreMissing == some ListMatch.ignoreMissing) = true := by
  decide

theorem lmBeqNone : ((Option.none : Option ListMatch) == some ListMatch.ignoreMissing) = false := by
  decide

theorem matchEntryFn_some_act_kind (cF cS : Bool) (isText : String → List Nat → Bool)
    (p : String) (exp : Option VolumeEntry) (a : VolumeEntry) :
    (matchEntryFn cF cS isText p exp (some a)).kind ≠ DiffKind.Missing := by
  cases exp with
  | none => simp [matchEntryFn, DiffResult.kind]
  | some e' =>
    simp only [matchEntryFn]
    split
    · simp [DiffResult.kind]
    · split
      · split <;> simp [DiffResult.kind]
      · split <;> simp [DiffResult.kind]
      · simp [DiffResult.kind]

theorem matchEntryFn_some_exp_kind (cF cS : Bool) (isText : String → List Nat → Bool)
    (p : String) (e' : VolumeEntry) (act : Option VolumeEntry) :
    (matchEntryFn cF cS isText p (some e') act).kind ≠ DiffKind.Extra := by
  cases act with
  | none => simp [matchEntryFn, DiffResult.kind]
  | some a =>
    simp only [matchEntryFn]
    split
    · simp [DiffResult.kind]
    · split
      · split <;> simp [DiffResult.kind]
      · split <;> simp [DiffResult.kind]
      · simp [DiffResult.kind]

theorem entryKind_ne_missing_of_mem_received (cF cS : Bool)
    (isText : String → List Nat → Bool) (r e : VolumeMap) (p : String)
    (hp : p ∈ r.keys) :
    (entryResultAt cF cS isText r e p).kind ≠ DiffKind.Missing := by
  have hs : (r.lookup p).isSome = true := (lookup_isSome_iff_mem_keys r p).mpr hp
  unfold entryResultAt
  cases hl : r.lookup p with
  | none => rw [hl] at hs; cases hs
  | some a => exact matchEntryFn_some_act_kind cF cS isText p _ a

theorem entryKind_ne_extra_of_mem_expected (cF cS : Bool)
    (isText : String → List Nat → Bool) (r e : VolumeMap) (p : String)
    (hp : p ∈ e.keys) :
    (entryResultAt cF cS isText r e p).kind ≠ DiffKind.Extra := by
  have hs : (e.lookup p).isSome = true := (lookup_isSome_iff_mem_keys e p).mpr hp
  unfold entryResultAt
  cases hl : e.lookup p with
  | none => rw [hl] at hs; cases hs
  | some e' => exact matchEntryFn_some_exp_kind cF cS isText p e' _

theorem firstPathMismatch_none (cF cS : Bool) (isText : String → List Nat → Bool)
    (r e : VolumeMap) :
    ∀ files : List String,
      (∀ f ∈ files, matchEntryFn cF cS isText f (e.lookup f) (r.lookup f) = .matched) →
      firstPathMismatch cF cS isText r e files = Option.none
  | [], _ => rfl
  | f :: rest, h => by
    have hf := h f (by simp)
    simp only [firstPathMismatch, hf]
    exact firstPathMismatch_none cF cS isText r e rest (fun g hg => h g (by simp [hg]))

theorem allStep_missingCount (cF cS : Bool) (isText : String → List Nat → Bool)
    (r e : VolumeMap) (ignE ignM : Bool) (s : AllState) (p : String) :
    (allStep cF cS isText r e ignE ignM s p).missingCount
      = s.missingCount
        + (if (entryResultAt cF cS isText r e p).kind == DiffKind.Missing && !ignM
            then 1 else 0) := by
  unfold allStep entryResultAt
  cases hk : matchEntryFn cF cS isText p (e.lookup p) (r.lookup p) <;>
    cases ignM <;> cases ignE <;> simp [DiffResult.kind]

theorem allStep_extraCount (cF cS : Bool) (isText : String → List Nat → Bool)
    (r e : VolumeMap) (ignE ignM : Bool) (s : AllState) (p : String) :
    (allStep cF cS isText r e ignE ignM s p).extraCount
      = s.extraCount
        + (if (entryResultAt cF cS isText r e p).kind == DiffKind.Extra && !ignE
            then 1 else 0) := by
  unfold allStep entryResultAt
  cases hk : matchEntryFn cF cS isText p (e.lookup p) (r.lookup p) <;>
    cases ignM <;> cases ignE <;> simp [DiffResult.kind]

theorem allStep_typeCount (cF cS : Bool) (isText : String → List Nat → Bool)
    (r e : VolumeMap) (ignE ignM : Bool) (s : AllState) (p : String) :
    (allStep cF cS isText r e ignE ignM s p).typeCount
      = s.typeCount
        + (if (entryResultAt cF cS isText r e p).kind == DiffKind.TypeMismatch
            then 1 else 0) := by
  unfold allStep entryResultAt
  cases hk : matchEntryFn cF cS isText p (e.lookup p) (r.lookup p) <;>
    cases ignM <;> cases ignE <;> simp [DiffResult.kind]

theorem allStep_contentCount (cF cS : Bool) (isText : String → List Nat → Bool)
    (r e : VolumeMap) (ignE ignM : Bool) (s : AllState) (p : String) :
    (allStep cF cS isText r e ignE ignM s p).contentCount
      = s.contentCount
        + (if ((entryResultAt cF cS isText r e p).kind == DiffKind.FileMismatch
              || (entryResultAt cF cS isText r e p).kind == DiffKind.SymlinkMismatch)
            then 1 else 0) := by
  unfold allStep entryResultAt
  cases hk : matchEntryFn cF cS isText p (e.lookup p) (r.lookup p) <;>
    cases ignM <;> cases ignE <;> simp [DiffResult.kind]

theorem allStep_actualDiff (cF cS : Bool) (isText : String → List Nat → Bool)
    (r e : VolumeMap) (ignE ignM : Bool) (s : AllState) (p : String) :
    (allStep cF cS isText r e ignE ignM s p).actualDiff
      = s.actualDiff ++ (actDiffSel cF cS isText r e ignE p).toList := by
  unfold allStep actDiffSel entryResultAt
  cases hk : matchEntryFn cF cS isText p (e.lookup p) (r.lookup p) <;>
    cases ignM <;> cases ignE <;> simp [DiffResult.kind]

theorem allStep_expectedDiff (cF cS : Bool) (isText : String → List Nat → Bool)
    (r e : VolumeMap) (ignE ignM : Bool) (s : AllState) (p : String) :
    (allStep cF cS isText r e ignE ignM s p).expectedDiff
      = s.expectedDiff ++ (expDiffSel cF cS isText r e ignM p).toList := by
  unfold allStep expDiffSel entryResultAt
  cases hk : matchEntryFn cF cS isText p (e.lookup p) (r.lookup p) <;>
    cases ignM <;> cases ignE <;> simp [DiffResult.kind]

theorem foldl_count (step : AllState → String → AllState) (get : AllState → Nat)
    (pred : String → Bool)
    (hstep : ∀ s p, get (step s p) = get s + (if pred p then 1 else 0)) :
    ∀ (paths : List String) (s : AllState),
      get (paths.foldl step s) = get s + (paths.filter pred).length
  | [], _ => by simp
  | p :: rest, s => by
    simp only [List.foldl_cons, List.filter_cons]
    rw [foldl_count step get pred hstep rest (step s p), hstep]
    cases hp : pred p <;> simp <;> omega

theorem foldl_diffList (step : AllState → String → AllState)
    (get : AllState → List (String × DiffEntry))
    (sel : String → Option (String × DiffEntry))
    (hstep : ∀ s p, get (step s p) = get s ++ (sel p).toList) :
    ∀ (paths : List String) (s : AllState),
      get (paths.foldl step s) = get s ++ paths.filterMap sel
  | [], _ => by simp
  | p :: rest, s => by
    simp only [List.foldl_cons, List.filterMap_cons]
    rw [foldl_diffList step get sel hstep rest (step s p), hstep]
    cases hp : sel p <;> simp

theorem compareAll_missingCount (isText : String → List Nat → Bool)
    (r e : VolumeMap) (lm : Option ListMatch) (cm : Option ContentMatch) :
    (compareVolumeMapsAll isText r e lm cm).missingCount
      = ((pathsToCheck r e lm).filter (fun p =>
          (entryResultAt (compareFilesFlag cm) (compareSymlinksFlag cm) isText r e p).kind
            == DiffKind.Missing && !(lm == some .ignoreMissing))).length := by
  unfold compareVolumeMapsAll
  rw [foldl_count _ AllState.missingCount _
    (allStep_missingCount (compareFilesFlag cm) (compareSymlinksFlag cm) isText r e
      (lm == some .ignoreExtra) (lm == some .ignoreMissing))]
  simp [AllState.init]

theorem compareAll_extraCount (isText : String → List Nat → Bool)
    (r e : VolumeMap) (lm : Option ListMatch) (cm : Option ContentMatch) :
    (compareVolumeMapsAll isText r e lm cm).extraCount
      = ((pathsToCheck r e lm).filter (fun p =>
          (entryResultAt (compareFilesFlag cm) (compareSymlinksFlag cm) isText r e p).kind
            == DiffKind.Extra && !(lm == some .ignoreExtra))).length := by
  unfold compareVolumeMapsAll
  rw [foldl_count _ AllState.extraCount _
    (allStep_extraCount (compareFilesFlag cm) (compareSymlinksFlag cm) isText r e
      (lm == some .ignoreExtra) (lm == some .ignoreMissing))]
  simp [AllState.init]

theorem compareAll_typeCount (isText : String → List Nat → Bool)
    (r e : VolumeMap) (lm : Option ListMatch) (cm : Option ContentMatch) :
    (compareVolumeMapsAll isText r e lm cm).typeCount
      = ((pathsToCheck r e lm).filter (fun p =>
          (entryResultAt (compareFilesFlag cm) (compareSymlinksFlag cm) isText r e p).kind
            == DiffKind.TypeMismatch)).length := by
  unfold compareVolumeMapsAll
  rw [foldl_count _ AllState.typeCount _
    (allStep_typeCount (compareFilesFlag cm) (compareSymlinksFlag cm) isText r e
      (lm == some .ignoreExtra) (lm == some .ignoreMissing))]
  simp [AllState.init]

theorem compareAll_contentCount (isText : String → List Nat → Bool)
    (r e : VolumeMap) (lm : Option ListMatch) (cm : Option ContentMatch) :
    (compareVolumeMapsAll isText r e lm cm).contentCount
      = ((pathsToCheck r e lm).filter (fun p =>
          ((entryResultAt (compareFilesFlag cm) (compareSymlinksFlag cm) isText r e p).kind
            == DiffKind.FileMismatch
          || (entryResultAt (compareFilesFlag cm) (compareSymlinksFlag cm) isText r e p).kind
            == DiffKind.SymlinkMismatch))).length := by
  unfold compareVolumeMapsAll
  rw [foldl_count _ AllState.contentCount _
    (allStep_contentCount (compareFilesFlag cm) (compareSymlinksFlag cm) isText r e
      (lm == some .ignoreExtra) (lm == some .ignoreMissing))]
  simp [AllState.init]

theorem compareAll_actualDiff (isText : String → List Nat → Bool)
    (r e : VolumeMap) (lm : Option ListMatch) (cm : Option ContentMatch) :
    (compareVolumeMapsAll isText r e lm cm).actualDiff
      = (pathsToCheck r e lm).filterMap
          (actDiffSel (compareFilesFlag cm) (compareSymlinksFlag cm) isText r e
            (lm == some .ignoreExtra)) := by
  unfold compareVolumeMapsAll
  rw [foldl_diffList _ AllState.actualDiff _
    (allStep_actualDiff (compareFilesFlag cm) (compareSymlinksFlag cm) isText r e
      (lm == some .ignoreExtra) (lm == some .ignoreMissing))]
  rfl

theorem compareAll_expectedDiff (isText : String → List Nat → Bool)
    (r e : VolumeMap) (lm : Option ListMatch) (cm : Option ContentMatch) :
    (compareVolumeMapsAll isText r e lm cm).expectedDiff
      = (pathsToCheck r e lm).filterMap
          (expDiffSel (compareFilesFlag cm) (compareSymlinksFlag cm) isText r e
            (lm == some .ignoreMissing)) := by
  unfold compareVolumeMapsAll
  rw [foldl_diffList _ AllState.expectedDiff _
    (allStep_expectedDiff (compareFilesFlag cm) (compareSymlinksFlag cm) isText r e
      (lm == some .ignoreExtra) (lm == some .ignoreMissing))]
  rfl

/-! ## Association-list lemmas -/

theorem hasKey_eq_false_iff (m : VolumeMap) (k : String) :
    m.hasKey k = false ↔ k ∉ m.keys := by
  rw [← hasKey_iff_mem_keys]
  cases m.hasKey k <;> simp

theorem lookup_map_value {β : Type} (f : VolumeEntry → β) :
    ∀ (m : VolumeMap) (k : String),
      List.lookup k (m.map (fun pe => (pe.1, f pe.2))) = Option.map f (List.lookup k m)
  | [], _ => rfl
  | (a, b) :: rest, k => by
    simp only [List.map_cons, List.lookup]
    cases k == a <;> simp [lookup_map_value f rest k]

theorem lookup_eq_of_perm {β : Type} :
    ∀ {l1 l2 : List (String × β)}, l1.Perm l2 → (l1.map Prod.fst).Nodup →
      ∀ k, List.lookup k l1 = List.lookup k l2 := by
  intro l1 l2 h
  induction h with
  | nil => intro _ _; rfl
  | cons x _ ih =>
    intro hnd k
    obtain ⟨a, b⟩ := x
    simp only [List.map_cons, List.nodup_cons] at hnd
    simp only [List.lookup]
    cases k == a <;> simp [ih hnd.2 k]
  | swap x y l =>
    intro hnd k
    obtain ⟨a, b⟩ := x
    obtain ⟨c, d⟩ := y
    simp only [List.map_cons, List.nodup_cons, List.mem_cons] at hnd
    have hne : c ≠ a := fun heq => hnd.1 (Or.inl heq)
    simp only [List.lookup]
    cases hka : k == a with
    | true =>
      have : k = a := eq_of_beq hka
      subst this
      rw [show (k == c) = false from beq_false_of_ne (fun hkc => hne hkc.symm)]
    | false => cases k == c <;> rfl
  | trans h1 _ ih1 ih2 =>
    intro hnd k
    have hnd2 : (_ : List _).Nodup := ((h1.map Prod.fst).nodup_iff).mp hnd
    rw [ih1 hnd k, ih2 hnd2 k]

theorem lookup_filterMap_not_mem {β : Type} (f : String → Option (String × β))
    (hf : ∀ p q, f p = some q → q.1 = p) :
    ∀ (paths : List String) (x : String), x ∉ paths →
      List.lookup x (paths.filterMap f) = Option.none
  | [], _, _ => rfl
  | p :: rest, x, hx => by
    have hxp : x ≠ p := fun h => hx (by simp [h])
    have hxr : x ∉ rest := fun h => hx (by simp [h])
    simp only [List.filterMap_cons]
    cases hfp : f p with
    | none => exact lookup_filterMap_not_mem f hf rest x hxr
    | some q =>
      obtain ⟨a, b⟩ := q
      have ha : a = p := hf p (a, b) hfp
      simp only [List.lookup]
      rw [show (x == a) = false from beq_false_of_ne (ha ▸ hxp)]
      exact lookup_filterMap_not_mem f hf rest x hxr

theorem lookup_filterMap_mem {β : Type} (f : String → Option (String × β))
    (hf : ∀ p q, f p = some q → q.1 = p) :
    ∀ (paths : List String), paths.Nodup → ∀ x ∈ paths,
      List.lookup x (paths.filterMap f) = Option.map Prod.snd (f x)
  | [], _, x, hx => by cases hx
  | p :: rest, hnd, x, hx => by
    rcases List.mem_cons.mp hx with hxp | hxr
    · subst hxp
      have hxrest : x ∉ rest := (List.nodup_cons.mp hnd).1
      simp only [List.filterMap_cons]
      cases hfp : f x with
      | none => simp [lookup_filterMap_not_mem f hf rest x hxrest, hfp]
      | some q =>
        obtain ⟨a, b⟩ := q
        have ha : a = x := hf x (a, b) hfp
        subst ha
        simp [List.lookup, hfp]
    · have hnd2 := (List.nodup_cons.mp hnd).2
      have hxp : x ≠ p := by
        rintro rfl
        exact (List.nodup_cons.mp hnd).1 hxr
      simp only [List.filterMap_cons]
      cases hfp : f p with
      | none => exact lookup_filterMap_mem f hf rest hnd2 x hxr
      | some q =>
        obtain ⟨a, b⟩ := q
        have ha : a = p := hf p (a, b) hfp
        simp only [List.lookup]
        rw [show (x == a) = false from beq_false_of_ne (ha ▸ hxp)]
        exact lookup_filterMap_mem f hf rest hnd2 x hxr

theorem mem_unionKeys (r e : VolumeMap) (p : String) :
    p ∈ unionKeys r e ↔ (p ∈ r.keys ∨ p ∈ e.keys) := by
  unfold unionKeys
  constructor
  · intro hp
    rcases List.mem_append.mp hp with h | h
    · exact Or.inl h
    · exact Or.inr (List.mem_filter.mp h).1
  · intro hp
    by_cases hr : p ∈ r.keys
    · exact List.mem_append.mpr (Or.inl hr)
    · rcases hp with h | h
      · exact absurd h hr
      · refine List.mem_append.mpr (Or.inr (List.mem_filter.mpr ⟨h, ?_⟩))
        have : r.hasKey p = false := (hasKey_eq_false_iff r p).mpr hr
        simp [this]

theorem unionKeys_nodup {r e : VolumeMap} (hr : r.keys.Nodup) (he : e.keys.Nodup) :
    (unionKeys r e).Nodup := by
  unfold unionKeys
  refine List.Nodup.append hr (he.filter _) ?_
  intro x hxr hxe
  have := (List.mem_filter.mp hxe).2
  rw [show (!r.hasKey x) = true ↔ r.hasKey x = false from by cases r.hasKey x <;> simp] at this
  exact (hasKey_eq_false_iff r x).mp this hxr

theorem pathsToCheck_nodup {r e : VolumeMap} (hr : r.keys.Nodup) (he : e.keys.Nodup)
    (lm : Option ListMatch) : (pathsToCheck r e lm).Nodup := by
  unfold pathsToCheck
  split
  · exact he
  · split
    · exact hr
    · exact unionKeys_nodup hr he

theorem mem_pathsToCheck {r e : VolumeMap} {lm : Option ListMatch} {p : String}
    (hp : p ∈ pathsToCheck r e lm) : p ∈ r.keys ∨ p ∈ e.keys := by
  unfold pathsToCheck at hp
  split at hp
  · exact Or.inr hp
  · split at hp
    · exact Or.inl hp
    · exact (mem_unionKeys r e p).mp hp

theorem repBeqNone : ((Option.none : Option ReportType) == some ReportType.all) = false := by
  decide

theorem matchEntryFn_false_false_matched (isText : String → List Nat → Bool)
    (p : String) (b a : VolumeEntry) (h : b.kindName = a.kindName) :
    matchEntryFn false false isText p (some b) (some a) = .matched := by
  cases b <;> cases a <;>
    simp only [VolumeEntry.kindName] at h <;>
    first
      | exact absurd h (by decide)
      | simp [matchEntryFn, VolumeEntry.kindName]

/-! ## Claim C4 -/

/-- **C4.** For all flat maps A and B that have identical key sets and
identical entry kinds (file / symlink / empty-directory) at every key —
expressed as a permutation between the two maps' `(path, kind)`
projections — `compareVolumeMaps` with `contentMatch: 'ignore'` passes
regardless of the file byte contents and symlink target strings on
either side, in both report modes and for every `listMatch` value. -/
theorem c4_contentMatch_ignore_insensitive
    (isText : String → List Nat → Bool) (received expected : VolumeMap)
    (hr : received.keys.Nodup) (he : expected.keys.Nodup)
    (hshape : (received.map (fun pe => (pe.1, pe.2.kindName))).Perm
        (expected.map (fun pe => (pe.1, pe.2.kindName))))
    (lm : Option ListMatch) (report : Option ReportType) :
    compareVolumeMapsPass isText received expected lm (some .ignore) report = true := by
  have hndmap : ((received.map (fun pe => (pe.1, pe.2.kindName))).map Prod.fst).Nodup := by
    have heq : (received.map (fun pe => (pe.1, pe.2.kindName))).map Prod.fst
        = received.keys := by
      simp [VolumeMap.keys, List.map_map]
    rw [heq]
    exact hr
  have hkinds : ∀ k, Option.map VolumeEntry.kindName (received.lookup k)
      = Option.map VolumeEntry.kindName (expected.lookup k) := by
    intro k
    have h1 := lookup_map_value VolumeEntry.kindName received k
    have h2 := lookup_map_value VolumeEntry.kindName expected k
    simp only [VolumeMap.lookup]
    rw [← h1, ← h2]
    exact lookup_eq_of_perm hshape hndmap k
  have hhk : ∀ k, received.hasKey k = expected.hasKey k := by
    intro k
    have := congrArg Option.isSome (hkinds k)
    simpa [VolumeMap.hasKey] using this
  have hmem : ∀ k, k ∈ received.keys ↔ k ∈ expected.keys := by
    intro k
    rw [← hasKey_iff_mem_keys, ← hasKey_iff_mem_keys, hhk k]
  have hsorted : sortKeys received.keys = sortKeys expected.keys :=
    sortKeys_eq_of_perm ((List.perm_ext_iff_of_nodup hr he).mpr hmem)
  have hmatched : ∀ p, (p ∈ received.keys ∨ p ∈ expected.keys) →
      matchEntryFn false false isText p (expected.lookup p) (received.lookup p)
        = .matched := by
    intro p hp
    have hpr : p ∈ received.keys := hp.elim id (fun hh => (hmem p).mpr hh)
    have hpe : p ∈ expected.keys := (hmem p).mp hpr
    obtain ⟨a, ha⟩ := Option.isSome_iff_exists.mp
      ((lookup_isSome_iff_mem_keys received p).mpr hpr)
    obtain ⟨b, hb⟩ := Option.isSome_iff_exists.mp
      ((lookup_isSome_iff_mem_keys expected p).mpr hpe)
    have hk := hkinds p
    rw [ha, hb] at hk
    simp only [Option.map_some', Option.some.injEq] at hk
    rw [ha, hb]
    exact matchEntryFn_false_false_matched isText p b a hk.symm
  have hfpmE : firstPathMismatch false false isText received expected
      (sortKeys expected.keys) = Option.none := by
    apply firstPathMismatch_none
    intro f hf
    exact hmatched f (Or.inr ((sortKeys_perm expected.keys).mem_iff.mp hf))
  have hfpmA : firstPathMismatch false false isText received expected
      (sortKeys received.keys) = Option.none := by
    rw [hsorted]
    exact hfpmE
  have hmissingnil : (sortKeys expected.keys).filter (fun f => !received.hasKey f) = [] := by
    rw [List.filter_eq_nil_iff]
    intro f hf
    have hm : received.hasKey f = true := by
      rw [hasKey_iff_mem_keys]
      exact (hmem f).mpr ((sortKeys_perm expected.keys).mem_iff.mp hf)
    simp [hm]
  have hextranil : (sortKeys received.keys).filter (fun f => !expected.hasKey f) = [] := by
    rw [List.filter_eq_nil_iff]
    intro f hf
    have hm : expected.hasKey f = true := by
      rw [hasKey_iff_mem_keys]
      exact (hmem f).mp ((sortKeys_perm received.keys).mem_iff.mp hf)
    simp [hm]
  have hb : exactListsMatch (sortKeys received.keys) (sortKeys expected.keys) = true := by
    rw [exactListsMatch_iff]
    exact hsorted
  have hfirst : (compareVolumeMapsFirst isText received expected lm (some .ignore)).passes
      = true := by
    cases lm with
    | none =>
      simp [compareVolumeMapsFirst, hb, compareFilesFlag, compareSymlinksFlag, lmBeqNone,
        hfpmE, CompareResult.passes]
    | some l =>
      cases l with
      | exact =>
        simp [compareVolumeMapsFirst, hb, compareFilesFlag, compareSymlinksFlag, lmBeqExact,
          hfpmE, CompareResult.passes]
      | ignoreExtra =>
        simp [compareVolumeMapsFirst, hmissingnil, compareFilesFlag, compareSymlinksFlag,
          lmBeqIgnExtra, hfpmE, CompareResult.passes]
      | ignoreMissing =>
        simp [compareVolumeMapsFirst, hextranil, compareFilesFlag, compareSymlinksFlag,
          lmBeqIgnMissing, hfpmA, CompareResult.passes]
  have hkind : ∀ p ∈ pathsToCheck received expected lm,
      (entryResultAt (compareFilesFlag (some .ignore)) (compareSymlinksFlag (some .ignore))
        isText received expected p).kind = DiffKind.Match := by
    intro p hp
    show (matchEntryFn false false isText p (expected.lookup p)
      (received.lookup p)).kind = DiffKind.Match
    rw [hmatched p (mem_pathsToCheck hp)]
    rfl
  have hfilter : ∀ (pred : String → Bool),
      (∀ p ∈ pathsToCheck received expected lm, pred p = false) →
      (pathsToCheck received expected lm).filter pred = [] := by
    intro pred hcond
    rw [List.filter_eq_nil_iff]
    intro a ha
    simp [hcond a ha]
  have h1 := compareAll_missingCount isText received expected lm (some .ignore)
  have h2 := compareAll_extraCount isText received expected lm (some .ignore)
  have h3 := compareAll_typeCount isText received expected lm (some .ignore)
  have h4 := compareAll_contentCount isText received expected lm (some .ignore)
  rw [hfilter _ (fun p hp => by rw [hkind p hp]; rfl)] at h1
  rw [hfilter _ (fun p hp => by rw [hkind p hp]; rfl)] at h2
  rw [hfilter _ (fun p hp => by rw [hkind p hp]; rfl)] at h3
  rw [hfilter _ (fun p hp => by rw [hkind p hp]; rfl)] at h4
  have hallpass : (compareVolumeMapsAll isText received expected lm (some .ignore)).passes
      = true := by
    simp [AllState.passes, AllState.total, h1, h2, h3, h4]
  unfold compareVolumeMapsPass
  split
  · exact hallpass
  · exact hfirst

/-- Witness for C4: same single path and kind on both sides, different
file bytes, compared under `contentMatch='ignore'`. -/
theorem c4_contentMatch_ignore_insensitive_witness :
    (VolumeMap.keys [("/f", VolumeEntry.file [1])]).Nodup ∧
    (VolumeMap.keys [("/f", VolumeEntry.file [2])]).Nodup ∧
    (([("/f", VolumeEntry.file [1])].map
        (fun pe : String × VolumeEntry => (pe.1, pe.2.kindName))).Perm
      ([("/f", VolumeEntry.file [2])].map
        (fun pe : String × VolumeEntry => (pe.1, pe.2.kindName)))) ∧
    compareVolumeMapsPass (fun _ _ => true) [("/f", VolumeEntry.file [1])]
      [("/f", VolumeEntry.file [2])] (some .exact) (some .ignore) (some .all) = true :=
  ⟨by decide, by decide, by decide,
    c4_contentMatch_ignore_insensitive (fun _ _ => true) _ _ (by decide) (by decide)
      (by decide) (some .exact) (some .all)⟩

/-! ## Claim C5 -/

theorem first_exact_pass_elim (isText : String → List Nat → Bool)
    (r e : VolumeMap) (cm : Option ContentMatch)
    (h : (compareVolumeMapsFirst isText r e (some .exact) cm).passes = true) :
    exactListsMatch (sortKeys r.keys) (sortKeys e.keys) = true ∧
    firstPathMismatch (compareFilesFlag cm) (compareSymlinksFlag cm) isText r e
      (sortKeys e.keys) = Option.none := by
  cases hb : exactListsMatch (sortKeys r.keys) (sortKeys e.keys) with
  | false =>
    rw [show compareVolumeMapsFirst isText r e (some .exact) cm
        = .listMismatch .structureMismatch (sortKeys r.keys) (sortKeys e.keys) from by
      simp [compareVolumeMapsFirst, hb]] at h
    simp [CompareResult.passes] at h
  | true =>
    refine ⟨rfl, ?_⟩
    cases hm : firstPathMismatch (compareFilesFlag cm) (compareSymlinksFlag cm) isText r e
        (sortKeys e.keys) with
    | none => rfl
    | some v =>
      obtain ⟨k, f, a2, e2⟩ := v
      rw [show compareVolumeMapsFirst isText r e (some .exact) cm
          = .pathMismatch k f a2 e2 from by
        simp [compareVolumeMapsFirst, hb, lmBeqExact, hm]] at h
      simp [CompareResult.passes] at h

/-- **C5.** For all flat maps A and B and any fixed `contentMatch`, if
`compareVolumeMaps(A, B, {listMatch: 'exact'})` passes (with the default
`report: 'first'`), then `compareVolumeMaps(A, B,
{listMatch: 'ignore-extra'})` and `compareVolumeMaps(A, B,
{listMatch: 'ignore-missing'})` also pass. -/
theorem c5_exact_pass_monotone
    (isText : String → List Nat → Bool) (received expected : VolumeMap)
    (cm : Option ContentMatch)
    (h : compareVolumeMapsPass isText received expected (some .exact) cm Option.none
      = true) :
    compareVolumeMapsPass isText received expected (some .ignoreExtra) cm Option.none
      = true ∧
    compareVolumeMapsPass isText received expected (some .ignoreMissing) cm Option.none
      = true := by
  have h0 : (compareVolumeMapsFirst isText received expected (some .exact) cm).passes
      = true := by
    simpa [compareVolumeMapsPass, repBeqNone] using h
  obtain ⟨hb, hfpm⟩ := first_exact_pass_elim isText received expected cm h0
  have hsorted : sortKeys received.keys = sortKeys expected.keys :=
    (exactListsMatch_iff _ _).mp hb
  have hmemE : ∀ f ∈ sortKeys expected.keys, received.hasKey f = true := by
    intro f hf
    rw [hasKey_iff_mem_keys]
    have hf2 : f ∈ sortKeys received.keys := hsorted ▸ hf
    exact (sortKeys_perm received.keys).mem_iff.mp hf2
  have hmemA : ∀ f ∈ sortKeys received.keys, expected.hasKey f = true := by
    intro f hf
    rw [hasKey_iff_mem_keys]
    have hf2 : f ∈ sortKeys expected.keys := hsorted ▸ hf
    exact (sortKeys_perm expected.keys).mem_iff.mp hf2
  have hmissingnil : (sortKeys expected.keys).filter (fun f => !received.hasKey f) = [] := by
    rw [List.filter_eq_nil_iff]
    intro f hf
    simp [hmemE f hf]
  have hextranil : (sortKeys received.keys).filter (fun f => !expected.hasKey f) = [] := by
    rw [List.filter_eq_nil_iff]
    intro f hf
    simp [hmemA f hf]
  have hfpmA : firstPathMismatch (compareFilesFlag cm) (compareSymlinksFlag cm) isText
      received expected (sortKeys received.keys) = Option.none := by
    rw [hsorted]
    exact hfpm
  constructor
  · simp [compareVolumeMapsPass, repBeqNone, compareVolumeMapsFirst, hmissingnil,
      lmBeqIgnExtra, hfpm, CompareResult.passes]
  · simp [compareVolumeMapsPass, repBeqNone, compareVolumeMapsFirst, hextranil,
      lmBeqIgnMissing, hfpmA, CompareResult.passes]

/-- Witness for C5 at a concrete passing exact comparison. -/
theorem c5_exact_pass_monotone_witness :
    compareVolumeMapsPass (fun _ _ => true) [("/a", VolumeEntry.file [7])]
      [("/a", VolumeEntry.file [7])] (some .exact) Option.none Option.none = true ∧
    (compareVolumeMapsPass (fun _ _ => true) [("/a", VolumeEntry.file [7])]
      [("/a", VolumeEntry.file [7])] (some .ignoreExtra) Option.none Option.none = true ∧
    compareVolumeMapsPass (fun _ _ => true) [("/a", VolumeEntry.file [7])]
      [("/a", VolumeEntry.file [7])] (some .ignoreMissing) Option.none Option.none = true) :=
  ⟨by decide, c5_exact_pass_monotone (fun _ _ => true) _ _ Option.none (by decide)⟩

/-! ## Claim C2: helper lemmas -/

theorem actDiffSel_key (cF cS : Bool) (isText : String → List Nat → Bool)
    (r e : VolumeMap) (ignE : Bool) :
    ∀ p q, actDiffSel cF cS isText r e ignE p = some q → q.1 = p := by
  intro p q h
  unfold actDiffSel at h
  split at h
  · injection h with h1; rw [← h1]
  · injection h with h1; rw [← h1]
  · injection h with h1; rw [← h1]
  · cases h
  · split at h
    · cases h
    · injection h with h1; rw [← h1]
  · injection h with h1; rw [← h1]

theorem expDiffSel_key (cF cS : Bool) (isText : String → List Nat → Bool)
    (r e : VolumeMap) (ignM : Bool) :
    ∀ p q, expDiffSel cF cS isText r e ignM p = some q → q.1 = p := by
  intro p q h
  unfold expDiffSel at h
  split at h
  · injection h with h1; rw [← h1]
  · injection h with h1; rw [← h1]
  · injection h with h1; rw [← h1]
  · split at h
    · cases h
    · injection h with h1; rw [← h1]
  · cases h
  · injection h with h1; rw [← h1]

theorem mem_filterMap_keys_iff {β : Type} (sel : String → Option (String × β))
    (hsel : ∀ p q, sel p = some q → q.1 = p) (paths : List String) (p : String) :
    p ∈ (paths.filterMap sel).map Prod.fst ↔ (p ∈ paths ∧ sel p ≠ Option.none) := by
  constructor
  · intro hp
    obtain ⟨q, hq, hqp⟩ := List.mem_map.mp hp
    obtain ⟨x, hx, hxq⟩ := List.mem_filterMap.mp hq
    have hx2 : q.1 = x := hsel x q hxq
    have hxp : x = p := by rw [← hqp, hx2]
    subst hxp
    exact ⟨hx, fun hn => by rw [hn] at hxq; cases hxq⟩
  · rintro ⟨hp, hne⟩
    cases hq : sel p with
    | none => exact absurd hq hne
    | some q =>
      exact List.mem_map.mpr ⟨q, List.mem_filterMap.mpr ⟨p, hp, hq⟩, hsel p q hq⟩

theorem pathsToCheck_ignoreExtra (r e : VolumeMap) :
    pathsToCheck r e (some .ignoreExtra) = e.keys := by
  simp [pathsToCheck]

theorem pathsToCheck_ignoreMissing (r e : VolumeMap) :
    pathsToCheck r e (some .ignoreMissing) = r.keys := by
  simp [pathsToCheck]

theorem diffSel_cover (isText : String → List Nat → Bool) (r e : VolumeMap)
    (lm : Option ListMatch) (cm : Option ContentMatch) (p : String)
    (hp : p ∈ pathsToCheck r e lm) :
    actDiffSel (compareFilesFlag cm) (compareSymlinksFlag cm) isText r e
      (lm == some .ignoreExtra) p ≠ Option.none ∨
    expDiffSel (compareFilesFlag cm) (compareSymlinksFlag cm) isText r e
      (lm == some .ignoreMissing) p ≠ Option.none := by
  cases hres : entryResultAt (compareFilesFlag cm) (compareSymlinksFlag cm) isText r e p with
  | matched => left; simp [actDiffSel, hres]
  | typeMismatch e1 a1 => left; simp [actDiffSel, hres]
  | fileMismatch e1 a1 => left; simp [actDiffSel, hres]
  | symlinkMismatch e1 a1 => left; simp [actDiffSel, hres]
  | missing e1 =>
    right
    simp only [expDiffSel, hres]
    cases hlm : (lm == some ListMatch.ignoreMissing) with
    | false => simp
    | true =>
      exfalso
      have hlm2 : lm = some .ignoreMissing := eq_of_beq hlm
      subst hlm2
      rw [pathsToCheck_ignoreMissing] at hp
      exact entryKind_ne_missing_of_mem_received _ _ isText r e p hp (by rw [hres]; rfl)
  | extra a1 =>
    left
    simp only [actDiffSel, hres]
    cases hlm : (lm == some ListMatch.ignoreExtra) with
    | false => simp
    | true =>
      exfalso
      have hlm2 : lm = some .ignoreExtra := eq_of_beq hlm
      subst hlm2
      rw [pathsToCheck_ignoreExtra] at hp
      exact entryKind_ne_extra_of_mem_expected _ _ isText r e p hp (by rw [hres]; rfl)

theorem compareAll_missingCount_plain (isText : String → List Nat → Bool)
    (r e : VolumeMap) (lm : Option ListMatch) (cm : Option ContentMatch) :
    (compareVolumeMapsAll isText r e lm cm).missingCount
      = ((pathsToCheck r e lm).filter (fun p =>
          (entryResultAt (compareFilesFlag cm) (compareSymlinksFlag cm) isText r e p).kind
            == DiffKind.Missing)).length := by
  rw [compareAll_missingCount]
  by_cases hlm : lm = some ListMatch.ignoreMissing
  · subst hlm
    have h1 : (pathsToCheck r e (some ListMatch.ignoreMissing)).filter (fun p =>
        (entryResultAt (compareFilesFlag cm) (compareSymlinksFlag cm) isText r e p).kind
          == DiffKind.Missing
        && !(some ListMatch.ignoreMissing == some ListMatch.ignoreMissing)) = [] := by
      simp
    have h2 : (pathsToCheck r e (some ListMatch.ignoreMissing)).filter (fun p =>
        (entryResultAt (compareFilesFlag cm) (compareSymlinksFlag cm) isText r e p).kind
          == DiffKind.Missing) = [] := by
      rw [List.filter_eq_nil_iff]
      intro a ha
      rw [pathsToCheck_ignoreMissing] at ha
      have hne := entryKind_ne_missing_of_mem_received (compareFilesFlag cm)
        (compareSymlinksFlag cm) isText r e a ha
      simp [hne]
    rw [h1, h2]
  · have hbeq : (lm == some ListMatch.ignoreMissing) = false := by
      cases hx : lm == some ListMatch.ignoreMissing
      · rfl
      · exact absurd (eq_of_beq hx) hlm
    simp only [hbeq, Bool.not_false, Bool.and_true]

theorem compareAll_extraCount_plain (isText : String → List Nat → Bool)
    (r e : VolumeMap) (lm : Option ListMatch) (cm : Option ContentMatch) :
    (compareVolumeMapsAll isText r e lm cm).extraCount
      = ((pathsToCheck r e lm).filter (fun p =>
          (entryResultAt (compareFilesFlag cm) (compareSymlinksFlag cm) isText r e p).kind
            == DiffKind.Extra)).length := by
  rw [compareAll_extraCount]
  by_cases hlm : lm = some ListMatch.ignoreExtra
  · subst hlm
    have h1 : (pathsToCheck r e (some ListMatch.ignoreExtra)).filter (fun p =>
        (entryResultAt (compareFilesFlag cm) (compareSymlinksFlag cm) isText r e p).kind
          == DiffKind.Extra
        && !(some ListMatch.ignoreExtra == some ListMatch.ignoreExtra)) = [] := by
      simp
    have h2 : (pathsToCheck r e (some ListMatch.ignoreExtra)).filter (fun p =>
        (entryResultAt (compareFilesFlag cm) (compareSymlinksFlag cm) isText r e p).kind
          == DiffKind.Extra) = [] := by
      rw [List.filter_eq_nil_iff]
      intro a ha
      rw [pathsToCheck_ignoreExtra] at ha
      have hne := entryKind_ne_extra_of_mem_expected (compareFilesFlag cm)
        (compareSymlinksFlag cm) isText r e a ha
      simp [hne]
    rw [h1, h2]
  · have hbeq : (lm == some ListMatch.ignoreExtra) = false := by
      cases hx : lm == some ListMatch.ignoreExtra
      · rfl
      · exact absurd (eq_of_beq hx) hlm
    simp only [hbeq, Bool.not_false, Bool.and_true]

/-! ## Claim C2 -/

/-- **C2.** For all flat maps A and B and every `listMatch` value,
`compareVolumeMaps` with `report: 'all'` visits the union of both key
sets (or only the expected keys under `ignore-extra`, only the received
keys under `ignore-missing`): a path carries a diff entry exactly when
it was visited.  It records every matched path as an empty placeholder
entry in both the actual and expected diff maps, accumulates
per-category counts of missing, extra, type and content mismatches, and
returns pass exactly when the total of those four counts is zero. -/
theorem c2_report_all_aggregation (isText : String → List Nat → Bool)
    (received expected : VolumeMap) (lm : Option ListMatch) (cm : Option ContentMatch)
    (hr : received.keys.Nodup) (he : expected.keys.Nodup) :
    (pathsToCheck received expected (some .ignoreExtra) = expected.keys ∧
     pathsToCheck received expected (some .ignoreMissing) = received.keys ∧
     (lm ≠ some .ignoreExtra → lm ≠ some .ignoreMissing →
       ∀ p, p ∈ pathsToCheck received expected lm
         ↔ (p ∈ received.keys ∨ p ∈ expected.keys))) ∧
    (∀ p, (p ∈ ((compareVolumeMapsAll isText received expected lm cm).actualDiff.map Prod.fst)
         ∨ p ∈ ((compareVolumeMapsAll isText received expected lm cm).expectedDiff.map Prod.fst))
       ↔ p ∈ pathsToCheck received expected lm) ∧
    (∀ p ∈ pathsToCheck received expected lm,
      entryResultAt (compareFilesFlag cm) (compareSymlinksFlag cm) isText received expected p
          = DiffResult.matched →
        List.lookup p (compareVolumeMapsAll isText received expected lm cm).actualDiff
          = some DiffEntry.emptyObj ∧
        List.lookup p (compareVolumeMapsAll isText received expected lm cm).expectedDiff
          = some DiffEntry.emptyObj) ∧
    ((compareVolumeMapsAll isText received expected lm cm).missingCount
      = ((pathsToCheck received expected lm).filter (fun p =>
          (entryResultAt (compareFilesFlag cm) (compareSymlinksFlag cm) isText received
            expected p).kind == DiffKind.Missing)).length ∧
     (compareVolumeMapsAll isText received expected lm cm).extraCount
      = ((pathsToCheck received expected lm).filter (fun p =>
          (entryResultAt (compareFilesFlag cm) (compareSymlinksFlag cm) isText received
            expected p).kind == DiffKind.Extra)).length ∧
     (compareVolumeMapsAll isText received expected lm cm).typeCount
      = ((pathsToCheck received expected lm).filter (fun p =>
          (entryResultAt (compareFilesFlag cm) (compareSymlinksFlag cm) isText received
            expected p).kind == DiffKind.TypeMismatch)).length ∧
     (compareVolumeMapsAll isText received expected lm cm).contentCount
      = ((pathsToCheck received expected lm).filter (fun p =>
          ((entryResultAt (compareFilesFlag cm) (compareSymlinksFlag cm) isText received
            expected p).kind == DiffKind.FileMismatch
          || (entryResultAt (compareFilesFlag cm) (compareSymlinksFlag cm) isText received
            expected p).kind == DiffKind.SymlinkMismatch))).length) ∧
    ((compareVolumeMapsAll isText received expected lm cm).passes = true
      ↔ ((compareVolumeMapsAll isText received expected lm cm).missingCount = 0 ∧
         (compareVolumeMapsAll isText received expected lm cm).extraCount = 0 ∧
         (compareVolumeMapsAll isText received expected lm cm).contentCount = 0 ∧
         (compareVolumeMapsAll isText received expected lm cm).typeCount = 0)) := by
  have hndpaths := pathsToCheck_nodup hr he lm
  refine ⟨⟨pathsToCheck_ignoreExtra received expected,
      pathsToCheck_ignoreMissing received expected, ?_⟩, ?_, ?_, ?_, ?_⟩
  · intro h1 h2 p
    have hb1 : (lm == some ListMatch.ignoreExtra) = false := by
      cases hx : lm == some ListMatch.ignoreExtra
      · rfl
      · exact absurd (eq_of_beq hx) h1
    have hb2 : (lm == some ListMatch.ignoreMissing) = false := by
      cases hx : lm == some ListMatch.ignoreMissing
      · rfl
      · exact absurd (eq_of_beq hx) h2
    unfold pathsToCheck
    rw [hb1, hb2]
    simp only [Bool.false_eq_true, if_false]
    exact mem_unionKeys received expected p
  · intro p
    rw [compareAll_actualDiff, compareAll_expectedDiff]
    rw [mem_filterMap_keys_iff _ (actDiffSel_key _ _ isText received expected _),
      mem_filterMap_keys_iff _ (expDiffSel_key _ _ isText received expected _)]
    constructor
    · rintro (⟨hp, _⟩ | ⟨hp, _⟩) <;> exact hp
    · intro hp
      rcases diffSel_cover isText received expected lm cm p hp with hc | hc
      · exact Or.inl ⟨hp, hc⟩
      · exact Or.inr ⟨hp, hc⟩
  · intro p hp hres
    rw [compareAll_actualDiff, compareAll_expectedDiff]
    rw [lookup_filterMap_mem _ (actDiffSel_key _ _ isText received expected _) _ hndpaths p hp,
      lookup_filterMap_mem _ (expDiffSel_key _ _ isText received expected _) _ hndpaths p hp]
    constructor
    · simp [actDiffSel, hres]
    · simp [expDiffSel, hres]
  · exact ⟨compareAll_missingCount_plain isText received expected lm cm,
      compareAll_extraCount_plain isText received expected lm cm,
      compareAll_typeCount isText received expected lm cm,
      compareAll_contentCount isText received expected lm cm⟩
  · simp only [AllState.passes, AllState.total, beq_iff_eq]
    omega

/-- Witness for C2 at the spec's scenario: one matched path, one extra
path and one missing path under the default exact policy. -/
theorem c2_report_all_aggregation_witness :
    (VolumeMap.keys [("/foo.txt", VolumeEntry.file [104, 105]),
        ("/extra.txt", VolumeEntry.file [120])]).Nodup ∧
    (VolumeMap.keys [("/foo.txt", VolumeEntry.file [104, 105]),
        ("/bar.txt", VolumeEntry.file [121])]).Nodup ∧
    ((compareVolumeMapsAll (fun _ _ => true)
        [("/foo.txt", VolumeEntry.file [104, 105]), ("/extra.txt", VolumeEntry.file [120])]
        [("/foo.txt", VolumeEntry.file [104, 105]), ("/bar.txt", VolumeEntry.file [121])]
        Option.none Option.none).missingCount = 1 ∧
     (compareVolumeMapsAll (fun _ _ => true)
        [("/foo.txt", VolumeEntry.file [104, 105]), ("/extra.txt", VolumeEntry.file [120])]
        [("/foo.txt", VolumeEntry.file [104, 105]), ("/bar.txt", VolumeEntry.file [121])]
        Option.none Option.none).extraCount = 1 ∧
     (compareVolumeMapsAll (fun _ _ => true)
        [("/foo.txt", VolumeEntry.file [104, 105]), ("/extra.txt", VolumeEntry.file [120])]
        [("/foo.txt", VolumeEntry.file [104, 105]), ("/bar.txt", VolumeEntry.file [121])]
        Option.none Option.none).passes = false) ∧
    (∀ p ∈ pathsToCheck [("/foo.txt", VolumeEntry.file [104, 105]),
        ("/extra.txt", VolumeEntry.file [120])]
        [("/foo.txt", VolumeEntry.file [104, 105]), ("/bar.txt", VolumeEntry.file [121])]
        Option.none,
      entryResultAt (compareFilesFlag Option.none) (compareSymlinksFlag Option.none)
          (fun _ _ => true)
          [("/foo.txt", VolumeEntry.file [104, 105]), ("/extra.txt", VolumeEntry.file [120])]
          [("/foo.txt", VolumeEntry.file [104, 105]), ("/bar.txt", VolumeEntry.file [121])] p
          = DiffResult.matched →
        List.lookup p (compareVolumeMapsAll (fun _ _ => true)
          [("/foo.txt", VolumeEntry.file [104, 105]), ("/extra.txt", VolumeEntry.file [120])]
          [("/foo.txt", VolumeEntry.file [104, 105]), ("/bar.txt", VolumeEntry.file [121])]
          Option.none Option.none).actualDiff = some DiffEntry.emptyObj ∧
        List.lookup p (compareVolumeMapsAll (fun _ _ => true)
          [("/foo.txt", VolumeEntry.file [104, 105]), ("/extra.txt", VolumeEntry.file [120])]
          [("/foo.txt", VolumeEntry.file [104, 105]), ("/bar.txt", VolumeEntry.file [121])]
          Option.none Option.none).expectedDiff = some DiffEntry.emptyObj) :=
  ⟨by decide, by decide, ⟨by decide, by decide, by decide⟩,
    (c2_report_all_aggregation (fun _ _ => true)
      [("/foo.txt", VolumeEntry.file [104, 105]), ("/extra.txt", VolumeEntry.file [120])]
      [("/foo.txt", VolumeEntry.file [104, 105]), ("/bar.txt", VolumeEntry.file [121])]
      Option.none Option.none (by decide) (by decide)).2.2.1⟩

/-! ## matchEntries: per-rule outcome machinery -/

theorem matchEntriesStep_counts (pathEntries : List VolumePathEntry)
    (acc : MatchEntriesResult) (rule : MatchRule) :
    (matchEntriesStep pathEntries acc rule).missingCount
        + (matchEntriesStep pathEntries acc rule).typeCount
      = acc.missingCount + acc.typeCount
        + (if ruleSatisfied pathEntries rule then 0 else 1) := by
  cases rule with
  | exact ident rulePath expType =>
    cases hf : pathEntries.find? (fun pe => pe.1 == rulePath) with
    | none => simp [matchEntriesStep, ruleSatisfied, hf]; omega
    | some m =>
      cases ht : (expType != VolumeEntryType.any && m.2.toName != expType.toName) <;>
        simp [matchEntriesStep, ruleSatisfied, hf, ht] <;> omega
  | glob ident pat regex expType expCount =>
    by_cases h1 : (pathEntries.filter (fun pe => regex pe.1)).length < expCount
    · simp [matchEntriesStep, ruleSatisfied, h1]
      omega
    · by_cases ht : (expType != VolumeEntryType.any) = true
      · by_cases h2 : ((pathEntries.filter (fun pe => regex pe.1)).filter
            (fun pe => pe.2.toName == expType.toName)).length < expCount
        · simp [matchEntriesStep, ruleSatisfied, h1, ht, h2, Nat.not_le.mpr h2,
            -List.filter_filter]
          omega
        · simp [matchEntriesStep, ruleSatisfied, h1, ht, h2, Nat.not_lt.mp h2,
            -List.filter_filter]
      · simp only [Bool.not_eq_true] at ht
        simp [matchEntriesStep, ruleSatisfied, h1, ht]

theorem matchEntriesStep_actualKeys (pathEntries : List VolumePathEntry)
    (acc : MatchEntriesResult) (rule : MatchRule) :
    (matchEntriesStep pathEntries acc rule).actualDiff.map Prod.fst
      = acc.actualDiff.map Prod.fst
        ++ (if ruleSatisfied pathEntries rule then [] else [rule.identifier]) := by
  cases rule with
  | exact ident rulePath expType =>
    cases hf : pathEntries.find? (fun pe => pe.1 == rulePath) with
    | none => simp [matchEntriesStep, ruleSatisfied, hf, MatchRule.identifier]
    | some m =>
      cases ht : (expType != VolumeEntryType.any && m.2.toName != expType.toName) <;>
        simp [matchEntriesStep, ruleSatisfied, hf, ht, MatchRule.identifier]
  | glob ident pat regex expType expCount =>
    by_cases h1 : (pathEntries.filter (fun pe => regex pe.1)).length < expCount
    · simp [matchEntriesStep, ruleSatisfied, h1, MatchRule.identifier]
    · by_cases ht : (expType != VolumeEntryType.any) = true
      · by_cases h2 : ((pathEntries.filter (fun pe => regex pe.1)).filter
            (fun pe => pe.2.toName == expType.toName)).length < expCount
        · simp [matchEntriesStep, ruleSatisfied, h1, ht, h2, Nat.not_le.mpr h2,
            MatchRule.identifier, -List.filter_filter]
        · simp [matchEntriesStep, ruleSatisfied, h1, ht, h2, Nat.not_lt.mp h2,
            MatchRule.identifier, -List.filter_filter]
      · simp only [Bool.not_eq_true] at ht
        simp [matchEntriesStep, ruleSatisfied, h1, ht, MatchRule.identifier]

theorem matchEntriesStep_expectedKeys (pathEntries : List VolumePathEntry)
    (acc : MatchEntriesResult) (rule : MatchRule) :
    (matchEntriesStep pathEntries acc rule).expectedDiff.map Prod.fst
      = acc.expectedDiff.map Prod.fst
        ++ (if ruleSatisfied pathEntries rule then [] else [rule.identifier]) := by
  cases rule with
  | exact ident rulePath expType =>
    cases hf : pathEntries.find? (fun pe => pe.1 == rulePath) with
    | none => simp [matchEntriesStep, ruleSatisfied, hf, MatchRule.identifier]
    | some m =>
      cases ht : (expType != VolumeEntryType.any && m.2.toName != expType.toName) <;>
        simp [matchEntriesStep, ruleSatisfied, hf, ht, MatchRule.identifier]
  | glob ident pat regex expType expCount =>
    by_cases h1 : (pathEntries.filter (fun pe => regex pe.1)).length < expCount
    · simp [matchEntriesStep, ruleSatisfied, h1, MatchRule.identifier]
    · by_cases ht : (expType != VolumeEntryType.any) = true
      · by_cases h2 : ((pathEntries.filter (fun pe => regex pe.1)).filter
            (fun pe => pe.2.toName == expType.toName)).length < expCount
        · simp [matchEntriesStep, ruleSatisfied, h1, ht, h2, Nat.not_le.mpr h2,
            MatchRule.identifier, -List.filter_filter]
        · simp [matchEntriesStep, ruleSatisfied, h1, ht, h2, Nat.not_lt.mp h2,
            MatchRule.identifier, -List.filter_filter]
      · simp only [Bool.not_eq_true] at ht
        simp [matchEntriesStep, ruleSatisfied, h1, ht, MatchRule.identifier]

theorem matchEntries_fold_counts (pathEntries : List VolumePathEntry) :
    ∀ (rules : List MatchRule) (acc : MatchEntriesResult),
      (rules.foldl (matchEntriesStep pathEntries) acc).missingCount
          + (rules.foldl (matchEntriesStep pathEntries) acc).typeCount
        = acc.missingCount + acc.typeCount
          + (rules.filter (fun r => !(ruleSatisfied pathEntries r))).length
  | [], acc => by simp
  | rule :: rest, acc => by
    simp only [List.foldl_cons, List.filter_cons]
    rw [matchEntries_fold_counts pathEntries rest (matchEntriesStep pathEntries acc rule)]
    rw [matchEntriesStep_counts]
    cases hs : ruleSatisfied pathEntries rule <;> simp <;> omega

theorem matchEntries_fold_actualKeys (pathEntries : List VolumePathEntry) :
    ∀ (rules : List MatchRule) (acc : MatchEntriesResult),
      (rules.foldl (matchEntriesStep pathEntries) acc).actualDiff.map Prod.fst
        = acc.actualDiff.map Prod.fst
          ++ (rules.filter (fun r => !(ruleSatisfied pathEntries r))).map MatchRule.identifier
  | [], acc => by simp
  | rule :: rest, acc => by
    simp only [List.foldl_cons, List.filter_cons]
    rw [matchEntries_fold_actualKeys pathEntries rest (matchEntriesStep pathEntries acc rule)]
    rw [matchEntriesStep_actualKeys]
    cases hs : ruleSatisfied pathEntries rule <;> simp

theorem matchEntries_fold_expectedKeys (pathEntries : List VolumePathEntry) :
    ∀ (rules : List MatchRule) (acc : MatchEntriesResult),
      (rules.foldl (matchEntriesStep pathEntries) acc).expectedDiff.map Prod.fst
        = acc.expectedDiff.map Prod.fst
          ++ (rules.filter (fun r => !(ruleSatisfied pathEntries r))).map MatchRule.identifier
  | [], acc => by simp
  | rule :: rest, acc => by
    simp only [List.foldl_cons, List.filter_cons]
    rw [matchEntries_fold_expectedKeys pathEntries rest (matchEntriesStep pathEntries acc rule)]
    rw [matchEntriesStep_expectedKeys]
    cases hs : ruleSatisfied pathEntries rule <;> simp

/-! ## Claim C10 -/

/-- **C10.** For every rule set (unique identifiers, as in the
`MatchRules` map) and every list of path entries, `matchEntries` assigns
each rule exactly one outcome: either the rule's matching entries are
appended to the result's matches list, or exactly one of `missingCount`
or `typeCount` is incremented together with exactly one diff entry
recorded under that rule's identifier in both the actual and expected
diff maps.  Hence `missingCount + typeCount` equals the number of keys of
`diff.actual` and equals the number of keys of `diff.expected` (the two
key lists coincide and are duplicate-free), and all are zero exactly when
every rule is satisfied. -/
theorem c10_matchEntries_outcome_partition (pathEntries : List VolumePathEntry)
    (rules : List MatchRule)
    (hids : (rules.map MatchRule.identifier).Nodup) :
    (matchEntries pathEntries rules).missingCount + (matchEntries pathEntries rules).typeCount
        = (matchEntries pathEntries rules).actualDiff.length ∧
    (matchEntries pathEntries rules).actualDiff.length
        = (matchEntries pathEntries rules).expectedDiff.length ∧
    (matchEntries pathEntries rules).actualDiff.map Prod.fst
        = (matchEntries pathEntries rules).expectedDiff.map Prod.fst ∧
    ((matchEntries pathEntries rules).actualDiff.map Prod.fst).Nodup ∧
    ((matchEntries pathEntries rules).missingCount = 0
        ∧ (matchEntries pathEntries rules).typeCount = 0
      ↔ ∀ rule ∈ rules, ruleSatisfied pathEntries rule = true) := by
  have hc := matchEntries_fold_counts pathEntries rules ⟨0, 0, [], [], []⟩
  have ha := matchEntries_fold_actualKeys pathEntries rules ⟨0, 0, [], [], []⟩
  have hb := matchEntries_fold_expectedKeys pathEntries rules ⟨0, 0, [], [], []⟩
  simp only [List.map_nil, List.nil_append] at ha hb
  have halen : (matchEntries pathEntries rules).actualDiff.length
      = (rules.filter (fun r => !(ruleSatisfied pathEntries r))).length := by
    have := congrArg List.length ha
    simpa using this
  have hblen : (matchEntries pathEntries rules).expectedDiff.length
      = (rules.filter (fun r => !(ruleSatisfied pathEntries r))).length := by
    have := congrArg List.length hb
    simpa using this
  refine ⟨?_, ?_, ?_, ?_, ?_⟩
  · rw [halen]
    simpa using hc
  · rw [halen, hblen]
  · simp only [matchEntries]
    rw [ha, hb]
  · simp only [matchEntries]
    rw [ha]
    exact ((List.filter_sublist rules).map MatchRule.identifier).nodup hids
  · constructor
    · rintro ⟨h1, h2⟩
      intro rule hrule
      have hz : (rules.filter (fun r => !(ruleSatisfied pathEntries r))).length = 0 := by
        have := hc
        simp only [matchEntries] at h1 h2
        omega
      have hnil := List.length_eq_zero.mp hz
      by_contra hns
      have : rule ∈ rules.filter (fun r => !(ruleSatisfied pathEntries r)) :=
        List.mem_filter.mpr ⟨hrule, by simp [Bool.not_eq_true] at hns ⊢; exact hns⟩
      rw [hnil] at this
      cases this
    · intro hall
      have hz : rules.filter (fun r => !(ruleSatisfied pathEntries r)) = [] := by
        rw [List.filter_eq_nil_iff]
        intro r hrmem
        simp [hall r hrmem]
      have := hc
      simp only [matchEntries] at this ⊢
      rw [hz] at this
      simp at this
      omega

/-- Witness for C10 at a concrete rule set (one exact rule, one glob
rule) over one scanned entry. -/
theorem c10_matchEntries_outcome_partition_witness :
    (([MatchRule.exact "/a" "/a" VolumeEntryType.any,
       MatchRule.glob "glob(/b)" "/b" (fun _ => false) VolumeEntryType.any 1].map
        MatchRule.identifier).Nodup) ∧
    ((matchEntries [("/a", VolumePathType.file)]
        [MatchRule.exact "/a" "/a" VolumeEntryType.any,
         MatchRule.glob "glob(/b)" "/b" (fun _ => false) VolumeEntryType.any 1]).missingCount
       = 1) ∧
    ((matchEntries [("/a", VolumePathType.file)]
        [MatchRule.exact "/a" "/a" VolumeEntryType.any,
         MatchRule.glob "glob(/b)" "/b" (fun _ => false) VolumeEntryType.any 1]).missingCount
      + (matchEntries [("/a", VolumePathType.file)]
        [MatchRule.exact "/a" "/a" VolumeEntryType.any,
         MatchRule.glob "glob(/b)" "/b" (fun _ => false) VolumeEntryType.any 1]).typeCount
      = (matchEntries [("/a", VolumePathType.file)]
        [MatchRule.exact "/a" "/a" VolumeEntryType.any,
         MatchRule.glob "glob(/b)" "/b" (fun _ => false) VolumeEntryType.any 1]).actualDiff.length) :=
  ⟨by decide, by decide,
    (c10_matchEntries_outcome_partition [("/a", VolumePathType.file)]
      [MatchRule.exact "/a" "/a" VolumeEntryType.any,
       MatchRule.glob "glob(/b)" "/b" (fun _ => false) VolumeEntryType.any 1]
      (by decide)).1⟩

/-! ## Claim C3 (corrected) -/

/-- Counterexample to C3 as stated: two entries match the glob's regex,
only one of them also has the required type `file`, and the required
count is 2.  The type-filtered match count (1) is below the required
count (2), yet `missingCount` stays 0: the rule is reported as a type
mismatch (`typeCount` is incremented) with the filtered count recorded,
not as missing. -/
theorem c3_glob_count_missing_counterexample :
    ((([("/a.ts", VolumePathType.file), ("/b.ts", VolumePathType.dir)]
        : List VolumePathEntry).filter (fun pe => (fun (_ : String) => true) pe.1)).filter
          (fun pe => pe.2.toName == VolumeEntryType.file.toName)).length < 2 ∧
    (matchEntries [("/a.ts", VolumePathType.file), ("/b.ts", VolumePathType.dir)]
      [MatchRule.glob "glob(/*.ts)" "/*.ts" (fun _ => true)
        VolumeEntryType.file 2]).missingCount = 0 ∧
    (matchEntries [("/a.ts", VolumePathType.file), ("/b.ts", VolumePathType.dir)]
      [MatchRule.glob "glob(/*.ts)" "/*.ts" (fun _ => true)
        VolumeEntryType.file 2]).typeCount = 1 ∧
    (matchEntries [("/a.ts", VolumePathType.file), ("/b.ts", VolumePathType.dir)]
      [MatchRule.glob "glob(/*.ts)" "/*.ts" (fun _ => true)
        VolumeEntryType.file 2]).actualDiff
      = [("glob(/*.ts)", EntryDiffVal.countVal 1)] ∧
    (matchEntries [("/a.ts", VolumePathType.file), ("/b.ts", VolumePathType.dir)]
      [MatchRule.glob "glob(/*.ts)" "/*.ts" (fun _ => true)
        VolumeEntryType.file 2]).expectedDiff
      = [("glob(/*.ts)", EntryDiffVal.countVal 2)] :=
  ⟨by decide, by decide, by decide, by decide, by decide⟩

/-- **C3 (amended).** For every glob rule with minimum count `n` and an
optional required entry type, `matchEntries` reports the rule as missing
— incrementing `missingCount` and recording the raw match count versus
the required count — exactly when the number of path entries matching
the glob's regex (before any type filtering) is less than `n`.  When the
raw count reaches `n` but, with a required type given, the type-filtered
count is below `n`, the rule is instead reported as a type mismatch:
`typeCount` is incremented and the type-filtered count versus the
required count is recorded. -/
theorem c3_glob_count_amended (pathEntries : List VolumePathEntry)
    (ident pat : String) (regex : String → Bool) (t : VolumeEntryType) (n : Nat) :
    ((matchEntries pathEntries [MatchRule.glob ident pat regex t n]).missingCount
      = if (pathEntries.filter (fun pe => regex pe.1)).length < n then 1 else 0) ∧
    ((matchEntries pathEntries [MatchRule.glob ident pat regex t n]).typeCount
      = if ¬ (pathEntries.filter (fun pe => regex pe.1)).length < n
            ∧ t ≠ VolumeEntryType.any
            ∧ ((pathEntries.filter (fun pe => regex pe.1)).filter
                (fun pe => pe.2.toName == t.toName)).length < n
        then 1 else 0) ∧
    ((matchEntries pathEntries [MatchRule.glob ident pat regex t n]).actualDiff
      = if (pathEntries.filter (fun pe => regex pe.1)).length < n
        then [(ident, EntryDiffVal.countVal (pathEntries.filter (fun pe => regex pe.1)).length)]
        else if t ≠ VolumeEntryType.any
            ∧ ((pathEntries.filter (fun pe => regex pe.1)).filter
                (fun pe => pe.2.toName == t.toName)).length < n
        then [(ident, EntryDiffVal.countVal
                ((pathEntries.filter (fun pe => regex pe.1)).filter
                  (fun pe => pe.2.toName == t.toName)).length)]
        else []) ∧
    ((matchEntries pathEntries [MatchRule.glob ident pat regex t n]).expectedDiff
      = if (pathEntries.filter (fun pe => regex pe.1)).length < n
          ∨ (t ≠ VolumeEntryType.any
            ∧ ((pathEntries.filter (fun pe => regex pe.1)).filter
                (fun pe => pe.2.toName == t.toName)).length < n)
        then [(ident, EntryDiffVal.countVal n)] else []) := by
  simp only [matchEntries, List.foldl_cons, List.foldl_nil, matchEntriesStep]
  by_cases h1 : (pathEntries.filter (fun pe => regex pe.1)).length < n
  · simp [h1]
  · by_cases h2 : t = VolumeEntryType.any
    · subst h2
      simp [h1]
    · have hbne : (t != VolumeEntryType.any) = true := bne_iff_ne.mpr h2
      by_cases h3 : ((pathEntries.filter (fun pe => regex pe.1)).filter
          (fun pe => pe.2.toName == t.toName)).length < n
      · simp [h1, hbne, h2, h3, -List.filter_filter]
      · simp [h1, hbne, h2, h3, -List.filter_filter]

/-! ## Path string lemmas -/

theorem validSeg_ne_nil {s : String} (h : validSeg s = true) : s.data ≠ [] := by
  intro hd
  have hs : s = "" := String.ext hd
  subst hs
  simp [validSeg] at h

theorem validSeg_no_slash {s : String} (h : validSeg s = true) : '/' ∉ s.data := by
  intro hmem
  simp only [validSeg, Bool.and_eq_true, Bool.not_eq_true'] at h
  have h2 := h.1.1.2
  rw [show s.data.contains '/' = true from List.elem_eq_true_of_mem hmem] at h2
  cases h2

theorem jdata_nil : jdata [] = [] := rfl

theorem jdata_cons (s : String) (p : List String) :
    jdata (s :: p) = '/' :: (s.data ++ jdata p) := rfl

theorem jdata_append (p q : List String) : jdata (p ++ q) = jdata p ++ jdata q := by
  unfold jdata
  exact List.flatMap_append p q _

theorem joinSegs_cons (curr s : String) (p : List String) :
    joinSegs curr (s :: p) = joinSegs (pjoin curr s) p := rfl

theorem joinSegs_append (curr : String) (p q : List String) :
    joinSegs curr (p ++ q) = joinSegs (joinSegs curr p) q :=
  List.foldl_append pjoin curr p q

theorem pjoin_root (name : String) : pjoin "/" name = "/" ++ name := by
  simp [pjoin]

theorem pjoin_nonroot {curr : String} (h : curr ≠ "/") (name : String) :
    pjoin curr name = curr ++ "/" ++ name := by
  simp [pjoin, h]

theorem joinSegs_data_nonroot : ∀ (p : List String) (curr : String), curr ≠ "/" →
    (∀ s ∈ p, validSeg s = true) → (joinSegs curr p).data = curr.data ++ jdata p
  | [], curr, _, _ => by simp [joinSegs, jdata]
  | s :: p, curr, hc, hv => by
    rw [joinSegs_cons, pjoin_nonroot hc]
    have hs : validSeg s = true := hv s (by simp)
    have hne : curr ++ "/" ++ s ≠ "/" := by
      intro heq
      have hd := congrArg String.data heq
      rw [String.data_append (curr ++ "/") s, String.data_append curr "/"] at hd
      have hlen := congrArg List.length hd
      simp only [List.length_append] at hlen
      exact validSeg_ne_nil hs (List.length_eq_zero.mp (by omega))
    rw [joinSegs_data_nonroot p (curr ++ "/" ++ s) hne (fun x hx => hv x (by simp [hx]))]
    rw [String.data_append (curr ++ "/") s, String.data_append curr "/"]
    rw [jdata_cons]
    simp

theorem joinSegs_root_data : ∀ (p : List String), p ≠ [] →
    (∀ s ∈ p, validSeg s = true) → (joinSegs "/" p).data = jdata p
  | [], h, _ => absurd rfl h
  | s :: p, _, hv => by
    rw [joinSegs_cons, pjoin_root]
    have hs := hv s (by simp)
    have hne : "/" ++ s ≠ "/" := by
      intro heq
      have hd := congrArg String.data heq
      rw [String.data_append "/" s] at hd
      simp at hd
      exact validSeg_ne_nil hs hd
    rw [joinSegs_data_nonroot p ("/" ++ s) hne (fun x hx => hv x (by simp [hx]))]
    rw [String.data_append "/" s]
    rw [jdata_cons]
    rfl

theorem splitSlash_ne_nil : ∀ l : List Char, splitSlash l ≠ []
  | [] => by simp [splitSlash]
  | c :: rest => by
    by_cases hc : c = '/'
    · simp [splitSlash, hc]
    · simp only [splitSlash, if_neg hc]
      cases hrest : splitSlash rest with
      | nil => simp
      | cons s ss => simp

theorem splitSlash_slash (cs : List Char) : splitSlash ('/' :: cs) = [] :: splitSlash cs := by
  simp [splitSlash]

theorem splitSlash_prepend : ∀ (x : List Char), '/' ∉ x → ∀ (cs h : List Char)
    (t : List (List Char)), splitSlash cs = h :: t → splitSlash (x ++ cs) = (x ++ h) :: t
  | [], _, cs, h, t, heq => by simpa using heq
  | c :: x, hx, cs, h, t, heq => by
    have hc : c ≠ '/' := fun hh => hx (by simp [hh])
    have ih := splitSlash_prepend x (fun hm => hx (by simp [hm])) cs h t heq
    simp only [List.cons_append, splitSlash, if_neg hc, List.append_eq]
    rw [ih]

theorem splitSlash_jdata_drop : ∀ (p : List String), p ≠ [] →
    (∀ s ∈ p, validSeg s = true) →
    splitSlash ((jdata p).drop 1) = p.map String.data
  | [], h, _ => absurd rfl h
  | [s], _, hv => by
    rw [jdata_cons]
    simp only [jdata_nil, List.append_nil, List.drop_succ_cons, List.drop_zero]
    rw [← List.append_nil s.data]
    rw [splitSlash_prepend s.data (validSeg_no_slash (hv s (by simp))) [] [] []
      (by simp [splitSlash])]
    simp
  | s :: s2 :: p2, _, hv => by
    have ih := splitSlash_jdata_drop (s2 :: p2) (by simp)
      (fun x hx => hv x (by simp [hx]))
    rw [jdata_cons]
    simp only [List.drop_succ_cons, List.drop_zero]
    have hcs : splitSlash (jdata (s2 :: p2)) = [] :: ((s2 :: p2).map String.data) := by
      rw [jdata_cons, splitSlash_slash]
      rw [show s2.data ++ jdata p2 = (jdata (s2 :: p2)).drop 1 from by rw [jdata_cons]; simp]
      rw [ih]
    rw [splitSlash_prepend s.data (validSeg_no_slash (hv s (by simp))) _ _ _ hcs]
    simp

theorem mkString_beq_empty {l : List Char} (h : l ≠ []) : (String.mk l == "") = false := by
  rw [beq_eq_false_iff_ne]
  intro hh
  exact h (congrArg String.data hh)

theorem relSegs_joinSegs : ∀ (p : List String), (∀ s ∈ p, validSeg s = true) →
    relSegs (sliceFrom1 (joinSegs "/" p)) = p := by
  intro p hv
  cases p with
  | nil => decide
  | cons s p2 =>
    unfold sliceFrom1 relSegs
    rw [joinSegs_root_data (s :: p2) (by simp) hv]
    have hdata : (jdata (s :: p2)).drop 1 = s.data ++ jdata p2 := by
      rw [jdata_cons]
      simp
    rw [hdata]
    have hnonempty : s.data ++ jdata p2 ≠ [] := by
      intro hh
      rcases List.append_eq_nil.mp hh with ⟨h1, -⟩
      exact validSeg_ne_nil (hv s (by simp)) h1
    rw [mkString_beq_empty hnonempty]
    simp only [Bool.false_eq_true, if_false]
    rw [← hdata, splitSlash_jdata_drop (s :: p2) (by simp) hv]
    rw [List.map_map]
    exact List.map_id'' (fun x => rfl) (s :: p2)

theorem joinSegs_root_inj {p q : List String} (hp : ∀ s ∈ p, validSeg s = true)
    (hq : ∀ s ∈ q, validSeg s = true) (h : joinSegs "/" p = joinSegs "/" q) : p = q := by
  have h2 := congrArg (fun s => relSegs (sliceFrom1 s)) h
  simp only at h2
  rwa [relSegs_joinSegs p hp, relSegs_joinSegs q hq] at h2

theorem tok_lemma : ∀ (x y u v : List Char), '/' ∉ x → '/' ∉ y →
    (∃ u2, u = '/' :: u2) → (v = [] ∨ ∃ v2, v = '/' :: v2) →
    x ++ u <+: y ++ v → x = y ∧ u <+: v
  | [], y, u, v, _, hy, hu, _, hpre => by
    cases y with
    | nil => exact ⟨rfl, by simpa using hpre⟩
    | cons c y2 =>
      obtain ⟨u2, rfl⟩ := hu
      exfalso
      rw [List.nil_append, List.cons_append, List.cons_prefix_cons] at hpre
      exact hy (by simp [← hpre.1])
  | c :: x2, y, u, v, hx, hy, hu, hv, hpre => by
    cases y with
    | nil =>
      exfalso
      rcases hv with rfl | ⟨v2, rfl⟩
      · have := hpre.length_le
        simp at this
      · rw [List.nil_append, List.cons_append, List.cons_prefix_cons] at hpre
        exact hx (by simp [hpre.1])
    | cons d y2 =>
      rw [List.cons_append, List.cons_append, List.cons_prefix_cons] at hpre
      obtain ⟨hcd, htail⟩ := hpre
      obtain ⟨hxy, huv⟩ := tok_lemma x2 y2 u v (fun hm => hx (by simp [hm]))
        (fun hm => hy (by simp [hm])) hu hv htail
      exact ⟨by rw [hcd, hxy], huv⟩

theorem jdata_head_slash : ∀ (p : List String), p = [] ∨ ∃ r, jdata p = '/' :: r
  | [] => Or.inl rfl
  | s :: p2 => Or.inr ⟨s.data ++ jdata p2, jdata_cons s p2⟩

theorem jdata_flat_prefix : ∀ (p q : List String), (∀ s ∈ p, validSeg s = true) →
    (∀ s ∈ q, validSeg s = true) → jdata p ++ ['/'] <+: jdata q → p <+: q
  | [], q, _, _, _ => List.nil_prefix
  | s :: p2, [], _, _, hpre => by
    exfalso
    have := hpre.length_le
    simp [jdata_cons, jdata_nil] at this
  | s :: p2, t :: q2, hp, hq, hpre => by
    rw [jdata_cons, jdata_cons] at hpre
    have hpre2 : ('/' :: (s.data ++ (jdata p2 ++ ['/']))) <+: ('/' :: (t.data ++ jdata q2)) := by
      simpa [List.append_assoc] using hpre
    rw [List.cons_prefix_cons] at hpre2
    have hu : ∃ u2, jdata p2 ++ ['/'] = '/' :: u2 := by
      rcases jdata_head_slash p2 with h0 | ⟨r, hr⟩
      · rw [h0, jdata_nil]
        exact ⟨[], rfl⟩
      · rw [hr]
        exact ⟨r ++ ['/'], by simp⟩
    have hv : jdata q2 = [] ∨ ∃ v2, jdata q2 = '/' :: v2 := by
      rcases jdata_head_slash q2 with h0 | ⟨r, hr⟩
      · exact Or.inl (by rw [h0, jdata_nil])
      · exact Or.inr ⟨r, hr⟩
    obtain ⟨hst, htail⟩ := tok_lemma s.data t.data (jdata p2 ++ ['/']) (jdata q2)
      (validSeg_no_slash (hp s (by simp))) (validSeg_no_slash (hq t (by simp)))
      hu hv hpre2.2
    have hst2 : s = t := String.ext hst
    have hrest : p2 <+: q2 := jdata_flat_prefix p2 q2
      (fun x hx => hp x (by simp [hx])) (fun x hx => hq x (by simp [hx])) htail
    rw [List.cons_prefix_cons]
    exact ⟨hst2, hrest⟩

theorem joinSegs_root_ne_root {p : List String} (hne : p ≠ [])
    (hv : ∀ s ∈ p, validSeg s = true) : joinSegs "/" p ≠ "/" := by
  intro hh
  have hd := congrArg String.data hh
  rw [joinSegs_root_data p hne hv] at hd
  cases p with
  | nil => exact hne rfl
  | cons s p2 =>
    rw [jdata_cons] at hd
    have := congrArg List.length hd
    simp at this
    exact validSeg_ne_nil (hv s (by simp)) (List.length_eq_zero.mp this.1)

theorem ancestor_iff {p q : List String} (hp : ∀ s ∈ p, validSeg s = true)
    (hq : ∀ s ∈ q, validSeg s = true) :
    isProperPathAncestor (joinSegs "/" p) (joinSegs "/" q) ↔ (p <+: q ∧ p ≠ q) := by
  unfold isProperPathAncestor
  cases hpn : p with
  | nil =>
    have hjp : joinSegs "/" ([] : List String) = "/" := rfl
    rw [hjp]
    simp only [show (("/" : String) == "/") = true from rfl, if_true]
    cases hqn : q with
    | nil => simp [joinSegs]
    | cons t q2 =>
      have hne : joinSegs "/" (t :: q2) ≠ "/" := joinSegs_root_ne_root (by simp) (hqn ▸ hq)
      constructor
      · intro _
        exact ⟨List.nil_prefix, by simp⟩
      · intro _
        refine ⟨fun hh => hne hh.symm, ?_⟩
        rw [joinSegs_root_data (t :: q2) (by simp) (hqn ▸ hq)]
        rw [jdata_cons]
        exact ⟨t.data ++ jdata q2, rfl⟩
  | cons s p2 =>
    have hpv := hpn ▸ hp
    have hpne : joinSegs "/" (s :: p2) ≠ "/" := joinSegs_root_ne_root (by simp) hpv
    rw [show ((joinSegs "/" (s :: p2) == "/")) = false from beq_eq_false_iff_ne.mpr hpne]
    simp only [Bool.false_eq_true, if_false]
    cases hqn : q with
    | nil =>
      constructor
      · rintro ⟨-, hpre⟩
        exfalso
        rw [String.data_append (joinSegs "/" (s :: p2)) "/",
          joinSegs_root_data (s :: p2) (by simp) hpv, jdata_cons,
          show joinSegs "/" ([] : List String) = "/" from rfl] at hpre
        have hlen := hpre.length_le
        rw [show ("/" : String).data = ['/'] from rfl] at hlen
        simp only [List.length_append, List.length_cons, List.length_nil] at hlen
        omega
      · rintro ⟨hpre, -⟩
        simp [List.prefix_nil] at hpre
    | cons t q2 =>
      have hqv := hqn ▸ hq
      rw [String.data_append (joinSegs "/" (s :: p2)) "/",
        joinSegs_root_data (s :: p2) (by simp) hpv,
        joinSegs_root_data (t :: q2) (by simp) hqv]
      constructor
      · rintro ⟨hne, hpre⟩
        have hflat : jdata (s :: p2) ++ ['/'] <+: jdata (t :: q2) := by simpa using hpre
        have hseg := jdata_flat_prefix (s :: p2) (t :: q2) hpv hqv hflat
        refine ⟨hseg, fun hh => hne ?_⟩
        rw [hh]
      · rintro ⟨hpre, hne⟩
        obtain ⟨r, hr⟩ := hpre
        have hrne : r ≠ [] := by
          intro hh
          rw [hh, List.append_nil] at hr
          exact hne hr
        constructor
        · intro hh
          exact hne (joinSegs_root_inj hpv hqv hh)
        · rw [← hr, jdata_append]
          rcases jdata_head_slash r with h0 | ⟨r2, hr2⟩
          · exact absurd h0 hrne
          · rw [hr2]
            refine ⟨r2, ?_⟩
            simp

/-! ## Tree flattening lemmas -/

theorem wfB_dir_nodup {cs : List (String × FSTree)}
    (h : FSTree.wfB (FSTree.dir cs) = true) : (cs.map Prod.fst).Nodup := by
  simp only [FSTree.wfB, Bool.and_eq_true, decide_eq_true_eq] at h
  exact h.1

theorem wfB_dir_children {cs : List (String × FSTree)}
    (h : FSTree.wfB (FSTree.dir cs) = true) : FSTree.wfChildren cs = true := by
  simp only [FSTree.wfB, Bool.and_eq_true] at h
  exact h.2

theorem wfChildren_mem : ∀ {cs : List (String × FSTree)},
    FSTree.wfChildren cs = true → ∀ {n : String} {c : FSTree}, (n, c) ∈ cs →
    validSeg n = true ∧ FSTree.wfB c = true := by
  intro cs h n c hm
  induction cs with
  | nil => cases hm
  | cons hd rest ih =>
    obtain ⟨m, c2⟩ := hd
    simp only [FSTree.wfChildren, Bool.and_eq_true] at h
    rcases List.mem_cons.mp hm with heq | hin
    · injection heq with e1 e2
      subst e1
      subst e2
      exact ⟨h.1.1, h.1.2⟩
    · exact ih h.2 hin

mutual
theorem volumeToMapWalk_eq (withData : Bool) : ∀ (t : FSTree) (curr : String),
    volumeToMapWalk withData t curr
      = (treePairs t).map (fun pe => (joinSegs curr pe.1, entryWithData withData pe.2))
  | FSTree.file d, curr => by
    simp [volumeToMapWalk, treePairs, entryWithData, joinSegs]
  | FSTree.symlink s, curr => by
    simp [volumeToMapWalk, treePairs, entryWithData, joinSegs]
  | FSTree.dir cs, curr => by
    rw [show volumeToMapWalk withData (FSTree.dir cs) curr
        = (if cs.isEmpty then [(curr, VolumeEntry.emptyDir)] else [])
          ++ volumeToMapWalkList withData cs curr from rfl]
    rw [volumeToMapWalkList_eq withData cs curr]
    cases cs with
    | nil => simp [treePairs, treePairsList, entryWithData, joinSegs]
    | cons hd tl => simp [treePairs]
theorem volumeToMapWalkList_eq (withData : Bool) :
    ∀ (cs : List (String × FSTree)) (curr : String),
    volumeToMapWalkList withData cs curr
      = (treePairsList cs).map (fun pe => (joinSegs curr pe.1, entryWithData withData pe.2))
  | [], _ => rfl
  | (n, c) :: rest, curr => by
    rw [show volumeToMapWalkList withData ((n, c) :: rest) curr
        = volumeToMapWalk withData c (pjoin curr n)
          ++ volumeToMapWalkList withData rest curr from rfl]
    rw [volumeToMapWalk_eq withData c (pjoin curr n),
      volumeToMapWalkList_eq withData rest curr]
    rw [show treePairsList ((n, c) :: rest)
        = (treePairs c).map (fun pe => (n :: pe.1, pe.2)) ++ treePairsList rest from rfl]
    rw [List.map_append, List.map_map]
    rfl
end

mutual
theorem treePairs_ne_nil : ∀ t : FSTree, treePairs t ≠ []
  | FSTree.file d => by simp [treePairs]
  | FSTree.symlink s => by simp [treePairs]
  | FSTree.dir cs => by
    cases cs with
    | nil => simp [treePairs]
    | cons hd tl =>
      rw [show treePairs (FSTree.dir (hd :: tl)) = treePairsList (hd :: tl) from rfl]
      exact treePairsList_cons_ne_nil hd tl
theorem treePairsList_cons_ne_nil : ∀ (hd : String × FSTree) (tl : List (String × FSTree)),
    treePairsList (hd :: tl) ≠ []
  | (n, c), tl => by
    rw [show treePairsList ((n, c) :: tl)
        = (treePairs c).map (fun pe => (n :: pe.1, pe.2)) ++ treePairsList tl from rfl]
    intro hh
    rcases List.append_eq_nil.mp hh with ⟨h1, -⟩
    exact treePairs_ne_nil c (List.map_eq_nil_iff.mp h1)
end

theorem treePairsList_head : ∀ {cs : List (String × FSTree)} {p : List String}
    {e : VolumeEntry}, (p, e) ∈ treePairsList cs →
    ∃ m c q, (m, c) ∈ cs ∧ p = m :: q ∧ (q, e) ∈ treePairs c := by
  intro cs
  induction cs with
  | nil => intro p e h; cases h
  | cons hd rest ih =>
    obtain ⟨n, c⟩ := hd
    intro p e h
    rw [show treePairsList ((n, c) :: rest)
        = (treePairs c).map (fun pe => (n :: pe.1, pe.2)) ++ treePairsList rest from rfl] at h
    rcases List.mem_append.mp h with h1 | h2
    · obtain ⟨⟨q, e2⟩, hq, heq⟩ := List.mem_map.mp h1
      injection heq with e1 e2'
      exact ⟨n, c, q, by simp, e1.symm, by rw [← e2']; exact hq⟩
    · obtain ⟨m, c2, q, hm, hp, hq⟩ := ih h2
      exact ⟨m, c2, q, by simp [hm], hp, hq⟩

theorem childLookup_eq_some_iff_mem {cs : List (String × FSTree)}
    (hnd : (cs.map Prod.fst).Nodup) {n : String} {c : FSTree} :
    childLookup cs n = some c ↔ (n, c) ∈ cs := by
  induction cs with
  | nil => simp [childLookup, List.lookup]
  | cons hd rest ih =>
    obtain ⟨m, c2⟩ := hd
    simp only [List.map_cons, List.nodup_cons] at hnd
    constructor
    · intro h
      simp only [childLookup, List.lookup] at h
      cases hmn : (n == m) with
      | true =>
        rw [hmn] at h
        injection h with h2
        have : n = m := eq_of_beq hmn
        subst this
        rw [h2]
        simp
      | false =>
        rw [hmn] at h
        have := (ih hnd.2).mp h
        simp [this]
    · intro h
      rcases List.mem_cons.mp h with heq | hin
      · injection heq with e1 e2
        subst e1
        subst e2
        simp [childLookup, List.lookup]
      · have hnm : n ≠ m := by
          intro hh
          subst hh
          exact hnd.1 (List.mem_map.mpr ⟨(n, c), hin, rfl⟩)
        simp only [childLookup, List.lookup, beq_false_of_ne hnm]
        exact (ih hnd.2).mpr hin

theorem childLookup_none_iff {cs : List (String × FSTree)} {n : String} :
    childLookup cs n = Option.none ↔ n ∉ cs.map Prod.fst := by
  induction cs with
  | nil => simp [childLookup, List.lookup]
  | cons hd rest ih =>
    obtain ⟨m, c2⟩ := hd
    simp only [childLookup, List.lookup, List.map_cons, List.mem_cons]
    cases hmn : (n == m) with
    | true =>
      have : n = m := eq_of_beq hmn
      subst this
      simp
    | false =>
      have hne : n ≠ m := ne_of_beq_false hmn
      simp only [childLookup] at ih
      simp [ih, hne]

mutual
theorem treePairs_valid : ∀ (t : FSTree), FSTree.wfB t = true →
    ∀ {p : List String} {e : VolumeEntry}, (p, e) ∈ treePairs t →
    ∀ s ∈ p, validSeg s = true
  | FSTree.file d, _, p, e, hm => by
    rw [show treePairs (FSTree.file d) = [([], VolumeEntry.file d)] from rfl] at hm
    simp at hm
    simp [hm.1]
  | FSTree.symlink tg, _, p, e, hm => by
    rw [show treePairs (FSTree.symlink tg) = [([], VolumeEntry.symlink tg)] from rfl] at hm
    simp at hm
    simp [hm.1]
  | FSTree.dir cs, hwf, p, e, hm => by
    cases cs with
    | nil =>
      rw [show treePairs (FSTree.dir []) = [([], VolumeEntry.emptyDir)] from rfl] at hm
      simp at hm
      simp [hm.1]
    | cons hd tl =>
      rw [show treePairs (FSTree.dir (hd :: tl)) = treePairsList (hd :: tl) from rfl] at hm
      exact treePairsList_valid (hd :: tl) (wfB_dir_children hwf) hm
theorem treePairsList_valid : ∀ (cs : List (String × FSTree)),
    FSTree.wfChildren cs = true →
    ∀ {p : List String} {e : VolumeEntry}, (p, e) ∈ treePairsList cs →
    ∀ s ∈ p, validSeg s = true
  | [], _, p, e, hm => by cases hm
  | (n, c) :: rest, hwf, p, e, hm => by
    simp only [FSTree.wfChildren, Bool.and_eq_true] at hwf
    rw [show treePairsList ((n, c) :: rest)
        = (treePairs c).map (fun pe => (n :: pe.1, pe.2)) ++ treePairsList rest from rfl] at hm
    rcases List.mem_append.mp hm with h1 | h2
    · obtain ⟨⟨q, e2⟩, hq, heq⟩ := List.mem_map.mp h1
      injection heq with e1 e2'
      subst e2'
      intro s hs
      rw [← e1] at hs
      rcases List.mem_cons.mp hs with rfl | hin
      · exact hwf.1.1
      · exact treePairs_valid c hwf.1.2 hq s hin
    · exact treePairsList_valid rest hwf.2 h2
end

mutual
theorem treePairs_paths_nodup : ∀ (t : FSTree), FSTree.wfB t = true →
    ((treePairs t).map Prod.fst).Nodup
  | FSTree.file d, _ => by simp [treePairs]
  | FSTree.symlink tg, _ => by simp [treePairs]
  | FSTree.dir cs, hwf => by
    cases cs with
    | nil => simp [treePairs]
    | cons hd tl =>
      rw [show treePairs (FSTree.dir (hd :: tl)) = treePairsList (hd :: tl) from rfl]
      exact treePairsList_paths_nodup (hd :: tl) (wfB_dir_children hwf) (wfB_dir_nodup hwf)
theorem treePairsList_paths_nodup : ∀ (cs : List (String × FSTree)),
    FSTree.wfChildren cs = true → (cs.map Prod.fst).Nodup →
    ((treePairsList cs).map Prod.fst).Nodup
  | [], _, _ => by simp [treePairsList]
  | (n, c) :: rest, hwf, hnd => by
    simp only [FSTree.wfChildren, Bool.and_eq_true] at hwf
    simp only [List.map_cons, List.nodup_cons] at hnd
    rw [show treePairsList ((n, c) :: rest)
        = (treePairs c).map (fun pe => (n :: pe.1, pe.2)) ++ treePairsList rest from rfl]
    rw [List.map_append]
    refine List.Nodup.append ?_ (treePairsList_paths_nodup rest hwf.2 hnd.2) ?_
    · rw [List.map_map]
      have hinj : ∀ x ∈ (treePairs c).map Prod.fst, ∀ y ∈ (treePairs c).map Prod.fst,
          n :: x = n :: y → x = y := by
        intro x _ y _ hxy
        injection hxy
      have : ((treePairs c).map (Prod.fst ∘ fun pe => (n :: pe.1, pe.2)))
          = ((treePairs c).map Prod.fst).map (fun q => n :: q) := by
        rw [List.map_map]
        rfl
      rw [this]
      exact ((treePairs_paths_nodup c hwf.1.2).map_on (by
        intro x _ y _ hxy
        injection hxy))
    · intro a ha hb
      rw [List.map_map] at ha
      obtain ⟨⟨q, e2⟩, hq, heq⟩ := List.mem_map.mp ha
      obtain ⟨⟨q2, e3⟩, hq2, heq2⟩ := List.mem_map.mp hb
      obtain ⟨m, c2, q3, hmem, hp, -⟩ := treePairsList_head hq2
      have h3 : n :: q = a := by simpa using heq
      have h4 : q2 = a := by simpa using heq2
      have hna : n :: q = m :: q3 := by rw [h3, ← h4, hp]
      injection hna with h1 h2
      exact hnd.1 (List.mem_map.mpr ⟨(m, c2), hmem, h1.symm⟩)
end

theorem treePairsList_mem_of_child : ∀ {cs : List (String × FSTree)} {n : String}
    {c : FSTree}, (n, c) ∈ cs → ∀ {q : List String} {e : VolumeEntry},
    (q, e) ∈ treePairs c → (n :: q, e) ∈ treePairsList cs := by
  intro cs
  induction cs with
  | nil => intro n c hm; cases hm
  | cons hd rest ih =>
    obtain ⟨m, c2⟩ := hd
    intro n c hm q e hq
    rw [show treePairsList ((m, c2) :: rest)
        = (treePairs c2).map (fun pe => (m :: pe.1, pe.2)) ++ treePairsList rest from rfl]
    rcases List.mem_cons.mp hm with heq | hin
    · injection heq with e1 e2
      subst e1
      subst e2
      exact List.mem_append.mpr (Or.inl (List.mem_map.mpr ⟨(q, e), hq, rfl⟩))
    · exact List.mem_append.mpr (Or.inr (ih hin hq))

mutual
theorem treePairs_prefix_eq : ∀ (t : FSTree), FSTree.wfB t = true →
    ∀ {p q : List String} {e1 e2 : VolumeEntry},
    (p, e1) ∈ treePairs t → (q, e2) ∈ treePairs t → p <+: q → p = q
  | FSTree.file d, _, p, q, e1, e2, h1, h2, _ => by
    rw [show treePairs (FSTree.file d) = [([], VolumeEntry.file d)] from rfl] at h1 h2
    simp at h1 h2
    rw [h1.1, h2.1]
  | FSTree.symlink tg, _, p, q, e1, e2, h1, h2, _ => by
    rw [show treePairs (FSTree.symlink tg) = [([], VolumeEntry.symlink tg)] from rfl] at h1 h2
    simp at h1 h2
    rw [h1.1, h2.1]
  | FSTree.dir cs, hwf, p, q, e1, e2, h1, h2, hpre => by
    cases cs with
    | nil =>
      rw [show treePairs (FSTree.dir []) = [([], VolumeEntry.emptyDir)] from rfl] at h1 h2
      simp at h1 h2
      rw [h1.1, h2.1]
    | cons hd tl =>
      rw [show treePairs (FSTree.dir (hd :: tl)) = treePairsList (hd :: tl) from rfl] at h1 h2
      exact treePairsList_prefix_eq (hd :: tl) (wfB_dir_children hwf) (wfB_dir_nodup hwf)
        h1 h2 hpre
theorem treePairsList_prefix_eq : ∀ (cs : List (String × FSTree)),
    FSTree.wfChildren cs = true → (cs.map Prod.fst).Nodup →
    ∀ {p q : List String} {e1 e2 : VolumeEntry},
    (p, e1) ∈ treePairsList cs → (q, e2) ∈ treePairsList cs → p <+: q → p = q
  | [], _, _, p, q, e1, e2, h1, _, _ => by cases h1
  | (n, c) :: rest, hwf, hnd, p, q, e1, e2, h1, h2, hpre => by
    simp only [FSTree.wfChildren, Bool.and_eq_true] at hwf
    simp only [List.map_cons, List.nodup_cons] at hnd
    rw [show treePairsList ((n, c) :: rest)
        = (treePairs c).map (fun pe => (n :: pe.1, pe.2)) ++ treePairsList rest from rfl]
      at h1 h2
    rcases List.mem_append.mp h1 with ha | ha <;> rcases List.mem_append.mp h2 with hb | hb
    · obtain ⟨⟨pa, ea⟩, hqa, heqa⟩ := List.mem_map.mp ha
      obtain ⟨⟨pb, eb⟩, hqb, heqb⟩ := List.mem_map.mp hb
      injection heqa with ha1 ha2
      injection heqb with hb1 hb2
      subst ha2
      subst hb2
      rw [← ha1, ← hb1] at hpre ⊢
      rw [List.cons_prefix_cons] at hpre
      rw [treePairs_prefix_eq c hwf.1.2 hqa hqb hpre.2]
    · exfalso
      obtain ⟨⟨pa, ea⟩, hqa, heqa⟩ := List.mem_map.mp ha
      obtain ⟨m, c2, q3, hmem, hp2, -⟩ := treePairsList_head hb
      injection heqa with ha1 ha2
      rw [← ha1] at hpre
      rw [hp2] at hpre
      rw [List.cons_prefix_cons] at hpre
      exact hnd.1 (List.mem_map.mpr ⟨(m, c2), hmem, hpre.1.symm⟩)
    · exfalso
      obtain ⟨m, c2, q3, hmem, hp2, -⟩ := treePairsList_head ha
      obtain ⟨⟨pb, eb⟩, hqb, heqb⟩ := List.mem_map.mp hb
      injection heqb with hb1 hb2
      rw [← hb1] at hpre
      rw [hp2] at hpre
      rw [List.cons_prefix_cons] at hpre
      exact hnd.1 (List.mem_map.mpr ⟨(m, c2), hmem, hpre.1⟩)
    · exact treePairsList_prefix_eq rest hwf.2 hnd.2 ha hb hpre
end

mutual
theorem treePairs_lookup : ∀ (t : FSTree), FSTree.wfB t = true →
    ∀ {p : List String} {e : VolumeEntry},
    ((p, e) ∈ treePairs t ↔ treeLookup t p = some (entryAsNode e))
  | FSTree.file d, _, p, e => by
    rw [show treePairs (FSTree.file d) = [([], VolumeEntry.file d)] from rfl]
    cases p with
    | nil =>
      rw [show treeLookup (FSTree.file d) [] = some (FSTree.file d) from rfl]
      constructor
      · intro hm
        simp at hm
        rw [hm, show entryAsNode (VolumeEntry.file d) = FSTree.file d from rfl]
      · intro hl
        injection hl with hl2
        cases e with
        | file d2 =>
          injection hl2 with hd
          simp [entryAsNode, hd]
        | symlink tg => cases hl2
        | emptyDir => cases hl2
    | cons n p2 =>
      rw [show treeLookup (FSTree.file d) (n :: p2) = Option.none from rfl]
      simp
  | FSTree.symlink tg, _, p, e => by
    rw [show treePairs (FSTree.symlink tg) = [([], VolumeEntry.symlink tg)] from rfl]
    cases p with
    | nil =>
      rw [show treeLookup (FSTree.symlink tg) [] = some (FSTree.symlink tg) from rfl]
      constructor
      · intro hm
        simp at hm
        rw [hm, show entryAsNode (VolumeEntry.symlink tg) = FSTree.symlink tg from rfl]
      · intro hl
        injection hl with hl2
        cases e with
        | file d2 => cases hl2
        | symlink tg2 =>
          injection hl2 with hd
          simp [entryAsNode, hd]
        | emptyDir => cases hl2
    | cons n p2 =>
      rw [show treeLookup (FSTree.symlink tg) (n :: p2) = Option.none from rfl]
      simp
  | FSTree.dir cs, hwf, p, e => by
    cases cs with
    | nil =>
      rw [show treePairs (FSTree.dir []) = [([], VolumeEntry.emptyDir)] from rfl]
      cases p with
      | nil =>
        rw [show treeLookup (FSTree.dir []) [] = some (FSTree.dir []) from rfl]
        constructor
        · intro hm
          simp at hm
          rw [hm, show entryAsNode VolumeEntry.emptyDir = FSTree.dir [] from rfl]
        · intro hl
          injection hl with hl2
          cases e with
          | file d2 => cases hl2
          | symlink tg2 => cases hl2
          | emptyDir => simp
      | cons n p2 =>
        rw [show treeLookup (FSTree.dir []) (n :: p2)
            = (match childLookup [] n with
               | some c => treeLookup c p2
               | Option.none => Option.none) from rfl]
        rw [show childLookup ([] : List (String × FSTree)) n = Option.none from rfl]
        simp
    | cons hd tl =>
      rw [show treePairs (FSTree.dir (hd :: tl)) = treePairsList (hd :: tl) from rfl]
      cases p with
      | nil =>
        rw [show treeLookup (FSTree.dir (hd :: tl)) [] = some (FSTree.dir (hd :: tl)) from rfl]
        constructor
        · intro hm
          exfalso
          obtain ⟨m, c2, q, -, hp2, -⟩ := treePairsList_head hm
          cases hp2
        · intro hl
          exfalso
          injection hl with hl2
          cases e with
          | file d2 => cases hl2
          | symlink tg2 => cases hl2
          | emptyDir =>
            rw [show entryAsNode VolumeEntry.emptyDir = FSTree.dir [] from rfl] at hl2
            injection hl2 with hl3
            cases hl3
      | cons n p2 =>
        rw [show treeLookup (FSTree.dir (hd :: tl)) (n :: p2)
            = (match childLookup (hd :: tl) n with
               | some c => treeLookup c p2
               | Option.none => Option.none) from rfl]
        have hnd := wfB_dir_nodup hwf
        have hwfc := wfB_dir_children hwf
        constructor
        · intro hm
          obtain ⟨m, c2, q, hmem, hp2, hq⟩ := treePairsList_head hm
          injection hp2 with hm1 hm2
          subst hm1
          subst hm2
          rw [(childLookup_eq_some_iff_mem hnd).mpr hmem]
          exact (treePairs_lookup c2 (wfChildren_mem hwfc hmem).2).mp hq
        · intro hl
          cases hcl : childLookup (hd :: tl) n with
          | none => rw [hcl] at hl; cases hl
          | some c2 =>
            rw [hcl] at hl
            have hmem := (childLookup_eq_some_iff_mem hnd).mp hcl
            have hq := (treePairs_lookup c2 (wfChildren_mem hwfc hmem).2).mpr hl
            exact treePairsList_mem_of_child hmem hq
end

theorem treeLookup_wf : ∀ (p : List String) (t : FSTree), FSTree.wfB t = true →
    ∀ {u : FSTree}, treeLookup t p = some u → FSTree.wfB u = true
  | [], t, hwf, u, hl => by
    rw [show treeLookup t [] = some t from by cases t <;> rfl] at hl
    injection hl with h2
    rw [← h2]
    exact hwf
  | n :: p2, t, hwf, u, hl => by
    cases t with
    | file d => cases hl
    | symlink tg => cases hl
    | dir cs =>
      rw [show treeLookup (FSTree.dir cs) (n :: p2)
          = (match childLookup cs n with
             | some c => treeLookup c p2
             | Option.none => Option.none) from rfl] at hl
      cases hcl : childLookup cs n with
      | none => rw [hcl] at hl; cases hl
      | some c =>
        rw [hcl] at hl
        have hmem := (childLookup_eq_some_iff_mem (wfB_dir_nodup hwf)).mp hcl
        exact treeLookup_wf p2 c (wfChildren_mem (wfB_dir_children hwf) hmem).2 hl

/-! ## Claim C7 (corrected): the prefix is retained, not rebased -/

/-- **C7 (counterexample).** Flattening a volume that contains
`/src/foo.txt` with `prefix: '/src'` does *not* yield the key
`/foo.txt`: `volumeToMap` records entries at their full path under the
prefix, so the key is `/src/foo.txt`.  (The rebase-to-`/` behaviour the
spec describes lives in the snapshot adapter, not in `volumeToMap`.) -/
theorem c7_prefix_rebase_counterexample :
    (volumeToMap (FSTree.dir [("src", FSTree.dir [("foo.txt", FSTree.file [104])])])
        "/src" true).keys = ["/src/foo.txt"]
    ∧ "/foo.txt" ∉ (volumeToMap (FSTree.dir [("src", FSTree.dir [("foo.txt", FSTree.file [104])])])
        "/src" true).keys := by
  constructor
  · decide
  · decide

/-- The flat map at the default prefix `/` is the flattening of the
whole volume. -/
theorem volumeToMap_root (v : FSTree) (wd : Bool) :
    volumeToMap v "/" wd
      = (treePairs v).map (fun pe => (joinSegs "/" pe.1, entryWithData wd pe.2)) := by
  unfold volumeToMap
  rw [show relSegs (sliceFrom1 "/") = [] from by decide]
  rw [show treeLookup v [] = some v from by cases v <;> rfl]
  exact volumeToMapWalk_eq wd v "/"

/-- The flat map at a prefix, when the prefix resolves. -/
theorem volumeToMap_at_pfx (v node : FSTree) (wd : Bool) (c0 : List String)
    (hv : ∀ s ∈ c0, validSeg s = true)
    (hlook : treeLookup v c0 = some node) :
    volumeToMap v (joinSegs "/" c0) wd
      = (treePairs node).map
          (fun pe => (joinSegs "/" (c0 ++ pe.1), entryWithData wd pe.2)) := by
  unfold volumeToMap
  rw [relSegs_joinSegs c0 hv, hlook]
  show volumeToMapWalk wd node (joinSegs "/" c0) = _
  rw [volumeToMapWalk_eq wd node (joinSegs "/" c0)]
  refine List.map_congr_left ?_
  intro pe _
  rw [joinSegs_append]

/-- **C7 (amended).** For every well-formed volume and resolvable
normalized absolute prefix, every key of `volumeToMap` with that prefix
either *is* the prefix itself or lies strictly below it (the prefix is a
proper path-ancestor of the key): recorded paths keep their full
location under the prefix and are not rebased to `/`.  The rebasing the
spec describes happens only in the snapshot adapter: `writeVolumeToDir`
strips the resolved prefix from each key before writing, and
`readDirToMap` re-prefixes paths relative to the target directory with
`/` plus the logical prefix. -/
theorem c7_prefix_retained_amended (v node : FSTree) (hwf : FSTree.wfB v = true)
    (c0 : List String) (hv : ∀ s ∈ c0, validSeg s = true) (wd : Bool)
    (hlook : treeLookup v c0 = some node) (k : String)
    (hk : k ∈ (volumeToMap v (joinSegs "/" c0) wd).keys) :
    k = joinSegs "/" c0 ∨ isProperPathAncestor (joinSegs "/" c0) k := by
  rw [volumeToMap_at_pfx v node wd c0 hv hlook] at hk
  unfold VolumeMap.keys at hk
  rw [List.map_map] at hk
  obtain ⟨⟨p, e⟩, hpe, heq⟩ := List.mem_map.mp hk
  have hk2 : joinSegs "/" (c0 ++ p) = k := by simpa using heq
  have hwfnode : FSTree.wfB node = true := treeLookup_wf c0 v hwf hlook
  have hpv : ∀ s ∈ p, validSeg s = true := treePairs_valid node hwfnode hpe
  cases p with
  | nil =>
    left
    rw [← hk2, List.append_nil]
  | cons s p2 =>
    right
    rw [← hk2]
    have hall : ∀ x ∈ c0 ++ s :: p2, validSeg x = true := by
      intro x hx
      rcases List.mem_append.mp hx with h1 | h2
      · exact hv x h1
      · exact hpv x h2
    rw [show isProperPathAncestor (joinSegs "/" c0) (joinSegs "/" (c0 ++ s :: p2))
        ↔ _ from ancestor_iff hv hall]
    constructor
    · exact ⟨s :: p2, rfl⟩
    · intro hh
      have := congrArg List.length hh
      simp at this

/-- Witness for the amended C7 at the counterexample volume: the key
`/src/foo.txt` produced under prefix `/src` lies strictly below the
prefix. -/
theorem c7_prefix_retained_amended_witness :
    (FSTree.wfB (FSTree.dir [("src", FSTree.dir [("foo.txt", FSTree.file [104])])]) = true
      ∧ (∀ s ∈ ["src"], validSeg s = true)
      ∧ treeLookup (FSTree.dir [("src", FSTree.dir [("foo.txt", FSTree.file [104])])]) ["src"]
          = some (FSTree.dir [("foo.txt", FSTree.file [104])])
      ∧ "/src/foo.txt" ∈ (volumeToMap
          (FSTree.dir [("src", FSTree.dir [("foo.txt", FSTree.file [104])])])
          (joinSegs "/" ["src"]) true).keys)
    ∧ ("/src/foo.txt" = joinSegs "/" ["src"]
      ∨ isProperPathAncestor (joinSegs "/" ["src"]) "/src/foo.txt") := by
  refine ⟨⟨by decide, by decide, by simp [treeLookup, childLookup, List.lookup], by decide⟩, ?_⟩
  exact c7_prefix_retained_amended
    (FSTree.dir [("src", FSTree.dir [("foo.txt", FSTree.file [104])])])
    (FSTree.dir [("foo.txt", FSTree.file [104])]) (by decide) ["src"] (by decide) true
    (by simp [treeLookup, childLookup, List.lookup]) "/src/foo.txt" (by decide)

/-! ## Claim C9 -/

/-- Applying `entryWithData` never produces the `empty-dir` marker from a
file or symlink record. -/
theorem entryWithData_eq_emptyDir {wd : Bool} {e : VolumeEntry}
    (h : entryWithData wd e = VolumeEntry.emptyDir) : e = VolumeEntry.emptyDir := by
  cases e with
  | file d => cases h
  | symlink t => cases h
  | emptyDir => rfl

/-- Membership in the root flat map, read back at the segment level. -/
theorem volumeToMap_root_key_mem {v : FSTree} (hwf : FSTree.wfB v = true) {wd : Bool}
    {k : String} (hk : k ∈ (volumeToMap v "/" wd).keys) :
    ∃ p e, (p, e) ∈ treePairs v ∧ (∀ s ∈ p, validSeg s = true) ∧ joinSegs "/" p = k := by
  rw [volumeToMap_root v wd] at hk
  unfold VolumeMap.keys at hk
  rw [List.map_map] at hk
  obtain ⟨⟨p, e⟩, hpe, heq⟩ := List.mem_map.mp hk
  exact ⟨p, e, hpe, treePairs_valid v hwf hpe, by simpa using heq⟩

/-- **C9.** For every well-formed volume, the flat map produced by the
default flattening (prefix `/`) contains the `empty-dir` marker at a
directory path exactly when the directory at that path has zero
children; a non-empty directory path never appears as a key; and no key
of the produced flat map is a proper path-ancestor of another key. -/
theorem c9_empty_dir_keys_and_no_ancestors (v : FSTree) (hwf : FSTree.wfB v = true)
    (wd : Bool) (q : List String) (hq : ∀ s ∈ q, validSeg s = true) :
    ((joinSegs "/" q, VolumeEntry.emptyDir) ∈ volumeToMap v "/" wd
        ↔ treeLookup v q = some (FSTree.dir []))
    ∧ (∀ cs, cs ≠ [] → treeLookup v q = some (FSTree.dir cs)
        → joinSegs "/" q ∉ (volumeToMap v "/" wd).keys)
    ∧ (∀ k1 ∈ (volumeToMap v "/" wd).keys, ∀ k2 ∈ (volumeToMap v "/" wd).keys,
        ¬ isProperPathAncestor k1 k2) := by
  refine ⟨⟨?_, ?_⟩, ?_, ?_⟩
  · intro hmem
    rw [volumeToMap_root v wd] at hmem
    obtain ⟨⟨p, e⟩, hpe, heq⟩ := List.mem_map.mp hmem
    injection heq with h1 h2
    have hpv := treePairs_valid v hwf hpe
    have hpq : p = q := joinSegs_root_inj hpv hq h1
    subst hpq
    have he : e = VolumeEntry.emptyDir := entryWithData_eq_emptyDir h2
    subst he
    have := (treePairs_lookup v hwf).mp hpe
    rwa [show entryAsNode VolumeEntry.emptyDir = FSTree.dir [] from rfl] at this
  · intro hlook
    rw [volumeToMap_root v wd]
    refine List.mem_map.mpr ⟨(q, VolumeEntry.emptyDir), ?_, ?_⟩
    · exact (treePairs_lookup v hwf).mpr
        (by rw [show entryAsNode VolumeEntry.emptyDir = FSTree.dir [] from rfl]; exact hlook)
    · show (joinSegs "/" q, entryWithData wd VolumeEntry.emptyDir) = _
      rw [show entryWithData wd VolumeEntry.emptyDir = VolumeEntry.emptyDir from rfl]
  · intro cs hcs hlook hmem
    obtain ⟨p, e, hpe, hpv, hjoin⟩ := volumeToMap_root_key_mem hwf hmem
    have hpq : p = q := joinSegs_root_inj hpv hq hjoin
    subst hpq
    have := (treePairs_lookup v hwf).mp hpe
    rw [hlook] at this
    cases e with
    | file d => cases Option.some.inj this
    | symlink t => cases Option.some.inj this
    | emptyDir =>
      have hd := Option.some.inj this
      rw [show entryAsNode VolumeEntry.emptyDir = FSTree.dir [] from rfl] at hd
      injection hd with hcs2
      exact hcs hcs2
  · intro k1 h1 k2 h2 hanc
    obtain ⟨p1, e1, hp1, hv1, hj1⟩ := volumeToMap_root_key_mem hwf h1
    obtain ⟨p2, e2, hp2, hv2, hj2⟩ := volumeToMap_root_key_mem hwf h2
    rw [← hj1, ← hj2] at hanc
    have := (ancestor_iff hv1 hv2).mp hanc
    exact this.2 (treePairs_prefix_eq v hwf hp1 hp2 this.1)

/-- Witness for C9: a volume with one empty directory `/a` and one
non-empty directory `/b` holding `/b/c.txt`. -/
theorem c9_empty_dir_keys_and_no_ancestors_witness :
    (FSTree.wfB (FSTree.dir [("a", FSTree.dir []),
        ("b", FSTree.dir [("c.txt", FSTree.file [97])])]) = true
      ∧ (∀ s ∈ ["a"], validSeg s = true))
    ∧ (((joinSegs "/" ["a"], VolumeEntry.emptyDir)
          ∈ volumeToMap (FSTree.dir [("a", FSTree.dir []),
              ("b", FSTree.dir [("c.txt", FSTree.file [97])])]) "/" true
        ↔ treeLookup (FSTree.dir [("a", FSTree.dir []),
              ("b", FSTree.dir [("c.txt", FSTree.file [97])])]) ["a"]
            = some (FSTree.dir []))
      ∧ (∀ cs, cs ≠ [] → treeLookup (FSTree.dir [("a", FSTree.dir []),
              ("b", FSTree.dir [("c.txt", FSTree.file [97])])]) ["a"]
            = some (FSTree.dir cs)
          → joinSegs "/" ["a"] ∉ (volumeToMap (FSTree.dir [("a", FSTree.dir []),
              ("b", FSTree.dir [("c.txt", FSTree.file [97])])]) "/" true).keys)
      ∧ (∀ k1 ∈ (volumeToMap (FSTree.dir [("a", FSTree.dir []),
              ("b", FSTree.dir [("c.txt", FSTree.file [97])])]) "/" true).keys,
          ∀ k2 ∈ (volumeToMap (FSTree.dir [("a", FSTree.dir []),
              ("b", FSTree.dir [("c.txt", FSTree.file [97])])]) "/" true).keys,
          ¬ isProperPathAncestor k1 k2)) :=
  ⟨⟨by decide, by decide⟩,
    c9_empty_dir_keys_and_no_ancestors
      (FSTree.dir [("a", FSTree.dir []), ("b", FSTree.dir [("c.txt", FSTree.file [97])])])
      (by decide) true ["a"] (by decide)⟩

/-! ## Toward C6: matched self-comparison and a generic pass criterion -/

theorem matchEntryFn_self (cF cS : Bool) (isText : String → List Nat → Bool)
    (p : String) (a : VolumeEntry) :
    matchEntryFn cF cS isText p (some a) (some a) = .matched := by
  cases a <;> simp [matchEntryFn]

theorem pass_of_all_matched (isText : String → List Nat → Bool)
    (received expected : VolumeMap) (cm : Option ContentMatch)
    (hmem : ∀ k, k ∈ received.keys ↔ k ∈ expected.keys)
    (hsorted : sortKeys received.keys = sortKeys expected.keys)
    (hmatched : ∀ p, (p ∈ received.keys ∨ p ∈ expected.keys) →
      matchEntryFn (compareFilesFlag cm) (compareSymlinksFlag cm) isText p
        (expected.lookup p) (received.lookup p) = .matched)
    (lm : Option ListMatch) (report : Option ReportType) :
    compareVolumeMapsPass isText received expected lm cm report = true := by
  have hfpmE : firstPathMismatch (compareFilesFlag cm) (compareSymlinksFlag cm) isText
      received expected (sortKeys expected.keys) = Option.none := by
    apply firstPathMismatch_none
    intro f hf
    exact hmatched f (Or.inr ((sortKeys_perm expected.keys).mem_iff.mp hf))
  have hfpmA : firstPathMismatch (compareFilesFlag cm) (compareSymlinksFlag cm) isText
      received expected (sortKeys received.keys) = Option.none := by
    rw [hsorted]
    exact hfpmE
  have hmissingnil : (sortKeys expected.keys).filter (fun f => !received.hasKey f) = [] := by
    rw [List.filter_eq_nil_iff]
    intro f hf
    have hm : received.hasKey f = true := by
      rw [hasKey_iff_mem_keys]
      exact (hmem f).mpr ((sortKeys_perm expected.keys).mem_iff.mp hf)
    simp [hm]
  have hextranil : (sortKeys received.keys).filter (fun f => !expected.hasKey f) = [] := by
    rw [List.filter_eq_nil_iff]
    intro f hf
    have hm : expected.hasKey f = true := by
      rw [hasKey_iff_mem_keys]
      exact (hmem f).mp ((sortKeys_perm received.keys).mem_iff.mp hf)
    simp [hm]
  have hb : exactListsMatch (sortKeys received.keys) (sortKeys expected.keys) = true := by
    rw [exactListsMatch_iff]
    exact hsorted
  have hfirst : (compareVolumeMapsFirst isText received expected lm cm).passes
      = true := by
    cases lm with
    | none =>
      simp [compareVolumeMapsFirst, hb, lmBeqNone, hfpmE, CompareResult.passes]
    | some l =>
      cases l with
      | exact =>
        simp [compareVolumeMapsFirst, hb, lmBeqExact, hfpmE, CompareResult.passes]
      | ignoreExtra =>
        simp [compareVolumeMapsFirst, hmissingnil, lmBeqIgnExtra, hfpmE,
          CompareResult.passes]
      | ignoreMissing =>
        simp [compareVolumeMapsFirst, hextranil, lmBeqIgnMissing, hfpmA,
          CompareResult.passes]
  have hkind : ∀ p ∈ pathsToCheck received expected lm,
      (entryResultAt (compareFilesFlag cm) (compareSymlinksFlag cm)
        isText received expected p).kind = DiffKind.Match := by
    intro p hp
    show (matchEntryFn (compareFilesFlag cm) (compareSymlinksFlag cm) isText p
      (expected.lookup p) (received.lookup p)).kind = DiffKind.Match
    rw [hmatched p (mem_pathsToCheck hp)]
    rfl
  have hfilter : ∀ (pred : String → Bool),
      (∀ p ∈ pathsToCheck received expected lm, pred p = false) →
      (pathsToCheck received expected lm).filter pred = [] := by
    intro pred hcond
    rw [List.filter_eq_nil_iff]
    intro a ha
    simp [hcond a ha]
  have h1 := compareAll_missingCount isText received expected lm cm
  have h2 := compareAll_extraCount isText received expected lm cm
  have h3 := compareAll_typeCount isText received expected lm cm
  have h4 := compareAll_contentCount isText received expected lm cm
  rw [hfilter _ (fun p hp => by rw [hkind p hp]; rfl)] at h1
  rw [hfilter _ (fun p hp => by rw [hkind p hp]; rfl)] at h2
  rw [hfilter _ (fun p hp => by rw [hkind p hp]; rfl)] at h3
  rw [hfilter _ (fun p hp => by rw [hkind p hp]; rfl)] at h4
  have hallpass : (compareVolumeMapsAll isText received expected lm cm).passes
      = true := by
    simp [AllState.passes, AllState.total, h1, h2, h3, h4]
  unfold compareVolumeMapsPass
  split
  · exact hallpass
  · exact hfirst

/-! ## Toward C6: `treePairsList` as a flat map over the child list -/

theorem treePairsList_append : ∀ (a b : List (String × FSTree)),
    treePairsList (a ++ b) = treePairsList a ++ treePairsList b
  | [], b => rfl
  | (n, c) :: rest, b => by
    rw [List.cons_append,
      show treePairsList ((n, c) :: (rest ++ b))
        = (treePairs c).map (fun pe => (n :: pe.1, pe.2)) ++ treePairsList (rest ++ b)
        from rfl,
      show treePairsList ((n, c) :: rest)
        = (treePairs c).map (fun pe => (n :: pe.1, pe.2)) ++ treePairsList rest from rfl,
      treePairsList_append rest b, List.append_assoc]

theorem treePairsList_flatMap (cs : List (String × FSTree)) :
    treePairsList cs
      = cs.flatMap (fun mc => (treePairs mc.2).map (fun pe => (mc.1 :: pe.1, pe.2))) := by
  induction cs with
  | nil => rfl
  | cons hd rest ih =>
    obtain ⟨n, c⟩ := hd
    rw [show treePairsList ((n, c) :: rest)
        = (treePairs c).map (fun pe => (n :: pe.1, pe.2)) ++ treePairsList rest from rfl,
      List.flatMap_cons, ih]

theorem treePairsList_perm_of_pointwise : ∀ (xs ys : List (String × FSTree)),
    (xs.map Prod.fst).Nodup → (ys.map Prod.fst).Nodup →
    (xs.map Prod.fst).Perm (ys.map Prod.fst) →
    (∀ n cx cy, (n, cx) ∈ xs → (n, cy) ∈ ys → (treePairs cx).Perm (treePairs cy)) →
    (treePairsList xs).Perm (treePairsList ys)
  | [], ys, _, _, hperm, _ => by
    have h0 : ys = [] := List.map_eq_nil_iff.mp (List.perm_nil.mp hperm.symm)
    rw [h0]
  | (n, cx) :: rest, ys, hndx, hndy, hperm, hpoint => by
    have hnmem : n ∈ ys.map Prod.fst := hperm.mem_iff.mp (by simp)
    obtain ⟨⟨n2, cy⟩, hyin, hfst⟩ := List.mem_map.mp hnmem
    simp only at hfst
    rw [hfst] at hyin
    obtain ⟨ys1, ys2, hys⟩ := List.append_of_mem hyin
    subst hys
    have hys_names : (ys1 ++ (n, cy) :: ys2).map Prod.fst
        = ys1.map Prod.fst ++ n :: ys2.map Prod.fst := by
      rw [List.map_append, List.map_cons]
    have hmid : (ys1.map Prod.fst ++ n :: ys2.map Prod.fst).Perm
        (n :: (ys1.map Prod.fst ++ ys2.map Prod.fst)) := List.perm_middle
    have hrestperm : (rest.map Prod.fst).Perm
        (ys1.map Prod.fst ++ ys2.map Prod.fst) := by
      have h2 : (n :: rest.map Prod.fst).Perm
          (n :: (ys1.map Prod.fst ++ ys2.map Prod.fst)) := by
        refine List.Perm.trans ?_ hmid
        rw [← hys_names]
        simpa using hperm
      exact (List.perm_cons n).mp h2
    have hsub : (ys1 ++ ys2).Sublist (ys1 ++ (n, cy) :: ys2) :=
      List.Sublist.append_left (List.sublist_cons_self (n, cy) ys2) ys1
    have hndy2 : ((ys1 ++ ys2).map Prod.fst).Nodup :=
      List.Nodup.sublist (hsub.map Prod.fst) hndy
    have hndx2 : (rest.map Prod.fst).Nodup := by
      rw [List.map_cons, List.nodup_cons] at hndx
      exact hndx.2
    have hrest_names : ((ys1 ++ ys2).map Prod.fst)
        = ys1.map Prod.fst ++ ys2.map Prod.fst := List.map_append _ _ _
    have ihperm : (treePairsList rest).Perm (treePairsList (ys1 ++ ys2)) :=
      treePairsList_perm_of_pointwise rest (ys1 ++ ys2) hndx2 hndy2
        (by rw [hrest_names]; exact hrestperm)
        (fun m cx2 cy2 hx2 hy2 => hpoint m cx2 cy2 (by simp [hx2])
          (by rcases List.mem_append.mp hy2 with h | h
              · exact List.mem_append.mpr (Or.inl h)
              · exact List.mem_append.mpr (Or.inr (by simp [h]))))
    have hblock : ((treePairs cx).map (fun pe => (n :: pe.1, pe.2))).Perm
        ((treePairs cy).map (fun pe => (n :: pe.1, pe.2))) :=
      (hpoint n cx cy (by simp) (by simp)).map _
    rw [show treePairsList ((n, cx) :: rest)
        = (treePairs cx).map (fun pe => (n :: pe.1, pe.2)) ++ treePairsList rest from rfl,
      treePairsList_append ys1 ((n, cy) :: ys2),
      show treePairsList ((n, cy) :: ys2)
        = (treePairs cy).map (fun pe => (n :: pe.1, pe.2)) ++ treePairsList ys2 from rfl]
    refine List.Perm.trans (hblock.append ihperm) ?_
    rw [treePairsList_append ys1 ys2, ← List.append_assoc, ← List.append_assoc]
    exact List.perm_append_comm.append_right _

/-! ## Toward C6: directory-entry bookkeeping of the disk operations -/

theorem setChild_lookup : ∀ (cs : List (String × FSTree)) (nm : String) (t : FSTree)
    (m : String), childLookup (setChild cs nm t) m
      = if m == nm then some t else childLookup cs m
  | [], nm, t, m => by
    cases hm : (m == nm) <;> simp [setChild, childLookup, List.lookup, hm]
  | (k, c) :: rest, nm, t, m => by
    cases hk : (k == nm) with
    | true =>
      have hkeq : k = nm := eq_of_beq hk
      subst hkeq
      cases hm : (m == k) <;>
        simp [setChild, childLookup, List.lookup, hk, hm]
    | false =>
      have ih := setChild_lookup rest nm t m
      cases hm : (m == k) with
      | true =>
        have hmeq : m = k := eq_of_beq hm
        subst hmeq
        have hmn : (m == nm) = false := hk
        simp [setChild, childLookup, List.lookup, hk, hm, hmn]
      | false =>
        simp only [childLookup] at ih
        cases hmn : (m == nm) <;>
          simp [setChild, childLookup, List.lookup, hk, hm, hmn] <;>
          simp [hmn] at ih <;> exact ih

theorem childLookup_append_single : ∀ (cs : List (String × FSTree)) (nm : String)
    (x : FSTree) (m : String), childLookup (cs ++ [(nm, x)]) m
      = match childLookup cs m with
        | some c => some c
        | Option.none => if m == nm then some x else Option.none
  | [], nm, x, m => by
    cases hm : (m == nm) <;>
      simp [childLookup, List.lookup, hm]
  | (k, c) :: rest, nm, x, m => by
    have ih := childLookup_append_single rest nm x m
    cases hm : (m == k) <;>
      simp [childLookup, List.lookup, hm] <;>
      simpa [childLookup] using ih

theorem setChild_names : ∀ (cs : List (String × FSTree)) (nm : String) (t : FSTree),
    (setChild cs nm t).map Prod.fst = cs.map Prod.fst
      ∨ ((setChild cs nm t).map Prod.fst = cs.map Prod.fst ++ [nm]
          ∧ nm ∉ cs.map Prod.fst)
  | [], nm, t => Or.inr ⟨by simp [setChild], by simp⟩
  | (k, c) :: rest, nm, t => by
    cases hk : (k == nm) with
    | true =>
      left
      simp [setChild, hk]
    | false =>
      have hne : nm ≠ k := fun hh => (ne_of_beq_false hk) hh.symm
      rcases setChild_names rest nm t with h1 | ⟨h1, h2⟩
      · left
        simp [setChild, hk, h1]
      · right
        refine ⟨by simp [setChild, hk, h1], ?_⟩
        simp [hne, h2]

theorem setChild_names_nodup {cs : List (String × FSTree)} {nm : String} {t : FSTree}
    (h : (cs.map Prod.fst).Nodup) : ((setChild cs nm t).map Prod.fst).Nodup := by
  rcases setChild_names cs nm t with h1 | ⟨h1, h2⟩ <;> rw [h1]
  · exact h
  · exact List.Nodup.append h (List.nodup_singleton nm)
      (List.disjoint_singleton.mpr h2)

theorem names_append_single_nodup {cs : List (String × FSTree)} {nm : String}
    {x : FSTree} (h : (cs.map Prod.fst).Nodup) (h2 : nm ∉ cs.map Prod.fst) :
    ((cs ++ [(nm, x)]).map Prod.fst).Nodup := by
  rw [List.map_append]
  exact List.Nodup.append h (List.nodup_singleton nm)
    (List.disjoint_singleton.mpr (by simpa using h2))

/-- One disk operation on a directory: the tree stays a directory, child
names stay duplicate-free, and each child is transformed exactly by the
residual operation `opTail` computes for it. -/
theorem applyDiskOp_dir_step (cs0 : List (String × FSTree)) (op : DiskOp)
    (hop : opOK op) :
    ∃ cs1, applyDiskOp (FSTree.dir cs0) op = FSTree.dir cs1
      ∧ ((cs0.map Prod.fst).Nodup → (cs1.map Prod.fst).Nodup)
      ∧ ∀ m, childLookup cs1 m
          = match opTail m op with
            | some op2 => applyChildOp (childLookup cs0 m) op2
            | Option.none => childLookup cs0 m := by
  cases op with
  | mkdirOp q =>
    cases q with
    | nil =>
      refine ⟨cs0, rfl, fun h => h, fun m => ?_⟩
      rw [show opTail m (DiskOp.mkdirOp []) = Option.none from rfl]
    | cons h r =>
      rw [show applyDiskOp (FSTree.dir cs0) (DiskOp.mkdirOp (h :: r))
          = mkdirp (FSTree.dir cs0) (h :: r) from rfl]
      cases hcl : childLookup cs0 h with
      | some c =>
        refine ⟨setChild cs0 h (mkdirp c r), by simp [mkdirp, hcl],
          fun hnd => setChild_names_nodup hnd, fun m => ?_⟩
        rw [setChild_lookup cs0 h (mkdirp c r) m,
          show opTail m (DiskOp.mkdirOp (h :: r))
            = if h == m then some (DiskOp.mkdirOp r) else Option.none from rfl]
        cases hm : (m == h) with
        | true =>
          have hmeq : m = h := eq_of_beq hm
          subst hmeq
          simp [hcl, applyChildOp]
        | false =>
          have hltf : (h == m) = false := by
            rw [beq_eq_false_iff_ne]
            exact fun hh => (ne_of_beq_false hm) hh.symm
          rw [hltf]
          simp [hm]
      | none =>
        refine ⟨cs0 ++ [(h, mkdirp (FSTree.dir []) r)], by simp [mkdirp, hcl],
          fun hnd => names_append_single_nodup hnd (childLookup_none_iff.mp hcl),
          fun m => ?_⟩
        rw [childLookup_append_single cs0 h (mkdirp (FSTree.dir []) r) m,
          show opTail m (DiskOp.mkdirOp (h :: r))
            = if h == m then some (DiskOp.mkdirOp r) else Option.none from rfl]
        cases hm : (m == h) with
        | true =>
          have hmeq : m = h := eq_of_beq hm
          subst hmeq
          rw [hcl]
          simp [applyChildOp]
        | false =>
          have hltf : (h == m) = false := by
            rw [beq_eq_false_iff_ne]
            exact fun hh => (ne_of_beq_false hm) hh.symm
          rw [hltf]
          cases hcm : childLookup cs0 m <;> simp [hm]
  | writeOp q node =>
    cases q with
    | nil => exact absurd rfl hop
    | cons h r =>
      cases r with
      | nil =>
        rw [show applyDiskOp (FSTree.dir cs0) (DiskOp.writeOp [h] node)
            = FSTree.dir (setChild cs0 h node) from rfl]
        refine ⟨setChild cs0 h node, rfl, fun hnd => setChild_names_nodup hnd, fun m => ?_⟩
        rw [setChild_lookup cs0 h node m,
          show opTail m (DiskOp.writeOp [h] node)
            = if h == m then some (DiskOp.writeOp [] node) else Option.none from rfl]
        cases hm : (m == h) with
        | true =>
          have hmeq : m = h := eq_of_beq hm
          subst hmeq
          simp [applyChildOp]
        | false =>
          have hltf : (h == m) = false := by
            rw [beq_eq_false_iff_ne]
            exact fun hh => (ne_of_beq_false hm) hh.symm
          rw [hltf]
          simp [hm]
      | cons r1 r2 =>
        rw [show applyDiskOp (FSTree.dir cs0) (DiskOp.writeOp (h :: r1 :: r2) node)
            = (match childLookup cs0 h with
               | some c => FSTree.dir (setChild cs0 h (writeNode c (r1 :: r2) node))
               | Option.none => FSTree.dir cs0) from rfl]
        cases hcl : childLookup cs0 h with
        | some c =>
          refine ⟨setChild cs0 h (writeNode c (r1 :: r2) node), rfl,
            fun hnd => setChild_names_nodup hnd, fun m => ?_⟩
          rw [setChild_lookup cs0 h (writeNode c (r1 :: r2) node) m,
            show opTail m (DiskOp.writeOp (h :: r1 :: r2) node)
              = if h == m then some (DiskOp.writeOp (r1 :: r2) node)
                else Option.none from rfl]
          cases hm : (m == h) with
          | true =>
            have hmeq : m = h := eq_of_beq hm
            subst hmeq
            simp [hcl, applyChildOp]
          | false =>
            have hltf : (h == m) = false := by
              rw [beq_eq_false_iff_ne]
              exact fun hh => (ne_of_beq_false hm) hh.symm
            rw [hltf]
            simp [hm]
        | none =>
          refine ⟨cs0, rfl, fun hnd => hnd, fun m => ?_⟩
          rw [show opTail m (DiskOp.writeOp (h :: r1 :: r2) node)
              = if h == m then some (DiskOp.writeOp (r1 :: r2) node)
                else Option.none from rfl]
          cases hm : (m == h) with
          | true =>
            have hmeq : m = h := eq_of_beq hm
            subst hmeq
            rw [hcl]
            simp [applyChildOp]
          | false =>
            have hltf : (h == m) = false := by
              rw [beq_eq_false_iff_ne]
              exact fun hh => (ne_of_beq_false hm) hh.symm
            rw [hltf]
            simp

/-! ## Toward C6: localizing a fold of disk operations to each child -/

theorem childOps_cons (n : String) (op : DiskOp) (ops : List DiskOp) :
    childOps n (op :: ops)
      = match opTail n op with
        | some op2 => op2 :: childOps n ops
        | Option.none => childOps n ops := by
  rw [show childOps n (op :: ops) = List.filterMap (opTail n) (op :: ops) from rfl,
    List.filterMap_cons]
  cases opTail n op <;> rfl

theorem childOps_append (n : String) (a b : List DiskOp) :
    childOps n (a ++ b) = childOps n a ++ childOps n b :=
  List.filterMap_append a b (opTail n)

theorem foldl_dir_step : ∀ (ops : List DiskOp), (∀ op ∈ ops, opOK op) →
    ∀ (cs0 : List (String × FSTree)),
    ∃ cs1, ops.foldl applyDiskOp (FSTree.dir cs0) = FSTree.dir cs1
      ∧ ((cs0.map Prod.fst).Nodup → (cs1.map Prod.fst).Nodup)
      ∧ ∀ m, childLookup cs1 m = applyChildOps (childLookup cs0 m) (childOps m ops)
  | [], _, cs0 => ⟨cs0, rfl, fun h => h, fun m => rfl⟩
  | op :: rest, hops, cs0 => by
    obtain ⟨csA, hA, hAnd, hAlook⟩ :=
      applyDiskOp_dir_step cs0 op (hops op (by simp))
    obtain ⟨cs1, h1, h1nd, h1look⟩ :=
      foldl_dir_step rest (fun o ho => hops o (by simp [ho])) csA
    refine ⟨cs1, ?_, fun hnd => h1nd (hAnd hnd), fun m => ?_⟩
    · rw [List.foldl_cons, hA, h1]
    · rw [h1look m, hAlook m, childOps_cons]
      cases hop : opTail m op with
      | some op2 =>
        rw [show applyChildOps (childLookup cs0 m) (op2 :: childOps m rest)
            = applyChildOps (applyChildOp (childLookup cs0 m) op2) (childOps m rest)
            from rfl]
      | none => rfl

theorem applyChildOp_some (t : FSTree) (op : DiskOp) :
    applyChildOp (some t) op = some (applyDiskOp t op) := by
  cases op with
  | mkdirOp q => rfl
  | writeOp q node =>
    cases q with
    | nil =>
      show some node = some (writeNode t [] node)
      cases t <;> rfl
    | cons h r => rfl

theorem applyChildOps_some (t : FSTree) : ∀ (ops : List DiskOp),
    applyChildOps (some t) ops = some (ops.foldl applyDiskOp t)
  | [] => rfl
  | op :: rest => by
    rw [show applyChildOps (some t) (op :: rest)
        = applyChildOps (applyChildOp (some t) op) rest from rfl,
      applyChildOp_some t op, applyChildOps_some (applyDiskOp t op) rest,
      List.foldl_cons]

theorem applyChildOps_none_mkdir (q : List String) (rest : List DiskOp) :
    applyChildOps Option.none (DiskOp.mkdirOp q :: rest)
      = some ((DiskOp.mkdirOp q :: rest).foldl applyDiskOp (FSTree.dir [])) := by
  rw [show applyChildOps Option.none (DiskOp.mkdirOp q :: rest)
      = applyChildOps (applyChildOp Option.none (DiskOp.mkdirOp q)) rest from rfl,
    show applyChildOp Option.none (DiskOp.mkdirOp q)
      = some (mkdirp (FSTree.dir []) q) from rfl,
    applyChildOps_some, List.foldl_cons]
  rfl

/-! ## Toward C6: the operations a single child receives -/

theorem entryDirOp_is_mkdir (p : List String) (e : VolumeEntry) :
    ∃ q, entryDirOp p e = DiskOp.mkdirOp q := by
  cases e with
  | file d => exact ⟨p.dropLast, rfl⟩
  | symlink t => exact ⟨p.dropLast, rfl⟩
  | emptyDir => exact ⟨p, rfl⟩

theorem childOps_dir_other {m n : String} (hmn : (m == n) = false) :
    ∀ (P : List (List String × VolumeEntry)),
    childOps n ((P.map (fun pe => ((m :: pe.1 : List String), pe.2))).map
        (fun pe => entryDirOp pe.1 pe.2)) = []
  | [] => rfl
  | (p, e) :: rest => by
    rw [List.map_cons, List.map_cons, childOps_cons]
    have hz := childOps_dir_other hmn rest
    cases e with
    | file d =>
      cases p with
      | nil =>
        rw [show opTail n (entryDirOp ([m] : List String) (VolumeEntry.file d))
            = Option.none from rfl]
        exact hz
      | cons p1 ps =>
        rw [show entryDirOp (m :: p1 :: ps) (VolumeEntry.file d)
            = DiskOp.mkdirOp (m :: (p1 :: ps).dropLast) from rfl,
          show opTail n (DiskOp.mkdirOp (m :: (p1 :: ps).dropLast))
            = if m == n then some (DiskOp.mkdirOp ((p1 :: ps).dropLast))
              else Option.none from rfl, hmn]
        exact hz
    | symlink t =>
      cases p with
      | nil =>
        rw [show opTail n (entryDirOp ([m] : List String) (VolumeEntry.symlink t))
            = Option.none from rfl]
        exact hz
      | cons p1 ps =>
        rw [show entryDirOp (m :: p1 :: ps) (VolumeEntry.symlink t)
            = DiskOp.mkdirOp (m :: (p1 :: ps).dropLast) from rfl,
          show opTail n (DiskOp.mkdirOp (m :: (p1 :: ps).dropLast))
            = if m == n then some (DiskOp.mkdirOp ((p1 :: ps).dropLast))
              else Option.none from rfl, hmn]
        exact hz
    | emptyDir =>
      rw [show entryDirOp (m :: p) VolumeEntry.emptyDir
          = DiskOp.mkdirOp (m :: p) from rfl,
        show opTail n (DiskOp.mkdirOp (m :: p))
          = if m == n then some (DiskOp.mkdirOp p) else Option.none from rfl, hmn]
      exact hz

theorem childOps_write_other {m n : String} (hmn : (m == n) = false) :
    ∀ (P : List (List String × VolumeEntry)),
    childOps n ((P.map (fun pe => ((m :: pe.1 : List String), pe.2))).flatMap
        (fun pe => entryWriteOps pe.1 pe.2)) = []
  | [] => rfl
  | (p, e) :: rest => by
    rw [List.map_cons, List.flatMap_cons, childOps_append]
    have hz := childOps_write_other hmn rest
    rw [hz]
    cases e with
    | file d =>
      rw [show entryWriteOps (m :: p) (VolumeEntry.file d)
          = [DiskOp.writeOp (m :: p) (FSTree.file d)] from rfl,
        show childOps n [DiskOp.writeOp (m :: p) (FSTree.file d)]
          = (match opTail n (DiskOp.writeOp (m :: p) (FSTree.file d)) with
             | some op2 => [op2]
             | Option.none => []) from by rw [childOps_cons]; cases opTail n _ <;> rfl,
        show opTail n (DiskOp.writeOp (m :: p) (FSTree.file d))
          = if m == n then some (DiskOp.writeOp p (FSTree.file d))
            else Option.none from rfl, hmn]
      simp
    | symlink t =>
      rw [show entryWriteOps (m :: p) (VolumeEntry.symlink t)
          = [DiskOp.writeOp (m :: p) (FSTree.symlink t)] from rfl,
        show childOps n [DiskOp.writeOp (m :: p) (FSTree.symlink t)]
          = (match opTail n (DiskOp.writeOp (m :: p) (FSTree.symlink t)) with
             | some op2 => [op2]
             | Option.none => []) from by rw [childOps_cons]; cases opTail n _ <;> rfl,
        show opTail n (DiskOp.writeOp (m :: p) (FSTree.symlink t))
          = if m == n then some (DiskOp.writeOp p (FSTree.symlink t))
            else Option.none from rfl, hmn]
      simp
    | emptyDir =>
      rw [show entryWriteOps (m :: p) VolumeEntry.emptyDir = [] from rfl]
      rfl

theorem childOps_dir_self (n : String) :
    ∀ (P : List (List String × VolumeEntry)), (∀ pe ∈ P, pe.1 ≠ []) →
    childOps n ((P.map (fun pe => ((n :: pe.1 : List String), pe.2))).map
        (fun pe => entryDirOp pe.1 pe.2)) = P.map (fun pe => entryDirOp pe.1 pe.2)
  | [], _ => rfl
  | (p, e) :: rest, hne => by
    rw [List.map_cons, List.map_cons, childOps_cons]
    have hz := childOps_dir_self n rest (fun pe hpe => hne pe (by simp [hpe]))
    have hp : p ≠ [] := hne (p, e) (by simp)
    cases p with
    | nil => exact absurd rfl hp
    | cons p1 ps =>
      cases e with
      | file d =>
        rw [show entryDirOp (n :: p1 :: ps) (VolumeEntry.file d)
            = DiskOp.mkdirOp (n :: (p1 :: ps).dropLast) from rfl,
          show opTail n (DiskOp.mkdirOp (n :: (p1 :: ps).dropLast))
            = if n == n then some (DiskOp.mkdirOp ((p1 :: ps).dropLast))
              else Option.none from rfl,
          show (n == n) = true from by simp, if_pos rfl, hz, List.map_cons]
        rfl
      | symlink t =>
        rw [show entryDirOp (n :: p1 :: ps) (VolumeEntry.symlink t)
            = DiskOp.mkdirOp (n :: (p1 :: ps).dropLast) from rfl,
          show opTail n (DiskOp.mkdirOp (n :: (p1 :: ps).dropLast))
            = if n == n then some (DiskOp.mkdirOp ((p1 :: ps).dropLast))
              else Option.none from rfl,
          show (n == n) = true from by simp, if_pos rfl, hz, List.map_cons]
        rfl
      | emptyDir =>
        rw [show entryDirOp (n :: p1 :: ps) VolumeEntry.emptyDir
            = DiskOp.mkdirOp (n :: p1 :: ps) from rfl,
          show opTail n (DiskOp.mkdirOp (n :: p1 :: ps))
            = if n == n then some (DiskOp.mkdirOp (p1 :: ps)) else Option.none from rfl,
          show (n == n) = true from by simp, if_pos rfl, hz, List.map_cons]
        rfl

theorem childOps_write_self (n : String) :
    ∀ (P : List (List String × VolumeEntry)),
    childOps n ((P.map (fun pe => ((n :: pe.1 : List String), pe.2))).flatMap
        (fun pe => entryWriteOps pe.1 pe.2)) = P.flatMap (fun pe => entryWriteOps pe.1 pe.2)
  | [] => rfl
  | (p, e) :: rest => by
    rw [List.map_cons, List.flatMap_cons, childOps_append,
      childOps_write_self n rest, List.flatMap_cons]
    congr 1
    cases e with
    | file d =>
      rw [show entryWriteOps (n :: p) (VolumeEntry.file d)
          = [DiskOp.writeOp (n :: p) (FSTree.file d)] from rfl,
        show childOps n [DiskOp.writeOp (n :: p) (FSTree.file d)]
          = (match opTail n (DiskOp.writeOp (n :: p) (FSTree.file d)) with
             | some op2 => [op2]
             | Option.none => []) from by rw [childOps_cons]; cases opTail n _ <;> rfl,
        show opTail n (DiskOp.writeOp (n :: p) (FSTree.file d))
          = if n == n then some (DiskOp.writeOp p (FSTree.file d))
            else Option.none from rfl,
        show (n == n) = true from by simp, if_pos rfl]
      rfl
    | symlink t =>
      rw [show entryWriteOps (n :: p) (VolumeEntry.symlink t)
          = [DiskOp.writeOp (n :: p) (FSTree.symlink t)] from rfl,
        show childOps n [DiskOp.writeOp (n :: p) (FSTree.symlink t)]
          = (match opTail n (DiskOp.writeOp (n :: p) (FSTree.symlink t)) with
             | some op2 => [op2]
             | Option.none => []) from by rw [childOps_cons]; cases opTail n _ <;> rfl,
        show opTail n (DiskOp.writeOp (n :: p) (FSTree.symlink t))
          = if n == n then some (DiskOp.writeOp p (FSTree.symlink t))
            else Option.none from rfl,
        show (n == n) = true from by simp, if_pos rfl]
      rfl
    | emptyDir => rfl

theorem segOps_ok (cs : List (String × FSTree)) :
    ∀ op ∈ segOps (treePairsList cs), opOK op := by
  intro op hop
  rcases List.mem_append.mp hop with hd | hw
  · obtain ⟨pe, hpe, heq⟩ := List.mem_map.mp hd
    obtain ⟨q, hq⟩ := entryDirOp_is_mkdir pe.1 pe.2
    rw [← heq, hq]
    exact trivial
  · obtain ⟨pe, hpe, hin⟩ := List.mem_flatMap.mp hw
    obtain ⟨p, e⟩ := pe
    obtain ⟨m, c2, q, -, hp, -⟩ := treePairsList_head hpe
    subst hp
    cases e with
    | file d =>
      rw [show entryWriteOps (m :: q) (VolumeEntry.file d)
          = [DiskOp.writeOp (m :: q) (FSTree.file d)] from rfl] at hin
      rcases List.mem_singleton.mp hin with rfl
      exact List.cons_ne_nil m q
    | symlink t =>
      rw [show entryWriteOps (m :: q) (VolumeEntry.symlink t)
          = [DiskOp.writeOp (m :: q) (FSTree.symlink t)] from rfl] at hin
      rcases List.mem_singleton.mp hin with rfl
      exact List.cons_ne_nil m q
    | emptyDir => cases hin

theorem childOps_dir_notmem (n : String) : ∀ (cs : List (String × FSTree)),
    n ∉ cs.map Prod.fst →
    childOps n ((treePairsList cs).map (fun pe => entryDirOp pe.1 pe.2)) = []
  | [], _ => rfl
  | (m, c2) :: rest, hnm => by
    have hmn : (m == n) = false := by
      rw [beq_eq_false_iff_ne]
      intro hh
      exact hnm (by simp [hh])
    rw [show treePairsList ((m, c2) :: rest)
        = (treePairs c2).map (fun pe => (m :: pe.1, pe.2)) ++ treePairsList rest from rfl,
      List.map_append, childOps_append, childOps_dir_other hmn (treePairs c2),
      childOps_dir_notmem n rest (fun hh => hnm (by simp [hh]))]
    rfl

theorem childOps_write_notmem (n : String) : ∀ (cs : List (String × FSTree)),
    n ∉ cs.map Prod.fst →
    childOps n ((treePairsList cs).flatMap (fun pe => entryWriteOps pe.1 pe.2)) = []
  | [], _ => rfl
  | (m, c2) :: rest, hnm => by
    have hmn : (m == n) = false := by
      rw [beq_eq_false_iff_ne]
      intro hh
      exact hnm (by simp [hh])
    rw [show treePairsList ((m, c2) :: rest)
        = (treePairs c2).map (fun pe => (m :: pe.1, pe.2)) ++ treePairsList rest from rfl,
      List.flatMap_append, childOps_append, childOps_write_other hmn (treePairs c2),
      childOps_write_notmem n rest (fun hh => hnm (by simp [hh]))]
    rfl

theorem childOps_dir_block (n : String) (c : FSTree) : ∀ (cs : List (String × FSTree)),
    ((cs.map Prod.fst).Nodup) → (n, c) ∈ cs →
    childOps n ((treePairsList cs).map (fun pe => entryDirOp pe.1 pe.2))
      = childOps n (((treePairs c).map (fun pe => ((n :: pe.1 : List String), pe.2))).map
          (fun pe => entryDirOp pe.1 pe.2))
  | [], _, hmem => absurd hmem (by simp)
  | (m, c2) :: rest, hnd, hmem => by
    simp only [List.map_cons, List.nodup_cons] at hnd
    rw [show treePairsList ((m, c2) :: rest)
        = (treePairs c2).map (fun pe => (m :: pe.1, pe.2)) ++ treePairsList rest from rfl,
      List.map_append, childOps_append]
    rcases List.mem_cons.mp hmem with heq | hin
    · injection heq with e1 e2
      subst e1
      subst e2
      rw [childOps_dir_notmem n rest hnd.1, List.append_nil]
    · have hmn : (m == n) = false := by
        rw [beq_eq_false_iff_ne]
        intro hh
        subst hh
        exact hnd.1 (List.mem_map.mpr ⟨(m, c), hin, rfl⟩)
      rw [childOps_dir_other hmn (treePairs c2), List.nil_append,
        childOps_dir_block n c rest hnd.2 hin]

theorem childOps_write_block (n : String) (c : FSTree) : ∀ (cs : List (String × FSTree)),
    ((cs.map Prod.fst).Nodup) → (n, c) ∈ cs →
    childOps n ((treePairsList cs).flatMap (fun pe => entryWriteOps pe.1 pe.2))
      = childOps n (((treePairs c).map (fun pe => ((n :: pe.1 : List String), pe.2))).flatMap
          (fun pe => entryWriteOps pe.1 pe.2))
  | [], _, hmem => absurd hmem (by simp)
  | (m, c2) :: rest, hnd, hmem => by
    simp only [List.map_cons, List.nodup_cons] at hnd
    rw [show treePairsList ((m, c2) :: rest)
        = (treePairs c2).map (fun pe => (m :: pe.1, pe.2)) ++ treePairsList rest from rfl,
      List.flatMap_append, childOps_append]
    rcases List.mem_cons.mp hmem with heq | hin
    · injection heq with e1 e2
      subst e1
      subst e2
      rw [childOps_write_notmem n rest hnd.1, List.append_nil]
    · have hmn : (m == n) = false := by
        rw [beq_eq_false_iff_ne]
        intro hh
        subst hh
        exact hnd.1 (List.mem_map.mpr ⟨(m, c), hin, rfl⟩)
      rw [childOps_write_other hmn (treePairs c2), List.nil_append,
        childOps_write_block n c rest hnd.2 hin]

/-- The operations the child named `n` receives from the whole emitted
sequence are exactly those of its own block. -/
theorem childOps_segOps (n : String) (c : FSTree) (cs : List (String × FSTree))
    (hnd : (cs.map Prod.fst).Nodup) (hmem : (n, c) ∈ cs) :
    childOps n (segOps (treePairsList cs))
      = childOps n (((treePairs c).map (fun pe => ((n :: pe.1 : List String), pe.2))).map
          (fun pe => entryDirOp pe.1 pe.2))
        ++ childOps n (((treePairs c).map
            (fun pe => ((n :: pe.1 : List String), pe.2))).flatMap
          (fun pe => entryWriteOps pe.1 pe.2)) := by
  rw [show segOps (treePairsList cs)
      = (treePairsList cs).map (fun pe => entryDirOp pe.1 pe.2)
        ++ (treePairsList cs).flatMap (fun pe => entryWriteOps pe.1 pe.2) from rfl,
    childOps_append, childOps_dir_block n c cs hnd hmem,
    childOps_write_block n c cs hnd hmem]

/-! ## Toward C6: rebuilding each child from its operations -/

theorem treePairsList_paths_ne_nil {cs : List (String × FSTree)} :
    ∀ pe ∈ treePairsList cs, pe.1 ≠ [] := by
  intro pe hpe
  obtain ⟨p, e⟩ := pe
  obtain ⟨m, c2, q, -, hp, -⟩ := treePairsList_head hpe
  simp only
  rw [hp]
  exact List.cons_ne_nil m q

theorem child_co_file (n : String) (d : List Nat) :
    applyChildOps Option.none
      (childOps n (((treePairs (FSTree.file d)).map
            (fun pe => ((n :: pe.1 : List String), pe.2))).map
          (fun pe => entryDirOp pe.1 pe.2))
        ++ childOps n (((treePairs (FSTree.file d)).map
            (fun pe => ((n :: pe.1 : List String), pe.2))).flatMap
          (fun pe => entryWriteOps pe.1 pe.2)))
      = some (FSTree.file d) := by
  simp [treePairs, childOps, List.filterMap, opTail, entryDirOp, entryWriteOps,
    applyChildOps, applyChildOp]

theorem child_co_symlink (n : String) (t : String) :
    applyChildOps Option.none
      (childOps n (((treePairs (FSTree.symlink t)).map
            (fun pe => ((n :: pe.1 : List String), pe.2))).map
          (fun pe => entryDirOp pe.1 pe.2))
        ++ childOps n (((treePairs (FSTree.symlink t)).map
            (fun pe => ((n :: pe.1 : List String), pe.2))).flatMap
          (fun pe => entryWriteOps pe.1 pe.2)))
      = some (FSTree.symlink t) := by
  simp [treePairs, childOps, List.filterMap, opTail, entryDirOp, entryWriteOps,
    applyChildOps, applyChildOp]

theorem child_co_empty_dir (n : String) :
    applyChildOps Option.none
      (childOps n (((treePairs (FSTree.dir [])).map
            (fun pe => ((n :: pe.1 : List String), pe.2))).map
          (fun pe => entryDirOp pe.1 pe.2))
        ++ childOps n (((treePairs (FSTree.dir [])).map
            (fun pe => ((n :: pe.1 : List String), pe.2))).flatMap
          (fun pe => entryWriteOps pe.1 pe.2)))
      = some (FSTree.dir []) := by
  simp [treePairs, childOps, List.filterMap, opTail, entryDirOp, entryWriteOps,
    applyChildOps, applyChildOp, mkdirp]

theorem child_co_dir (n : String) (hd : String × FSTree) (tl : List (String × FSTree)) :
    childOps n (((treePairs (FSTree.dir (hd :: tl))).map
          (fun pe => ((n :: pe.1 : List String), pe.2))).map
        (fun pe => entryDirOp pe.1 pe.2))
      ++ childOps n (((treePairs (FSTree.dir (hd :: tl))).map
          (fun pe => ((n :: pe.1 : List String), pe.2))).flatMap
        (fun pe => entryWriteOps pe.1 pe.2))
      = segOps (treePairsList (hd :: tl)) := by
  rw [show treePairs (FSTree.dir (hd :: tl)) = treePairsList (hd :: tl) from rfl,
    childOps_dir_self n (treePairsList (hd :: tl)) treePairsList_paths_ne_nil,
    childOps_write_self n (treePairsList (hd :: tl))]
  rfl

theorem applyChildOps_none_segOps (pairs : List (List String × VolumeEntry))
    (hne : pairs ≠ []) :
    applyChildOps Option.none (segOps pairs)
      = some ((segOps pairs).foldl applyDiskOp (FSTree.dir [])) := by
  cases pairs with
  | nil => exact absurd rfl hne
  | cons q0 qrest =>
    rw [show segOps (q0 :: qrest)
        = entryDirOp q0.1 q0.2
            :: ((qrest.map (fun pe => entryDirOp pe.1 pe.2))
              ++ (q0 :: qrest).flatMap (fun pe => entryWriteOps pe.1 pe.2)) from by
      rw [show segOps (q0 :: qrest)
          = (q0 :: qrest).map (fun pe => entryDirOp pe.1 pe.2)
            ++ (q0 :: qrest).flatMap (fun pe => entryWriteOps pe.1 pe.2) from rfl,
        List.map_cons, List.cons_append]]
    obtain ⟨q, hq⟩ := entryDirOp_is_mkdir q0.1 q0.2
    rw [hq]
    exact applyChildOps_none_mkdir q _

/-- Rebuilding a directory from the operation sequence of its flattened
pairs: the cleared target starts empty, and the fold produces a
directory with the same child names (as a set) whose entries flatten to
a permutation of the originals. -/
theorem rebuild_spec (cs : List (String × FSTree)) :
    FSTree.wfChildren cs = true → (cs.map Prod.fst).Nodup →
    ∃ cs1, (segOps (treePairsList cs)).foldl applyDiskOp (FSTree.dir []) = FSTree.dir cs1
      ∧ (cs1.map Prod.fst).Nodup
      ∧ (cs1.map Prod.fst).Perm (cs.map Prod.fst)
      ∧ (∀ n c1, childLookup cs1 n = some c1 →
          ∃ c, childLookup cs n = some c ∧ (treePairs c1).Perm (treePairs c)) := by
  intro hwf hnd
  obtain ⟨cs1, hfold, hndf, hlook⟩ :=
    foldl_dir_step (segOps (treePairsList cs)) (segOps_ok cs) []
  have hnd1 : (cs1.map Prod.fst).Nodup := hndf (by simp)
  have hnone : ∀ n, n ∉ cs.map Prod.fst → childLookup cs1 n = Option.none := by
    intro n hn
    rw [hlook n,
      show segOps (treePairsList cs)
        = (treePairsList cs).map (fun pe => entryDirOp pe.1 pe.2)
          ++ (treePairsList cs).flatMap (fun pe => entryWriteOps pe.1 pe.2) from rfl,
      childOps_append, childOps_dir_notmem n cs hn, childOps_write_notmem n cs hn]
    rfl
  have hchar : ∀ n c, (n, c) ∈ cs →
      ∃ c1, childLookup cs1 n = some c1 ∧ (treePairs c1).Perm (treePairs c) := by
    intro n c hmem
    rw [hlook n, show childLookup ([] : List (String × FSTree)) n = Option.none from rfl,
      childOps_segOps n c cs hnd hmem]
    cases c with
    | file d => exact ⟨FSTree.file d, child_co_file n d, List.Perm.refl _⟩
    | symlink t => exact ⟨FSTree.symlink t, child_co_symlink n t, List.Perm.refl _⟩
    | dir cs2 =>
      cases cs2 with
      | nil => exact ⟨FSTree.dir [], child_co_empty_dir n, List.Perm.refl _⟩
      | cons hd2 tl2 =>
        have hwfc := wfChildren_mem hwf hmem
        have hwfd := hwfc.2
        have hwf2 : FSTree.wfChildren (hd2 :: tl2) = true := wfB_dir_children hwfd
        have hnd2 : (((hd2 :: tl2)).map Prod.fst).Nodup := wfB_dir_nodup hwfd
        obtain ⟨cs2f, hfold2, hnd2f, hperm2, hpt2⟩ := rebuild_spec (hd2 :: tl2) hwf2 hnd2
        refine ⟨FSTree.dir cs2f, ?_, ?_⟩
        · rw [child_co_dir n hd2 tl2,
            applyChildOps_none_segOps (treePairsList (hd2 :: tl2))
              (treePairsList_cons_ne_nil hd2 tl2), hfold2]
        · have hne2f : cs2f ≠ [] := by
            intro hh
            subst hh
            have := hperm2.symm
            rw [show (([] : List (String × FSTree)).map Prod.fst) = [] from rfl] at this
            have h0 := List.perm_nil.mp this
            simp at h0
          rw [show treePairs (FSTree.dir (hd2 :: tl2)) = treePairsList (hd2 :: tl2)
              from rfl,
            show treePairs (FSTree.dir cs2f) = if cs2f.isEmpty then
                [(([] : List String), VolumeEntry.emptyDir)] else treePairsList cs2f
              from rfl,
            show cs2f.isEmpty = false from by
              cases cs2f with
              | nil => exact absurd rfl hne2f
              | cons a b => rfl]
          simp only [Bool.false_eq_true, if_false]
          refine treePairsList_perm_of_pointwise cs2f (hd2 :: tl2) hnd2f hnd2 hperm2 ?_
          intro m2 cx cy hx hy
          obtain ⟨cy2, hcy2, hpcy⟩ := hpt2 m2 cx
            ((childLookup_eq_some_iff_mem hnd2f).mpr hx)
          have : cy = cy2 := by
            have h1 := (childLookup_eq_some_iff_mem hnd2).mpr hy
            rw [h1] at hcy2
            exact Option.some.inj hcy2
          rw [this]
          exact hpcy
  refine ⟨cs1, hfold, hnd1, ?_, ?_⟩
  · have hiff : ∀ n, n ∈ cs1.map Prod.fst ↔ n ∈ cs.map Prod.fst := by
      intro n
      constructor
      · intro h1
        by_contra h2
        have := hnone n h2
        rw [childLookup_none_iff] at this
        exact this h1
      · intro h2
        obtain ⟨⟨m, c⟩, hmc, hfst⟩ := List.mem_map.mp h2
        simp only at hfst
        subst hfst
        obtain ⟨c1, hc1, -⟩ := hchar m c hmc
        by_contra h1
        rw [← childLookup_none_iff] at h1
        rw [h1] at hc1
        cases hc1
    exact (List.perm_ext_iff_of_nodup hnd1 hnd).mpr hiff
  · intro n c1 hc1
    have hn1 : n ∈ cs.map Prod.fst := by
      by_contra h2
      rw [hnone n h2] at hc1
      cases hc1
    obtain ⟨⟨m, c⟩, hmc, hfst⟩ := List.mem_map.mp hn1
    simp only at hfst
    subst hfst
    obtain ⟨c1b, hc1b, hp⟩ := hchar m c hmc
    rw [hc1] at hc1b
    refine ⟨c, (childLookup_eq_some_iff_mem hnd).mpr hmc, ?_⟩
    rw [show c1 = c1b from Option.some.inj hc1b]
    exact hp
termination_by sizeOf cs
decreasing_by
  have hsz := List.sizeOf_lt_of_mem hmem
  simp only [Prod.mk.sizeOf_spec, FSTree.dir.sizeOf_spec] at hsz
  omega

/-! ## Toward C6: reading the snapshot directory back -/

theorem readDirChildren_eq (pfxSegs : List String) (withData : Bool) :
    ∀ (cs : List (String × FSTree)) (segs : List String),
    readDirChildren pfxSegs withData cs segs
      = (treePairsList cs).map (fun pe => (joinSegs "/" (pfxSegs ++ segs ++ pe.1),
          entryWithData withData pe.2))
  | [], segs => rfl
  | (n, c) :: rest, segs => by
    rw [show readDirChildren pfxSegs withData ((n, c) :: rest) segs
        = (match c with
           | FSTree.dir _ => readDirToMapWalk pfxSegs withData c (segs ++ [n])
           | FSTree.file d =>
             [(joinSegs "/" (pfxSegs ++ segs ++ [n]),
               VolumeEntry.file (if withData then d else []))]
           | FSTree.symlink t =>
             [(joinSegs "/" (pfxSegs ++ segs ++ [n]), VolumeEntry.symlink t)])
          ++ readDirChildren pfxSegs withData rest segs from rfl,
      show treePairsList ((n, c) :: rest)
        = (treePairs c).map (fun pe => (n :: pe.1, pe.2)) ++ treePairsList rest from rfl,
      List.map_append, readDirChildren_eq pfxSegs withData rest segs]
    congr 1
    cases c with
    | file d =>
      rw [show treePairs (FSTree.file d) = [([], VolumeEntry.file d)] from rfl]
      simp [entryWithData]
    | symlink t =>
      rw [show treePairs (FSTree.symlink t) = [([], VolumeEntry.symlink t)] from rfl]
      simp [entryWithData]
    | dir cs2 =>
      rw [show readDirToMapWalk pfxSegs withData (FSTree.dir cs2) (segs ++ [n])
          = (if cs2.isEmpty then
              [(joinSegs "/" (pfxSegs ++ (segs ++ [n])), VolumeEntry.emptyDir)]
             else [])
            ++ readDirChildren pfxSegs withData cs2 (segs ++ [n]) from rfl,
        readDirChildren_eq pfxSegs withData cs2 (segs ++ [n])]
      cases cs2 with
      | nil =>
        rw [show treePairs (FSTree.dir []) = [([], VolumeEntry.emptyDir)] from rfl,
          show treePairsList ([] : List (String × FSTree)) = [] from rfl]
        simp [entryWithData, List.append_assoc]
      | cons hd2 tl2 =>
        rw [show ((hd2 :: tl2).isEmpty) = false from rfl,
          show treePairs (FSTree.dir (hd2 :: tl2)) = treePairsList (hd2 :: tl2) from rfl]
        simp only [Bool.false_eq_true, if_false, List.nil_append, List.map_map]
        refine List.map_congr_left ?_
        intro pe _
        simp [List.append_assoc]

theorem readDirToMap_dir_eq (cs : List (String × FSTree)) (pfxSegs : List String)
    (wd : Bool) :
    readDirToMap (FSTree.dir cs) pfxSegs wd
      = (treePairs (FSTree.dir cs)).map
          (fun pe => (joinSegs "/" (pfxSegs ++ pe.1), entryWithData wd pe.2)) := by
  unfold readDirToMap
  rw [show readDirToMapWalk pfxSegs wd (FSTree.dir cs) []
      = (if cs.isEmpty then [(joinSegs "/" (pfxSegs ++ []), VolumeEntry.emptyDir)]
         else []) ++ readDirChildren pfxSegs wd cs [] from rfl,
    readDirChildren_eq pfxSegs wd cs []]
  cases cs with
  | nil =>
    rw [show treePairs (FSTree.dir []) = [([], VolumeEntry.emptyDir)] from rfl,
      show treePairsList ([] : List (String × FSTree)) = [] from rfl]
    simp [entryWithData]
  | cons hd tl =>
    rw [show ((hd :: tl).isEmpty) = false from rfl,
      show treePairs (FSTree.dir (hd :: tl)) = treePairsList (hd :: tl) from rfl]
    simp only [Bool.false_eq_true, if_false, List.nil_append]
    refine List.map_congr_left ?_
    intro pe _
    simp

/-! ## Toward C6: the emitted operations at the root -/

theorem entryWithData_true (e : VolumeEntry) : entryWithData true e = e := by
  cases e <;> rfl

/-- For a well-formed volume, the operations `writeVolumeToDir` collects
from the flat map are exactly the segment-level operations of the
flattened pairs (`realPrefix = '/'`, `rel = abs.slice(1)`). -/
theorem writeMapOps_eq (v : FSTree) (hwf : FSTree.wfB v = true) :
    writeMapOps (volumeToMap v "/" true) = segOps (treePairs v) := by
  rw [volumeToMap_root v true]
  rw [show writeMapOps ((treePairs v).map
        (fun pe => (joinSegs "/" pe.1, entryWithData true pe.2)))
      = ((treePairs v).map (fun pe => (joinSegs "/" pe.1, entryWithData true pe.2))).map
          (fun pe => entryDirOp (relSegs (sliceFrom1 pe.1)) pe.2)
        ++ ((treePairs v).map
            (fun pe => (joinSegs "/" pe.1, entryWithData true pe.2))).flatMap
          (fun pe => entryWriteOps (relSegs (sliceFrom1 pe.1)) pe.2) from rfl,
    List.map_map, List.flatMap_map]
  congr 1
  · refine List.map_congr_left ?_
    intro pe hpe
    simp only [Function.comp]
    rw [relSegs_joinSegs pe.1 (treePairs_valid v hwf hpe), entryWithData_true]
  · refine List.flatMap_congr ?_
    intro pe hpe
    simp only
    rw [relSegs_joinSegs pe.1 (treePairs_valid v hwf hpe), entryWithData_true]

/-- The fold of the emitted operations rebuilds a directory whose
flattening is a permutation of the original. -/
theorem rebuild_pairs_perm (cs : List (String × FSTree))
    (hwf : FSTree.wfChildren cs = true) (hnd : (cs.map Prod.fst).Nodup) :
    ∃ cs1, (segOps (treePairsList cs)).foldl applyDiskOp (FSTree.dir [])
        = FSTree.dir cs1
      ∧ (treePairsList cs1).Perm (treePairsList cs) := by
  obtain ⟨cs1, hfold, hnd1, hperm1, hpt⟩ := rebuild_spec cs hwf hnd
  refine ⟨cs1, hfold, ?_⟩
  refine treePairsList_perm_of_pointwise cs1 cs hnd1 hnd hperm1 ?_
  intro m cx cy hx hy
  obtain ⟨cy2, hcy2, hp⟩ := hpt m cx ((childLookup_eq_some_iff_mem hnd1).mpr hx)
  have h1 := (childLookup_eq_some_iff_mem hnd).mpr hy
  rw [h1] at hcy2
  rw [Option.some.inj hcy2]
  exact hp

/-- The snapshot write of a well-formed directory-rooted volume produces
a directory whose flattening is a permutation of the volume's. -/
theorem writeVolumeToDirTree_pairs (cs : List (String × FSTree))
    (hwf : FSTree.wfB (FSTree.dir cs) = true) :
    ∃ cs1, writeVolumeToDirTree (FSTree.dir cs) = FSTree.dir cs1
      ∧ (treePairs (FSTree.dir cs1)).Perm (treePairs (FSTree.dir cs)) := by
  have hbase : writeVolumeToDirTree (FSTree.dir cs)
      = (segOps (treePairs (FSTree.dir cs))).foldl applyDiskOp (FSTree.dir []) := by
    rw [show writeVolumeToDirTree (FSTree.dir cs)
        = (writeMapOps (volumeToMap (FSTree.dir cs) "/" true)).foldl applyDiskOp
            (FSTree.dir []) from rfl,
      writeMapOps_eq (FSTree.dir cs) hwf]
  cases cs with
  | nil =>
    refine ⟨[], ?_, List.Perm.refl _⟩
    rw [hbase]
    rfl
  | cons hd tl =>
    rw [show treePairs (FSTree.dir (hd :: tl)) = treePairsList (hd :: tl) from rfl]
      at hbase ⊢
    obtain ⟨cs1, hfold, hperm⟩ := rebuild_pairs_perm (hd :: tl)
      (wfB_dir_children hwf) (wfB_dir_nodup hwf)
    refine ⟨cs1, by rw [hbase, hfold], ?_⟩
    have hne1 : cs1 ≠ [] := by
      intro hh
      subst hh
      have := List.perm_nil.mp hperm.symm
      exact treePairsList_cons_ne_nil hd tl this
    rw [show treePairs (FSTree.dir cs1)
        = if cs1.isEmpty then [(([] : List String), VolumeEntry.emptyDir)]
          else treePairsList cs1 from rfl,
      show cs1.isEmpty = false from by
        cases cs1 with
        | nil => exact absurd rfl hne1
        | cons a b => rfl]
    simp only [Bool.false_eq_true, if_false]
    exact hperm

/-- Keys of the default flattening of a well-formed volume are
duplicate-free. -/
theorem volumeToMap_root_keys_nodup (v : FSTree) (hwf : FSTree.wfB v = true)
    (wd : Bool) : ((volumeToMap v "/" wd).keys).Nodup := by
  rw [volumeToMap_root v wd]
  unfold VolumeMap.keys
  rw [List.map_map,
    show (Prod.fst ∘ fun pe : List String × VolumeEntry =>
        (joinSegs "/" pe.1, entryWithData wd pe.2))
      = (fun pe : List String × VolumeEntry => joinSegs "/" pe.1) from rfl,
    show (fun pe : List String × VolumeEntry => joinSegs "/" pe.1)
      = (joinSegs "/") ∘ Prod.fst from rfl,
    ← List.map_map]
  refine (treePairs_paths_nodup v hwf).map_on ?_
  intro x hx y hy hxy
  obtain ⟨pex, hpex, hfx⟩ := List.mem_map.mp hx
  obtain ⟨pey, hpey, hfy⟩ := List.mem_map.mp hy
  refine joinSegs_root_inj ?_ ?_ hxy
  · rw [← hfx]
    exact treePairs_valid v hwf hpex
  · rw [← hfy]
    exact treePairs_valid v hwf hpey

/-! ## Claim C6 -/

/-- **C6.** For every well-formed directory-rooted volume, writing its
flat map to a cleared snapshot directory with `writeVolumeToDir` and
reading that directory back with `readDirToMap` (content included)
yields a flat map that compares equal to the written one under
`listMatch: 'exact'` and `contentMatch: 'all'`, in both report modes:
identical key sets, and identical file bytes, symlink targets and
empty-directory markers at every key. -/
theorem c6_write_read_roundtrip (isText : String → List Nat → Bool)
    (cs : List (String × FSTree)) (hwf : FSTree.wfB (FSTree.dir cs) = true)
    (report : Option ReportType) :
    compareVolumeMapsPass isText
      (readDirToMap (writeVolumeToDirTree (FSTree.dir cs)) [] true)
      (volumeToMap (FSTree.dir cs) "/" true)
      (some .exact) (some .all) report = true := by
  obtain ⟨cs1, hR, hperm⟩ := writeVolumeToDirTree_pairs cs hwf
  rw [hR, readDirToMap_dir_eq cs1 [] true,
    show ((treePairs (FSTree.dir cs1)).map
        (fun pe => (joinSegs "/" (([] : List String) ++ pe.1), entryWithData true pe.2)))
      = ((treePairs (FSTree.dir cs1)).map
        (fun pe => (joinSegs "/" pe.1, entryWithData true pe.2))) from
      List.map_congr_left (fun pe _ => by simp),
    volumeToMap_root (FSTree.dir cs) true]
  have hmapperm : (((treePairs (FSTree.dir cs1)).map
      (fun pe => (joinSegs "/" pe.1, entryWithData true pe.2))) : VolumeMap).Perm
      ((treePairs (FSTree.dir cs)).map
        (fun pe => (joinSegs "/" pe.1, entryWithData true pe.2))) := hperm.map _
  have hek : (VolumeMap.keys ((treePairs (FSTree.dir cs)).map
      (fun pe => (joinSegs "/" pe.1, entryWithData true pe.2)))).Nodup := by
    rw [← volumeToMap_root (FSTree.dir cs) true]
    exact volumeToMap_root_keys_nodup (FSTree.dir cs) hwf true
  have hkeysperm : (VolumeMap.keys ((treePairs (FSTree.dir cs1)).map
      (fun pe => (joinSegs "/" pe.1, entryWithData true pe.2)))).Perm
      (VolumeMap.keys ((treePairs (FSTree.dir cs)).map
        (fun pe => (joinSegs "/" pe.1, entryWithData true pe.2)))) := hmapperm.map Prod.fst
  have hrk : (VolumeMap.keys ((treePairs (FSTree.dir cs1)).map
      (fun pe => (joinSegs "/" pe.1, entryWithData true pe.2)))).Nodup :=
    (hkeysperm.nodup_iff).mpr hek
  have hmem : ∀ k, k ∈ VolumeMap.keys ((treePairs (FSTree.dir cs1)).map
        (fun pe => (joinSegs "/" pe.1, entryWithData true pe.2)))
      ↔ k ∈ VolumeMap.keys ((treePairs (FSTree.dir cs)).map
        (fun pe => (joinSegs "/" pe.1, entryWithData true pe.2))) :=
    fun k => hkeysperm.mem_iff
  have hsorted := sortKeys_eq_of_perm hkeysperm
  have hlk : ∀ p, VolumeMap.lookup ((treePairs (FSTree.dir cs1)).map
        (fun pe => (joinSegs "/" pe.1, entryWithData true pe.2))) p
      = VolumeMap.lookup ((treePairs (FSTree.dir cs)).map
        (fun pe => (joinSegs "/" pe.1, entryWithData true pe.2))) p :=
    fun p => lookup_eq_of_perm hmapperm hrk p
  refine pass_of_all_matched isText _ _ (some .all) hmem hsorted ?_ (some .exact) report
  intro p hp
  have hpe : p ∈ VolumeMap.keys ((treePairs (FSTree.dir cs)).map
      (fun pe => (joinSegs "/" pe.1, entryWithData true pe.2))) :=
    hp.elim (fun h => (hmem p).mp h) id
  obtain ⟨a, ha⟩ := Option.isSome_iff_exists.mp
    ((lookup_isSome_iff_mem_keys _ p).mpr hpe)
  rw [hlk p, ha]
  exact matchEntryFn_self _ _ isText p a

/-- Witness for C6: a volume with an empty directory, a file and a
symlink round-trips through the snapshot directory. -/
theorem c6_write_read_roundtrip_witness :
    (FSTree.wfB (FSTree.dir [("a", FSTree.dir []), ("b", FSTree.file [104, 105]),
        ("c", FSTree.symlink "/b")]) = true)
    ∧ compareVolumeMapsPass (fun _ _ => true)
        (readDirToMap (writeVolumeToDirTree (FSTree.dir [("a", FSTree.dir []),
          ("b", FSTree.file [104, 105]), ("c", FSTree.symlink "/b")])) [] true)
        (volumeToMap (FSTree.dir [("a", FSTree.dir []), ("b", FSTree.file [104, 105]),
          ("c", FSTree.symlink "/b")]) "/" true)
        (some .exact) (some .all) (some .all) = true :=
  ⟨by decide,
    c6_write_read_roundtrip (fun _ _ => true)
      [("a", FSTree.dir []), ("b", FSTree.file [104, 105]), ("c", FSTree.symlink "/b")]
      (by decide) (some .all)⟩

end VitestMemfs
